import Mathlib

/-!
# fstransform / fsremap: shallow embedding and verification

Embedding of the storage planner (`ft_work<T>::create_storage`,
`ft_work<T>::fill_io_primary_storage`, the hole threshold of
`ft_work<T>::analyze`) from `src/work.t.hh` and of the DEV2DEV relocation loop
(`fr_io_posix::flush_copy_bytes`) from `fsremap/src/io/io_posix.cc`.

Conventions.
* `ft_uoff` is the 64-bit unsigned byte-offset type: arithmetic on it is on `Nat`
  reduced modulo `2 ^ 64` wherever the C++ expression can wrap.
* `ft_size` is `size_t`; its width `szbits` (32 or 64) is a parameter.
* the block-number type `T` is an unsigned type of `tbits` bits; a conversion to
  `T` is a reduction modulo `2 ^ tbits`.
* status codes are `Int`: `0` is success.
-/

namespace Fstransform

/-! ## Machine integers -/

/-- Number of bits of `ft_uoff`. -/
def UOFF_BITS : Nat := 64

/-- Conversion of a non-negative value to an unsigned type of `bits` bits. -/
def wrap (bits n : Nat) : Nat := n % 2 ^ bits

/-- Conversion to `ft_uoff`. -/
def to_uoff (n : Nat) : Nat := wrap UOFF_BITS n

/-- Bitwise complement `~m` of an `ft_uoff` value. -/
def uoff_not (m : Nat) : Nat := 2 ^ UOFF_BITS - 1 - m % 2 ^ UOFF_BITS

/-- Linux value of `EINVAL`. -/
def EINVAL : Int := 22

/-- Linux value of `EOVERFLOW`. -/
def EOVERFLOW : Int := 75

/-- Modelled from the spec: `util.hh` (`ff_min2`) is not among the sources; the
smaller of two values. -/
def ff_min2 (a b : Nat) : Nat := if a < b then a else b

/-- Modelled from the spec: `log.hh` (`ff_log`) is not among the sources. The call
logs a message and hands back the error it was given; a positive `errno` value
comes back negated, which marks it as already reported. -/
def ff_log (err : Int) : Int := if 0 < err then -err else err

/-! ## Extents, vectors and maps -/

/-- An extent `(physical, logical, length)` with its `user_data` word
(`ft_extent<T>` / `fr_extent<T>`). -/
structure Extent where
  physical : Nat
  logical : Nat
  length : Nat
  user_data : Nat
deriving DecidableEq

/-- Order of `sort_by_physical`: `(physical, length)` ascending. -/
def le_by_physical (a b : Extent) : Prop :=
  a.physical < b.physical ∨ (a.physical = b.physical ∧ a.length ≤ b.length)

/-- Order of `sort_by_logical`: `(logical, length)` ascending. -/
def le_by_logical (a b : Extent) : Prop :=
  a.logical < b.logical ∨ (a.logical = b.logical ∧ a.length ≤ b.length)

/-- Order of `sort_by_reverse_length`: `length` descending. -/
def le_by_reverse_length (a b : Extent) : Prop := b.length ≤ a.length

instance : DecidableRel le_by_physical := fun a b => by
  unfold le_by_physical; exact inferInstance

instance : DecidableRel le_by_logical := fun a b => by
  unfold le_by_logical; exact inferInstance

instance : DecidableRel le_by_reverse_length := fun a b => by
  unfold le_by_reverse_length; exact inferInstance

/-- Modelled from the spec: `vector.hh` is not among the sources.
`sort_by_physical` orders a vector by `(physical, length)` ascending. The proofs
below use only that the result is an ordered permutation of the argument. -/
def sort_by_physical (v : List Extent) : List Extent :=
  List.insertionSort le_by_physical v

/-- Modelled from the spec: `vector.hh` is not among the sources.
`sort_by_logical` orders a vector (or a range of it) by `(logical, length)`
ascending. -/
def sort_by_logical (v : List Extent) : List Extent :=
  List.insertionSort le_by_logical v

/-- Modelled from the spec: `vector.hh` is not among the sources.
`sort_by_reverse_length` orders a vector by `length` descending. -/
def sort_by_reverse_length (v : List Extent) : List Extent :=
  List.insertionSort le_by_reverse_length v

/-- Sum of the lengths of a list of extents. -/
def total_length (v : List Extent) : Nat := (v.map Extent.length).sum

/-! ## `fr_io_posix::flush_copy_bytes`, direction DEV2DEV -/

/-- Internal copy directions of `fr_io_posix` (`fr_dir_posix`). -/
inductive fr_dir_posix where
  | FC_POSIX_STORAGE2DEV
  | FC_POSIX_DEV2STORAGE
  | FC_POSIX_DEV2RAM
  | FC_POSIX_RAM2DEV
deriving DecidableEq

/-- One operation issued by the relocation loop: a call of the four-argument
`flush_copy_bytes(dir, from_offset, to_offset, length)` or of `flush_bytes()`. -/
inductive Call where
  | copy (dir : fr_dir_posix) (from_offset to_offset length : Nat)
  | flush
deriving DecidableEq

/-- The state of `fr_io_posix` the copy loop reads, and the outcome of the system
calls it makes (`0` = success). -/
structure PosixEnv where
  /-- Value of `(ft_size)-1`. -/
  size_max : Nat
  storage_mmap_size : Nat
  buffer_mmap_size : Nat
  simulate_run : Bool
  /-- Status of `ff_posix_lseek(fd[FC_DEVICE], offset)`. -/
  sys_lseek : Nat → Int
  /-- Status of `ff_posix_read(fd, mmap_address + mem_offset, mem_length)` after
  a seek to `dev_offset`. -/
  sys_read : Nat → Nat → Nat → Int
  /-- Status of `ff_posix_write(fd, mmap_address + mem_offset, mem_length)` after
  a seek to `dev_offset`. -/
  sys_write : Nat → Nat → Nat → Int
  /-- Status of `msync(storage_mmap, storage_mmap_size, MS_SYNC)`. -/
  sys_msync : Int

/-- Modelled from the spec: `fr_io::validate` (the superclass method called by
`fr_io_posix::validate`) is not among the sources. Every transfer validates
`from + length` and `to + length` against the given maximum; on overflow the
operation fails `EOVERFLOW`. -/
def validate (type_max from_offset to_offset length : Nat) : Int :=
  if from_offset + length ≤ type_max ∧ to_offset + length ≤ type_max then 0
  else ff_log EOVERFLOW

/-- The four-argument `fr_io_posix::flush_copy_bytes(dir, from_offset, to_offset,
length)` (io_posix.cc lines 776-859): the status it returns. -/
def flush_copy_bytes_status (env : PosixEnv) (dir : fr_dir_posix)
    (from_offset to_offset length : Nat) : Int :=
  let use_storage : Bool :=
    dir = fr_dir_posix.FC_POSIX_DEV2STORAGE || dir = fr_dir_posix.FC_POSIX_STORAGE2DEV
  let read_dev : Bool :=
    dir = fr_dir_posix.FC_POSIX_DEV2STORAGE || dir = fr_dir_posix.FC_POSIX_DEV2RAM
  let mmap_size := if use_storage then env.storage_mmap_size else env.buffer_mmap_size
  let dev_offset := if read_dev then from_offset else to_offset
  let other_offset := if read_dev then to_offset else from_offset
  let err := validate env.size_max from_offset to_offset length
  let err := if err = 0 then validate mmap_size 0 other_offset length else err
  if err ≠ 0 then err
  else if env.simulate_run then 0
  else
    let err := env.sys_lseek dev_offset
    if err ≠ 0 then ff_log err
    else
      let err :=
        if read_dev then env.sys_read dev_offset other_offset length
        else env.sys_write dev_offset other_offset length
      if err ≠ 0 then ff_log err else 0

/-- Status returned by `fr_io_posix::flush_bytes()` (io_posix.cc lines 883-916):
a failing `msync` is logged as a warning and the status reset to `0`. -/
def flush_bytes (env : PosixEnv) : Int :=
  if env.simulate_run then 0
  else
    let err := env.sys_msync
    let err := if err ≠ 0 then 0 else err
    err

/-- Status of one issued operation. -/
def Call.status (env : PosixEnv) : Call → Int
  | Call.copy dir from_offset to_offset length =>
      flush_copy_bytes_status env dir from_offset to_offset length
  | Call.flush => flush_bytes env

/-- Outcome of the fill pass. -/
structure FillResult where
  err : Int
  /-- Extents packed into the RAM buffer, in read order, `user_data` set to the
  buffer offset. -/
  batch : List Extent
  calls : List Call
  /-- Extents of `request_vec` from index `i` on. -/
  rest : List Extent

/-- Fill pass (io_posix.cc lines 694-702): starting at index `i` with `buf_offset`
and `buf_free`, read extents into the RAM buffer while they fit. The argument is
`request_vec[i..n)`. -/
def fill_pass (env : PosixEnv) : Nat → Nat → List Extent → FillResult
  | _, _, [] => ⟨0, [], [], []⟩
  | buf_offset, buf_free, extent :: rest =>
    if buf_free = 0 then ⟨0, [], [], extent :: rest⟩
    else if extent.length > buf_free then ⟨0, [], [], extent :: rest⟩
    else
      let call := Call.copy fr_dir_posix.FC_POSIX_DEV2RAM extent.physical buf_offset extent.length
      let err := call.status env
      if err ≠ 0 then ⟨err, [], [call], { extent with user_data := buf_offset } :: rest⟩
      else
        let r := fill_pass env (buf_offset + extent.length) (buf_free - extent.length) rest
        ⟨r.err, { extent with user_data := buf_offset } :: r.batch, call :: r.calls, r.rest⟩

/-- Drain pass (io_posix.cc lines 710-714): write each extent of the batch, already
sorted by logical, from its buffer offset to its logical offset. -/
def drain_pass (env : PosixEnv) : List Extent → Int × List Call
  | [] => (0, [])
  | extent :: rest =>
    let call := Call.copy fr_dir_posix.FC_POSIX_RAM2DEV extent.user_data extent.logical extent.length
    let err := call.status env
    if err ≠ 0 then (err, [call])
    else
      let r := drain_pass env rest
      (r.1, call :: r.2)

/-- Chunk loop of one extent that does not fit the RAM buffer (io_posix.cc lines
731-740). `from_offset` and `to_offset` are the values set before the loop; the
loop body changes only `length`. Returns `none` when the fuel runs out. -/
def chunk_loop (env : PosixEnv) (from_offset to_offset buf_offset buf_free : Nat) :
    Nat → Nat → Option (Int × List Call)
  | _, 0 => some (0, [])
  | 0, _ + 1 => none
  | fuel + 1, length + 1 =>
    let buf_length := ff_min2 (length + 1) buf_free
    let rd := Call.copy fr_dir_posix.FC_POSIX_DEV2RAM from_offset buf_offset buf_length
    let wr := Call.copy fr_dir_posix.FC_POSIX_RAM2DEV buf_offset to_offset buf_length
    if rd.status env ≠ 0 then some (rd.status env, [rd])
    else if wr.status env ≠ 0 then some (wr.status env, [rd, wr])
    else if flush_bytes env ≠ 0 then some (flush_bytes env, [rd, wr, Call.flush])
    else
      match chunk_loop env from_offset to_offset buf_offset buf_free fuel
          (length + 1 - buf_length) with
      | none => none
      | some (err, calls) => some (err, rd :: wr :: Call.flush :: calls)

/-- Pass over the extents that do not fit the RAM buffer (io_posix.cc lines
723-743), with `buf_offset = 0` and `buf_free = buffer_mmap_size`. Returns the
status, the operations issued and `request_vec[i..n)` for the final `i`. -/
def oversize_pass (env : PosixEnv) (fuel : Nat) :
    List Extent → Option (Int × List Call × List Extent)
  | [] => some (0, [], [])
  | extent :: rest =>
    if extent.length ≤ env.buffer_mmap_size then some (0, [], extent :: rest)
    else
      match chunk_loop env extent.physical extent.logical 0 env.buffer_mmap_size fuel
          extent.length with
      | none => none
      | some (err, calls) =>
        if err ≠ 0 then some (err, calls, extent :: rest)
        else
          match oversize_pass env fuel rest with
          | none => none
          | some (err2, calls2, rest2) => some (err2, calls ++ calls2, rest2)

/-- The `do { ... } while (err == 0 && (start = i) != n)` loop of the DEV2DEV
case (io_posix.cc lines 692-744). The argument is `request_vec[start..n)`. Returns
the final status and the operations issued, `none` when the fuel runs out. -/
def dev2dev_loop (env : PosixEnv) : Nat → List Extent → Option (Int × List Call)
  | 0, _ => none
  | fuel + 1, request =>
    let f := fill_pass env 0 env.buffer_mmap_size request
    if f.err ≠ 0 then some (f.err, f.calls)
    else
      let d := if f.batch ≠ [] then drain_pass env (sort_by_logical f.batch) else (0, [])
      if d.1 ≠ 0 then some (d.1, f.calls ++ d.2)
      else if flush_bytes env ≠ 0 then some (flush_bytes env, f.calls ++ d.2 ++ [Call.flush])
      else
        match oversize_pass env fuel f.rest with
        | none => none
        | some (err, calls, rest) =>
          let done := f.calls ++ d.2 ++ [Call.flush] ++ calls
          if err ≠ 0 then some (err, done)
          else if rest = [] then some (0, done)
          else
            match dev2dev_loop env fuel rest with
            | none => none
            | some (err2, calls2) => some (err2, done ++ calls2)

/-- The call `fr_io_posix::flush_copy_bytes(FC_DEV2DEV, request_vec)` (io_posix.cc
lines 681-746): sort by physical, then run the loop. -/
def flush_copy_bytes_dev2dev (env : PosixEnv) (fuel : Nat) (request_vec : List Extent) :
    Option (Int × List Call) :=
  dev2dev_loop env fuel (sort_by_physical request_vec)

/-! ## The storage planner: `ft_work<T>::create_storage` -/

/-- Subtraction `a - b` on `ft_uoff`. -/
def uoff_sub (a b : Nat) : Nat := to_uoff (a + (2 ^ UOFF_BITS - b % 2 ^ UOFF_BITS))

/-- Template `ff_round_up<T>(n, power_of_2_minus_1)` (work.t.hh lines 189-195) at an
unsigned type of `bits` bits. -/
def ff_round_up (bits n power_of_2_minus_1 : Nat) : Nat :=
  if n &&& power_of_2_minus_1 ≠ 0 then wrap bits ((n ||| power_of_2_minus_1) + 1) else n

/-- What `create_storage` reads from its surroundings. -/
structure PlannerInput where
  /-- Width of `ft_size` in bits, `8 * sizeof(ft_size)`. -/
  szbits : Nat
  /-- Value of `io->effective_block_size_log2()`. -/
  eff_block_size_log2 : Nat
  /-- Value of `ff_arch_mem_system_free()`, `0` when unknown. -/
  free_ram : Nat
  /-- Value of `ff_mem_page_size()`. -/
  page_size : Nat
  /-- Value of `dev_free_map.total_count()`. -/
  free_total_count : Nat
  work_count : Nat
  /-- Value of `io->job_storage_size()`. -/
  job_storage_size : Nat
  /-- Value of `io->job_storage_size_exact()`. -/
  job_storage_size_exact : Bool

/-- The lengths `create_storage` has computed when it calls `io->create_storage`. -/
structure StoragePlan where
  total_len : Nat
  primary_len : Nat
  secondary_len : Nat
deriving DecidableEq

/-- Constant `_1M_minus_1` of `create_storage`. -/
def _1M_minus_1 : Nat := 1024 * 1024 - 1

/-- Variable `free_ram_3` of the auto-sizing branch (work.t.hh lines 549-562). -/
def free_ram_3 (inp : PlannerInput) : Nat :=
  if inp.free_ram ≠ 0 then to_uoff (to_uoff inp.free_ram + 2) / 3
  else if inp.szbits ≤ 32 then 16 * 1024 * 1024 else 256 * 1024 * 1024

/-- Variable `work_length_10` of the auto-sizing branch (work.t.hh line 563). -/
def work_length_10 (inp : PlannerInput) : Nat :=
  to_uoff (to_uoff (to_uoff inp.work_count <<< inp.eff_block_size_log2) + 9) / 10

/-- Value of `total_len` after the `if (total_len != 0) ... else ...` statement
(work.t.hh lines 514-568), before the alignment to page and block size. -/
def initial_total_len (inp : PlannerInput) : Nat :=
  let total_len := to_uoff inp.job_storage_size
  if total_len ≠ 0 then total_len
  else ff_round_up UOFF_BITS (ff_min2 (free_ram_3 inp) (work_length_10 inp)) _1M_minus_1

/-- Function `unusable_storage_size` (work.t.hh lines 485-492): logs and returns
`-EOVERFLOW`. -/
def unusable_storage_size : Int := -EOVERFLOW

/-- Body of `ft_work<T>::create_storage` up to the computation of `secondary_len`
(work.t.hh lines 507-617): either the error it returns early, or the lengths with
which it goes on to `fill_io_primary_storage` and `io->create_storage`. -/
def create_storage_plan (inp : PlannerInput) : Except Int StoragePlan :=
  let eff_block_size_minus_1 := uoff_sub (to_uoff (1 <<< inp.eff_block_size_log2)) 1
  let page_size_minus_1 := uoff_sub (to_uoff inp.page_size) 1
  let primary_len := to_uoff (to_uoff inp.free_total_count <<< inp.eff_block_size_log2)
  let requested_len := to_uoff inp.job_storage_size
  let exact := inp.job_storage_size_exact
  if exact = true ∧ requested_len = 0 then Except.error (-EINVAL)
  else
    let total_len := initial_total_len inp
    let total_len := ff_round_up UOFF_BITS total_len page_size_minus_1
    if exact = true ∧ total_len ≠ requested_len then Except.error unusable_storage_size
    else
      let total_len := ff_round_up UOFF_BITS total_len eff_block_size_minus_1
      if exact = true ∧ total_len ≠ requested_len then Except.error unusable_storage_size
      else
        let aligment_size_minus_1 := eff_block_size_minus_1 ||| page_size_minus_1
        let primary_len := primary_len &&& uoff_not aligment_size_minus_1
        let off_max := ((2 ^ UOFF_BITS - 1) >>> 1) &&& uoff_not aligment_size_minus_1
        let primary_len := ff_min2 primary_len off_max
        let total_len := ff_min2 total_len off_max
        if exact = true ∧ total_len ≠ requested_len then Except.error unusable_storage_size
        else
          let mem_max := wrap inp.szbits
            (to_uoff (((2 ^ inp.szbits - 1) >>> (if exact then 0 else 2)) + 1)
              &&& uoff_not aligment_size_minus_1)
          let primary_len := ff_min2 primary_len mem_max
          let total_len := ff_min2 total_len mem_max
          if exact = true ∧ total_len ≠ requested_len then Except.error unusable_storage_size
          else
            let total_len := if total_len = 0 then to_uoff (aligment_size_minus_1 + 1) else total_len
            let primary_len := if primary_len > total_len then total_len else primary_len
            let secondary_len := total_len - primary_len
            Except.ok ⟨total_len, primary_len, secondary_len⟩

/-! ## `ft_work<T>::fill_io_primary_storage` -/

/-- Extent map `ft_map<T>`: its entries in key order (ascending physical) and the
two aggregate counters kept beside them. -/
structure ft_map where
  entries : List Extent
  total_count : Nat
  used_count : Nat
deriving DecidableEq

/-- Modelled from the spec: `map.hh` is not among the sources. `append0_shift(vec,
shift)` appends every entry of `vec`, right-shifted; the values are stored as `T`.
The spec adds "marking `logical = physical`", but `analyze` (work.t.hh lines 251
and 369) tells invariant from moved LOOP-FILE extents by the logical of the
appended entries, so the logical is shifted like the other fields. -/
def append0_shift (tbits : Nat) (vec : List Extent) (shift : Nat) : List Extent :=
  vec.map fun e =>
    { physical := wrap tbits (e.physical >>> shift),
      logical := wrap tbits (e.logical >>> shift),
      length := wrap tbits (e.length >>> shift),
      user_data := e.user_data }

/-- First loop of `fill_io_primary_storage` (work.t.hh lines 657-665): the extent
appended to `primary_storage` for one entry of `dev_free_map`. The locals
`physical` and `length` are declared with type `T`. -/
def primary_extent_of (tbits shift : Nat) (extent : Extent) : Extent :=
  let physical := wrap tbits (to_uoff (to_uoff extent.physical <<< shift))
  let length := wrap tbits (to_uoff (to_uoff extent.length <<< shift))
  { physical := physical, logical := physical, length := length,
    user_data := extent.user_data }

/-- Loop `while (extra_len != 0 && !primary_storage.empty())` of
`fill_io_primary_storage` (work.t.hh lines 679-691). The vector is given from its
back: the head of the list is `primary_storage.back()`. -/
def drop_smallest (tbits : Nat) : Nat → List Extent → List Extent
  | _, [] => []
  | extra_len, extent :: rest =>
    if extra_len = 0 then extent :: rest
    else
      let length := wrap tbits extent.length
      if length ≤ extra_len then drop_smallest tbits (extra_len - length) rest
      else { extent with length := uoff_sub extent.length extra_len } :: rest

/-- Method `ft_work<T>::fill_io_primary_storage(primary_len)` (work.t.hh lines
647-698) for a block-number type `T` of `tbits` bits: the new `dev_free_map` and
the new `io->primary_storage()`, or `none` when the `ff_assert` fails. The counters
of a map are maintained by its callers, so `clear()` is taken to leave
`used_count` as it is. -/
def fill_io_primary_storage (tbits eff_block_size_log2 : Nat) (dev_free_map : ft_map)
    (primary_storage : List Extent) (primary_len : Nat) : Option (ft_map × List Extent) :=
  let eff_block_size_minus_1 := uoff_sub (to_uoff (1 <<< eff_block_size_log2)) 1
  if primary_len &&& eff_block_size_minus_1 ≠ 0 then none
  else
    let primary_storage :=
      primary_storage ++ dev_free_map.entries.map (primary_extent_of tbits eff_block_size_log2)
    let available_len := to_uoff (to_uoff dev_free_map.total_count <<< eff_block_size_log2)
    let total_count := wrap tbits (primary_len >>> eff_block_size_log2)
    if available_len > primary_len then
      let extra_len := available_len - primary_len
      let primary_storage := sort_by_reverse_length primary_storage
      let primary_storage := (drop_smallest tbits extra_len primary_storage.reverse).reverse
      let primary_storage := sort_by_physical primary_storage
      some (⟨append0_shift tbits primary_storage eff_block_size_log2, total_count,
              dev_free_map.used_count⟩, primary_storage)
    else
      some ({ dev_free_map with total_count := total_count }, primary_storage)

/-! ## The hole threshold of `ft_work<T>::analyze` -/

/-- Variable `page_size_blocks` of `analyze` (work.t.hh line 437). -/
def page_size_blocks (tbits page_size eff_block_size_log2 : Nat) : Nat :=
  wrap tbits (page_size >>> eff_block_size_log2)

/-- Variable `hole_threshold` of `analyze` (work.t.hh line 443). -/
def hole_threshold (work_count page_size_blocks : Nat) : Nat :=
  ff_min2 (to_uoff work_count >>> 10) (to_uoff (to_uoff page_size_blocks <<< 12))

/-! ## Vocabulary for the statements about the DEV2DEV loop -/

/-- The call that reads an extent from the device into the RAM buffer, at the
buffer offset held in its `user_data`. -/
def read_call (e : Extent) : Call :=
  Call.copy fr_dir_posix.FC_POSIX_DEV2RAM e.physical e.user_data e.length

/-- The call that writes an extent from the RAM buffer, at the buffer offset held
in its `user_data`, to its logical offset on the device. -/
def write_call (e : Extent) : Call :=
  Call.copy fr_dir_posix.FC_POSIX_RAM2DEV e.user_data e.logical e.length

/-- The three operations of one chunk `(from_offset, to_offset, length)` of the
chunk loop: read into the start of the buffer, write from there, flush. -/
def chunk_calls (c : Nat × Nat × Nat) : List Call :=
  [Call.copy fr_dir_posix.FC_POSIX_DEV2RAM c.1 0 c.2.2,
   Call.copy fr_dir_posix.FC_POSIX_RAM2DEV 0 c.2.1 c.2.2,
   Call.flush]

/-- What one iteration of the `do ... while` loop did. -/
structure Pass where
  /-- Extents packed by the fill pass, in read order, `user_data` holding the
  buffer offset. -/
  batch : List Extent
  /-- The extents of the batch in the order in which the drain pass wrote them. -/
  drained : List Extent
  /-- Extents handed to the chunk loop after the flush. -/
  oversize : List Extent
  /-- Chunks `(from_offset, to_offset, length)` transferred by the chunk loop. -/
  chunks : List (Nat × Nat × Nat)

/-- The operations of one iteration, in the order they were issued: the reads of
the batch, the writes of the batch, one flush, then the chunks. -/
def Pass.calls (p : Pass) : List Call :=
  p.batch.map read_call ++ p.drained.map write_call ++ [Call.flush]
    ++ p.chunks.flatMap chunk_calls

/-- The part of an extent that identifies the request: `(physical, logical,
length)`, without `user_data`. -/
def Extent.key (e : Extent) : Nat × Nat × Nat := (e.physical, e.logical, e.length)

/-- Every system call made through the environment succeeds. -/
def SyscallsSucceed (env : PosixEnv) : Prop :=
  (∀ o, env.sys_lseek o = 0) ∧ (∀ d m n, env.sys_read d m n = 0) ∧
    (∀ d m n, env.sys_write d m n = 0)

/-- Every extent of the request passes the `ft_size` overflow validation. -/
def FitsSize (env : PosixEnv) (v : List Extent) : Prop :=
  ∀ e ∈ v, e.physical + e.length ≤ env.size_max ∧ e.logical + e.length ≤ env.size_max

/-- An environment in which no system call fails: 64-bit `ft_size`, a RAM buffer
of `buffer_size` bytes, no simulation. -/
def ideal_env (buffer_size : Nat) : PosixEnv :=
  { size_max := 2 ^ 64 - 1
    storage_mmap_size := 0
    buffer_mmap_size := buffer_size
    simulate_run := false
    sys_lseek := fun _ => 0
    sys_read := fun _ _ _ => 0
    sys_write := fun _ _ _ => 0
    sys_msync := 0 }

/-- Predicate saying that `t` is the smallest multiple of `unit` that is at least `x`. -/
def IsSmallestMultipleGE (unit x t : Nat) : Prop :=
  unit ∣ t ∧ x ≤ t ∧ ∀ m, unit ∣ m → x ≤ m → t ≤ m

/-- Buffer offsets assigned consecutively from `off`. -/
def OffsetsFrom : Nat → List Extent → Prop
  | _, [] => True
  | off, e :: es => e.user_data = off ∧ OffsetsFrom (off + e.length) es

/-- Order on keys `(physical, logical, length)` that `le_by_physical` induces. -/
def key_le_by_physical (a b : Nat × Nat × Nat) : Prop :=
  a.1 < b.1 ∨ (a.1 = b.1 ∧ a.2.2 ≤ b.2.2)

/-- The lengths `create_storage_plan` returns when none of its `exact` checks
rejects the request. -/
def planned_lengths (inp : PlannerInput) : StoragePlan :=
  let eff_block_size_minus_1 := uoff_sub (to_uoff (1 <<< inp.eff_block_size_log2)) 1
  let page_size_minus_1 := uoff_sub (to_uoff inp.page_size) 1
  let aligment_size_minus_1 := eff_block_size_minus_1 ||| page_size_minus_1
  let off_max := ((2 ^ UOFF_BITS - 1) >>> 1) &&& uoff_not aligment_size_minus_1
  let mem_max := wrap inp.szbits
    (to_uoff (((2 ^ inp.szbits - 1) >>> (if inp.job_storage_size_exact then 0 else 2)) + 1)
      &&& uoff_not aligment_size_minus_1)
  let primary_len := ff_min2 (ff_min2
    (to_uoff (to_uoff inp.free_total_count <<< inp.eff_block_size_log2)
      &&& uoff_not aligment_size_minus_1) off_max) mem_max
  let total_len := ff_min2 (ff_min2
    (ff_round_up UOFF_BITS (ff_round_up UOFF_BITS (initial_total_len inp) page_size_minus_1)
      eff_block_size_minus_1) off_max) mem_max
  let total_len := if total_len = 0 then to_uoff (aligment_size_minus_1 + 1) else total_len
  let primary_len := if primary_len > total_len then total_len else primary_len
  ⟨total_len, primary_len, total_len - primary_len⟩

/-! ## Extent maps: the operations `analyze` uses -/

/-- Linux value of `ENOSPC`. -/
def ENOSPC : Int := 28

/-- Linux value of `ENOTCONN`. -/
def ENOTCONN : Int := 107

/-- Modelled from the spec: `io/io.hh` is not among the sources. Index of DEVICE in
`fd[]`, also the `user_data` tag of DEVICE extents. -/
def FC_DEVICE : Nat := 0

/-- Modelled from the spec: `io/io.hh` is not among the sources. Index of LOOP-FILE
in `fd[]`, also the `user_data` tag of LOOP-FILE extents, different from
`FC_DEVICE`. -/
def FC_LOOP_FILE : Nat := 1

/-- Modelled from the spec: `extent.hh` is not among the sources. The `user_data`
of an extent that carries no annotation. -/
def FC_DEFAULT_USER_DATA : Nat := 0

/-- Whether block `x` lies in the physical range of extent `e`. -/
def Extent.covers (e : Extent) (x : Nat) : Prop :=
  e.physical ≤ x ∧ x < e.physical + e.length

instance (e : Extent) (x : Nat) : Decidable (e.covers x) := by
  unfold Extent.covers; exact inferInstance

/-- Whether two extents are contiguous in both axes with matching `user_data`, the
condition under which `insert` coalesces them. -/
def Extent.touches (a b : Extent) : Prop :=
  a.physical + a.length = b.physical ∧ a.logical + a.length = b.logical ∧
    a.user_data = b.user_data

instance (a b : Extent) : Decidable (a.touches b) := by
  unfold Extent.touches; exact inferInstance

/-- Modelled from the spec: `map.hh` is not among the sources. `insert(physical,
logical, length, user_data)` on a map given by its entries in physical order:
inserts and coalesces with neighbours on both sides when contiguous in both axes
with matching `user_data`. -/
def map_insert : List Extent → Extent → List Extent
  | [], e => [e]
  | x :: xs, e =>
    if e.physical < x.physical then
      if e.touches x then { e with length := e.length + x.length } :: xs
      else e :: x :: xs
    else if x.touches e then map_insert xs { x with length := x.length + e.length }
    else x :: map_insert xs e

/-- Modelled from the spec: `map.hh` is not among the sources. `insert0(key,
value)`, the raw insertion used by the merge step of `analyze`: the entry is put
at its place in physical order, without coalescing. -/
def map_insert0 : List Extent → Extent → List Extent
  | [], e => [e]
  | x :: xs, e => if e.physical < x.physical then e :: x :: xs else x :: map_insert0 xs e

/-- Modelled from the spec: `map.hh` is not among the sources. What is left of the
entry `e` when the physical range `[p, q)` is subtracted: a head and a tail
remainder, each kept only when not empty. -/
def remove_range (e : Extent) (p q : Nat) : List Extent :=
  if q ≤ p then [e]
  else
    (if e.physical < min (e.physical + e.length) p then
      [{ e with length := min (e.physical + e.length) p - e.physical }]
     else []) ++
    (if max e.physical q < e.physical + e.length then
      [{ physical := max e.physical q,
         logical := e.logical + (max e.physical q - e.physical),
         length := e.physical + e.length - max e.physical q,
         user_data := e.user_data }]
     else [])

/-- Modelled from the spec: `map.hh` is not among the sources. `remove_all(other)`
subtracts the physical ranges of `other` from `self`, splitting straddling entries
into head and tail remainders. -/
def remove_all (self other : List Extent) : List Extent :=
  other.foldl (fun acc o => acc.flatMap fun e => remove_range e o.physical (o.physical + o.length))
    self

/-- Overlap of the physical ranges of `a` and `b`, with the logical and the
`user_data` of `a`. -/
def intersect_one (a b : Extent) : Option Extent :=
  if max a.physical b.physical < min (a.physical + a.length) (b.physical + b.length) then
    some { physical := max a.physical b.physical,
           logical := a.logical + (max a.physical b.physical - a.physical),
           length := min (a.physical + a.length) (b.physical + b.length)
             - max a.physical b.physical,
           user_data := a.user_data }
  else none

/-- Modelled from the spec: `map.hh` is not among the sources.
`intersect_all_all(a, b)` is the physical intersection of `a` and `b`; for each
overlap region the logical is `a.logical + (overlap_start - a.physical)` and the
`user_data` follows `a`. In `analyze` both arguments have `logical = physical`, so
their logical offsets agree at every overlap. -/
def intersect_all_all (a b : List Extent) : List Extent :=
  a.flatMap fun x => b.filterMap (intersect_one x)

/-- The whole device `[0, dev_length >> shift)` as a map with `logical = physical`,
empty when the device has no block. -/
def whole_device (shift dev_length : Nat) : List Extent :=
  if dev_length >>> shift = 0 then []
  else [⟨0, 0, dev_length >>> shift, FC_DEFAULT_USER_DATA⟩]

/-- Modelled from the spec: `map.hh` is not among the sources.
`complement0_physical_shift(vec, shift, dev_length)` is the physical complement of
`vec` within `[0, dev_length)`, all physical and length right-shifted by `shift`,
stored with `logical = physical`. The result lies in `[0, dev_length >> shift)`. -/
def complement0_physical_shift (vec : List Extent) (shift dev_length : Nat) : List Extent :=
  remove_all (whole_device shift dev_length)
    (vec.map fun e => ⟨e.physical >>> shift, e.physical >>> shift, e.length >>> shift,
      e.user_data⟩)

/-- Modelled from the spec: `map.hh` is not among the sources.
`complement0_logical_shift(vec, shift, dev_length)` complements the logical axis of
`vec` within `[0, dev_length)`, right-shifted by `shift`; again
`logical = physical` in the result. -/
def complement0_logical_shift (vec : List Extent) (shift dev_length : Nat) : List Extent :=
  remove_all (whole_device shift dev_length)
    (vec.map fun e => ⟨e.logical >>> shift, e.logical >>> shift, e.length >>> shift,
      e.user_data⟩)

/-! ## The best-fit pool (`ft_pool<T>`) -/

/-- Order in which the pool indexes the holes: by length, holes of equal length by
physical. -/
def pool_order (a b : Extent) : Prop :=
  a.length < b.length ∨ (a.length = b.length ∧ a.physical ≤ b.physical)

instance : DecidableRel pool_order := fun a b => by
  unfold pool_order; exact inferInstance

/-- Modelled from the spec: `pool.hh` is not among the sources. The holes of the
pool indexed by length. -/
def pool_index (holes : List Extent) : List Extent := List.insertionSort pool_order holes

/-- Modelled from the spec: `pool.hh` is not among the sources. The shortest hole
with length at least `len`; among holes of equal length the one with the smallest
physical. -/
def best_fit (holes : List Extent) (len : Nat) : Option Extent :=
  (pool_index holes).find? fun h => decide (len ≤ h.length)

/-- Modelled from the spec: `pool.hh` is not among the sources. The largest
available hole. -/
def largest_hole (holes : List Extent) : Option Extent := (pool_index holes).getLast?

/-- Modelled from the spec: `pool.hh` is not among the sources. A hole after its
first `len` blocks were consumed: length decreased, physical (and with it the
logical, equal to it in a hole) advanced. -/
def consume_hole (h : Extent) (len : Nat) : Extent :=
  { physical := h.physical + len, logical := h.logical + len, length := h.length - len,
    user_data := h.user_data }

/-- Replacement of the hole `h` of the pool by `h'`, in place. -/
def update_hole : List Extent → Extent → Extent → List Extent
  | [], _, _ => []
  | x :: xs, h, h' => if x = h then h' :: xs else x :: update_hole xs h h'

/-- Modelled from the spec: `pool.hh` is not among the sources. Allocation of one
source extent: pick the shortest hole with length at least the length of the
extent, consuming it wholly (removed from the pool) or partially; if no hole is
large enough, allocate the largest available hole fully, reduce the source extent
by that amount and repeat. Every allocation emits an entry whose physical comes
from the source and whose logical comes from the hole. Returns the holes left, the
entries emitted and what is left of the source extent when the pool ran out. The
fuel bounds the number of repetitions; one more than the number of holes is
enough. -/
def allocate_extent : Nat → List Extent → Extent → List Extent × List Extent × Option Extent
  | 0, holes, e => (holes, [], some e)
  | fuel + 1, holes, e =>
    match best_fit holes e.length with
    | some h =>
      let holes' :=
        if h.length = e.length then holes.erase h
        else update_hole holes h (consume_hole h e.length)
      (holes', [⟨e.physical, h.physical, e.length, e.user_data⟩], none)
    | none =>
      match largest_hole holes with
      | none => (holes, [], some e)
      | some h =>
        let r := allocate_extent fuel (holes.erase h)
          ⟨e.physical + h.length, e.logical + h.length, e.length - h.length, e.user_data⟩
        (r.1, ⟨e.physical, h.physical, h.length, e.user_data⟩ :: r.2.1, r.2.2)

/-- Outcome of `allocate_all`. -/
structure PoolResult where
  /-- Holes left in the pool and in the map behind it. -/
  holes : List Extent
  /-- Source extents, or parts of them, that could not be allocated. -/
  src : List Extent
  /-- Entries emitted into the destination map. -/
  dst : List Extent

/-- Modelled from the spec: `pool.hh` is not among the sources.
`allocate_all(src, dst)` iterates the source entries in physical order and
allocates each of them; the source is fully drained on success. -/
def allocate_all (holes : List Extent) : List Extent → PoolResult
  | [] => ⟨holes, [], []⟩
  | e :: es =>
    let r := allocate_extent (holes.length + 1) holes e
    let rest := allocate_all r.1 es
    ⟨rest.holes, (match r.2.2 with | some left => [left] | none => []) ++ rest.src,
      r.2.1 ++ rest.dst⟩

/-! ## `ft_work<T>::analyze` -/

/-- Bitwise complement `~m` of a value of the block-number type `T` (`tbits`
bits). -/
def t_not (tbits m : Nat) : Nat := 2 ^ tbits - 1 - m % 2 ^ tbits

/-- Subtraction `a - b` on the block-number type `T`. -/
def t_sub (tbits a b : Nat) : Nat := wrap tbits (a + (2 ^ tbits - b % 2 ^ tbits))

/-- Function `ff_extent_align(extent, page_size_blocks_m_1)` (work.t.hh lines
197-211) for a block-number type `T` of `tbits` bits: the value returned and the
extent as the call leaves it. -/
def ff_extent_align (tbits : Nat) (extent : Extent) (page_size_blocks_m_1 : Nat) :
    Nat × Extent :=
  let physical := extent.physical
  let end_ := wrap tbits (physical + extent.length)
  let new_physical := ff_round_up tbits physical page_size_blocks_m_1
  let new_end := end_ &&& t_not tbits page_size_blocks_m_1
  if new_end ≤ new_physical then (0, { extent with length := 0 })
  else
    (t_sub tbits new_end new_physical,
      { physical := new_physical,
        logical := wrap tbits (extent.logical + t_sub tbits new_physical physical),
        length := t_sub tbits new_end new_physical,
        user_data := extent.user_data })

/-- State of the loop that picks the PRIMARY-STORAGE candidates. -/
structure HoleLoop where
  /-- Entries kept in `renumbered_map`, in physical order. -/
  kept : List Extent
  /-- Variable `hole_len`. -/
  hole_len : Nat
  /-- Variable `hole_total_len`. -/
  hole_total_len : Nat

/-- Loop `while (iter != end)` over `renumbered_map` in `analyze` (work.t.hh lines
449-462). `hole_len` is the current value of the variable of that name, which the
loop assigns only through `ff_extent_align`. -/
def select_holes (tbits hole_threshold page_size_blocks : Nat) :
    List Extent → Nat → Nat → HoleLoop
  | [], hole_len, hole_total_len => ⟨[], hole_len, hole_total_len⟩
  | extent :: rest, hole_len, hole_total_len =>
    if to_uoff extent.length ≥ hole_threshold then
      if page_size_blocks ≤ 1 then
        let r := select_holes tbits hole_threshold page_size_blocks rest hole_len
          (wrap tbits (hole_total_len + hole_len))
        ⟨extent :: r.kept, r.hole_len, r.hole_total_len⟩
      else
        let a := ff_extent_align tbits extent (page_size_blocks - 1)
        if to_uoff a.1 ≥ hole_threshold then
          let r := select_holes tbits hole_threshold page_size_blocks rest a.1
            (wrap tbits (hole_total_len + a.1))
          ⟨a.2 :: r.kept, r.hole_len, r.hole_total_len⟩
        else select_holes tbits hole_threshold page_size_blocks rest a.1 hole_total_len
    else select_holes tbits hole_threshold page_size_blocks rest hole_len hole_total_len

/-- What `analyze` reads besides the two extent vectors. -/
structure AnalyzeInput where
  /-- Width in bits of the block-number type `T`. -/
  tbits : Nat
  /-- Value of `io->effective_block_size_log2()`. -/
  eff_block_size_log2 : Nat
  /-- Value of `io->dev_length()`. -/
  dev_length : Nat
  /-- Value of `ff_mem_page_size()`. -/
  page_size : Nat
  /-- Indeterminate value of the local `hole_len`, declared without initializer
  (work.t.hh line 444). -/
  hole_len_uninit : Nat

/-- State of `ft_work<T>` when `analyze` returns, and the status returned. -/
structure AnalyzeResult where
  err : Int
  dev_map : ft_map
  dev_free_map : ft_map
  work_count : Nat
deriving DecidableEq

/-- LOOP-HOLES (work.t.hh line 244). -/
def analyze_loop_holes (inp : AnalyzeInput) (loop_file_extents : List Extent) : List Extent :=
  complement0_logical_shift loop_file_extents inp.eff_block_size_log2 inp.dev_length

/-- Map `loop_map` of the LOOP-FILE extents (work.t.hh lines 250-251). -/
def analyze_loop_map (inp : AnalyzeInput) (loop_file_extents : List Extent) : List Extent :=
  append0_shift inp.tbits (sort_by_physical loop_file_extents) inp.eff_block_size_log2

/-- Map `dev_free_map` of the FREE-SPACE extents (work.t.hh lines 264-271). -/
def analyze_free_map (inp : AnalyzeInput) (free_space_extents : List Extent) : List Extent :=
  free_space_extents.foldl
    (fun m e =>
      map_insert m
        ⟨wrap inp.tbits (e.physical >>> inp.eff_block_size_log2),
         wrap inp.tbits (e.physical >>> inp.eff_block_size_log2),
         wrap inp.tbits (e.length >>> inp.eff_block_size_log2),
         FC_DEFAULT_USER_DATA⟩)
    []

/-- DEVICE in-use extents, `dev_map` after work.t.hh line 288. -/
def analyze_device (inp : AnalyzeInput) (loop_file_extents free_space_extents : List Extent) :
    List Extent :=
  complement0_physical_shift
    (sort_by_physical (sort_by_physical loop_file_extents ++ free_space_extents))
    inp.eff_block_size_log2 inp.dev_length

/-- Invariant DEVICE extents, `renumbered_map` after work.t.hh line 310. -/
def analyze_invariant (inp : AnalyzeInput) (loop_file_extents free_space_extents : List Extent) :
    List Extent :=
  intersect_all_all (analyze_device inp loop_file_extents free_space_extents)
    (analyze_loop_holes inp loop_file_extents)

/-- DEVICE extents to renumber, `dev_map` after work.t.hh line 314. -/
def analyze_device_moved (inp : AnalyzeInput)
    (loop_file_extents free_space_extents : List Extent) : List Extent :=
  remove_all (analyze_device inp loop_file_extents free_space_extents)
    (analyze_invariant inp loop_file_extents free_space_extents)

/-- LOOP-HOLES left for renumbering, `loop_holes_map` after work.t.hh line 320. -/
def analyze_holes_left (inp : AnalyzeInput)
    (loop_file_extents free_space_extents : List Extent) : List Extent :=
  remove_all (analyze_loop_holes inp loop_file_extents)
    (analyze_invariant inp loop_file_extents free_space_extents)

/-- Loop over `loop_map` (work.t.hh lines 365-386): the entries kept, tagged
LOOP-FILE, and `work_count`. -/
def drop_invariant_loop (tbits : Nat) : List Extent → List Extent × Nat
  | [] => ([], 0)
  | e :: es =>
    let r := drop_invariant_loop tbits es
    if e.physical = e.logical then r
    else ({ e with user_data := FC_LOOP_FILE } :: r.1, wrap tbits (e.length + r.2))

/-- Loop over the renumbered `dev_map` (work.t.hh lines 401-407): every entry is
tagged DEVICE and inserted into `loop_map`, its length added to `work_count`. -/
def merge_device (tbits : Nat) : List Extent → List Extent × Nat → List Extent × Nat
  | [], acc => acc
  | e :: es, acc =>
    merge_device tbits es
      (map_insert0 acc.1 { e with user_data := FC_DEVICE }, wrap tbits (acc.2 + e.length))

/-- Method `ft_work<T>::analyze(loop_file_extents, free_space_extents)` (work.t.hh
lines 227-482). -/
def analyze (inp : AnalyzeInput) (loop_file_extents free_space_extents : List Extent) :
    AnalyzeResult :=
  let loop_map := analyze_loop_map inp loop_file_extents
  let dev_free_map := analyze_free_map inp free_space_extents
  let pool := allocate_all (analyze_holes_left inp loop_file_extents free_space_extents)
    (analyze_device_moved inp loop_file_extents free_space_extents)
  if pool.src ≠ [] then ⟨ENOSPC, ⟨pool.src, 0, 0⟩, ⟨dev_free_map, 0, 0⟩, 0⟩
  else
    let merged := merge_device inp.tbits pool.dst (drop_invariant_loop inp.tbits loop_map)
    let work_count := merged.2
    let candidates := intersect_all_all dev_free_map pool.holes
    let page_size_blocks := page_size_blocks inp.tbits inp.page_size inp.eff_block_size_log2
    let holes := select_holes inp.tbits (hole_threshold work_count page_size_blocks)
      page_size_blocks candidates inp.hole_len_uninit 0
    ⟨0, ⟨merged.1, work_count, work_count⟩, ⟨holes.kept, holes.hole_total_len, 0⟩, work_count⟩

/-! ## `ft_work<T>::check` and `ft_work<T>::init` -/

/-- Method `ft_work<T>::check(io)` (work.t.hh lines 131-145) for a block-number type
`T` of `tbits` bits, signed when `t_signed` is set (two's complement). -/
def check (tbits : Nat) (t_signed : Bool) (eff_block_size_log2 dev_length : Nat) : Int :=
  let block_count := to_uoff dev_length >>> eff_block_size_log2
  let n := wrap tbits block_count
  let n_negative : Bool := t_signed && decide (2 ^ (tbits - 1) ≤ n)
  let n_as_uoff := if n_negative then to_uoff (n + (2 ^ UOFF_BITS - 2 ^ tbits)) else n
  if n_negative = true ∨ block_count ≠ n_as_uoff then EOVERFLOW else 0

/-- Method `ft_work<T>::init(io)` (work.t.hh lines 152-167): the status returned and
whether `this->io` was assigned. -/
def init (tbits : Nat) (t_signed : Bool) (eff_block_size_log2 dev_length : Nat)
    (is_open : Bool) : Int × Bool :=
  let err := check tbits t_signed eff_block_size_log2 dev_length
  if err ≠ 0 then (err, false)
  else if is_open = false then (ENOTCONN, false)
  else (0, true)

/-- Whether a block count is a non-negative value of the block-number type. -/
def representable (tbits : Nat) (t_signed : Bool) (block_count : Nat) : Prop :=
  block_count < (if t_signed then 2 ^ (tbits - 1) else 2 ^ tbits)

instance (tbits : Nat) (t_signed : Bool) (block_count : Nat) :
    Decidable (representable tbits t_signed block_count) := by
  unfold representable; exact inferInstance

/-! ## `fr_io_posix::create_storage` -/

/-- Linux value of `EISCONN`. -/
def EISCONN : Int := 106

/-- Linux value of `EFAULT`. -/
def EFAULT : Int := 14

/-- The state of `fr_io_posix` that `create_storage` reads, and the outcome of the
calls it makes (`0` = success). -/
structure StorageEnv where
  /-- Width of `ft_size` in bits. -/
  szbits : Nat
  /-- Whether `storage_mmap != MAP_FAILED || is_open0(FC_SECONDARY_STORAGE)`. -/
  already_initialized : Bool
  /-- The `errno` of the `mmap` reserving the window of the given size. -/
  sys_mmap_reserve : Nat → Int
  /-- The `errno` of the `mmap` of the RAM buffer of the given size. -/
  sys_mmap_buffer : Nat → Int
  /-- Status of `create_secondary_storage(len)`. -/
  create_secondary_storage : Nat → Int
  /-- The `errno` of `munmap(storage_mmap + mem_start, len)`. -/
  sys_munmap : Nat → Nat → Int
  /-- The `errno` of the `MAP_FIXED` mapping at `mem_start` of `len` bytes of the
  device (or, when the flag is set, of the scratch file) at the given file offset. -/
  sys_mmap_fixed : Bool → Nat → Nat → Nat → Int
  /-- Whether that mapping, having succeeded, came back at another address than the
  one asked for. -/
  sys_mmap_fixed_moved : Bool → Nat → Nat → Nat → Bool

/-- Method `fr_io_posix::replace_storage_mmap` (io_posix.cc lines 447-509): the
status, the extent as the call leaves it and the new `ret_mem_offset`. -/
def replace_storage_mmap (env : StorageEnv) (storage_mmap_size : Nat) (secondary : Bool)
    (storage_extent : Extent) (ret_mem_offset : Nat) : Int × Extent × Nat :=
  let len := wrap env.szbits storage_extent.length
  let mem_start := ret_mem_offset
  let mem_end := wrap env.szbits (mem_start + len)
  if mem_start ≥ storage_mmap_size ∨ mem_end > storage_mmap_size then
    (-EINVAL, storage_extent, ret_mem_offset)
  else if env.sys_munmap mem_start len ≠ 0 then
    (ff_log (env.sys_munmap mem_start len), storage_extent, ret_mem_offset)
  else if env.sys_mmap_fixed secondary mem_start len storage_extent.physical ≠ 0 then
    (ff_log (env.sys_mmap_fixed secondary mem_start len storage_extent.physical),
      storage_extent, ret_mem_offset)
  else if env.sys_mmap_fixed_moved secondary mem_start len storage_extent.physical then
    (-EFAULT, storage_extent, ret_mem_offset)
  else
    (0, { storage_extent with user_data := mem_start }, wrap env.szbits (ret_mem_offset + len))

/-- Loop over `primary_storage()` in `create_storage` (io_posix.cc lines 405-409):
the status, the extents as the loop leaves them and the final `mem_offset`. -/
def replace_primary (env : StorageEnv) (storage_mmap_size : Nat) :
    List Extent → Nat → Int × List Extent × Nat
  | [], mem_offset => (0, [], mem_offset)
  | extent :: rest, mem_offset =>
    let r := replace_storage_mmap env storage_mmap_size false extent mem_offset
    if r.1 ≠ 0 then (r.1, r.2.1 :: rest, r.2.2)
    else
      let rr := replace_primary env storage_mmap_size rest r.2.2
      (rr.1, r.2.1 :: rr.2.1, rr.2.2)

/-- Sum `primary_len` of the lengths of `primary_storage()` (io_posix.cc lines
339-343), an `ft_uoff`. -/
def primary_len_sum : List Extent → Nat → Nat
  | [], acc => acc
  | e :: es, acc => primary_len_sum es (to_uoff (acc + e.length))

/-- State of `fr_io_posix` when `create_storage` leaves its `do ... while (0)`
block, and the status it returns. -/
structure StorageResult where
  err : Int
  primary_storage : List Extent
  secondary_storage : Extent
  storage_mmap_size : Nat
  buffer_mmap_size : Nat

/-- Method `fr_io_posix::create_storage(secondary_size, mem_buffer_size)` (io_posix.cc
lines 317-437). On an error the method goes on to `close_storage()`, which is not
part of this result. -/
def create_storage (env : StorageEnv) (primary_storage : List Extent)
    (secondary_storage : Extent) (secondary_size mem_buffer_size : Nat) : StorageResult :=
  if env.already_initialized then ⟨-EISCONN, primary_storage, secondary_storage, 0, 0⟩
  else
    let primary_len := primary_len_sum primary_storage 0
    let mmap_size := wrap env.szbits (wrap env.szbits primary_len + secondary_size)
    if primary_len > 2 ^ env.szbits - 1 - secondary_size then
      ⟨ff_log EOVERFLOW, primary_storage, secondary_storage, 0, 0⟩
    else if env.sys_mmap_reserve mmap_size ≠ 0 then
      ⟨ff_log (env.sys_mmap_reserve mmap_size), primary_storage, secondary_storage, 0, 0⟩
    else if env.sys_mmap_buffer mem_buffer_size ≠ 0 then
      ⟨ff_log (env.sys_mmap_buffer mem_buffer_size), primary_storage, secondary_storage,
        mmap_size, 0⟩
    else if secondary_size ≠ 0 ∧ env.create_secondary_storage secondary_size ≠ 0 then
      ⟨env.create_secondary_storage secondary_size, primary_storage, secondary_storage,
        mmap_size, mem_buffer_size⟩
    else
      let secondary_storage : Extent :=
        if secondary_size ≠ 0 then
          { secondary_storage with physical := 0, logical := 0, length := secondary_size }
        else secondary_storage
      let p := replace_primary env mmap_size primary_storage 0
      if p.1 ≠ 0 then ⟨p.1, p.2.1, secondary_storage, mmap_size, mem_buffer_size⟩
      else
        let s :=
          if secondary_size ≠ 0 then
            replace_storage_mmap env mmap_size true secondary_storage p.2.2
          else (0, secondary_storage, p.2.2)
        if s.1 ≠ 0 then ⟨s.1, p.2.1, s.2.1, mmap_size, mem_buffer_size⟩
        else if s.2.2 ≠ mmap_size then ⟨EINVAL, p.2.1, s.2.1, mmap_size, mem_buffer_size⟩
        else ⟨0, p.2.1, s.2.1, mmap_size, mem_buffer_size⟩

/-- An environment in which every call made by `create_storage` succeeds, with
64-bit `ft_size`. -/
def ideal_storage_env : StorageEnv :=
  { szbits := 64
    already_initialized := false
    sys_mmap_reserve := fun _ => 0
    sys_mmap_buffer := fun _ => 0
    create_secondary_storage := fun _ => 0
    sys_munmap := fun _ _ => 0
    sys_mmap_fixed := fun _ _ _ _ => 0
    sys_mmap_fixed_moved := fun _ _ _ _ => false }

/-- Predicate saying that `t` is the largest multiple of `unit` that is at most `x`. -/
def IsLargestMultipleLE (unit x t : Nat) : Prop :=
  unit ∣ t ∧ t ≤ x ∧ ∀ m, unit ∣ m → m ≤ x → m ≤ t

/-- Decision of the candidate loop of `analyze` for one candidate: the entry that
stays in the map, if any. -/
def surviving_hole (tbits hole_threshold page_size_blocks : Nat) (e : Extent) :
    Option Extent :=
  if hole_threshold ≤ e.length ∧
      (page_size_blocks ≤ 1 ∨
        hole_threshold ≤ (ff_extent_align tbits e (page_size_blocks - 1)).1) then
    some (if page_size_blocks ≤ 1 then e else (ff_extent_align tbits e (page_size_blocks - 1)).2)
  else none

/-- Number of entries of `m` whose physical range holds block `x`. -/
def cover_count (m : List Extent) (x : Nat) : Nat :=
  m.countP fun e => decide (e.covers x)

/-- The extents of `v` are pairwise disjoint on the physical axis. -/
def PhysicallyDisjoint (v : List Extent) : Prop :=
  v.Pairwise fun a b =>
    a.physical + a.length ≤ b.physical ∨ b.physical + b.length ≤ a.physical

/-- The extents of `v` lie inside `[0, dev_length)` on the physical axis. -/
def InsideDevice (v : List Extent) (dev_length : Nat) : Prop :=
  ∀ e ∈ v, e.physical + e.length ≤ dev_length

/-- The extents of `v`, all fields right-shifted by `shift`, keep block `x` of the
physical axis covered. -/
def CoversBlock (v : List Extent) (shift x : Nat) : Prop :=
  ∃ e ∈ v, e.physical >>> shift ≤ x ∧ x < (e.physical >>> shift) + (e.length >>> shift)

instance (v : List Extent) : Decidable (PhysicallyDisjoint v) := by
  unfold PhysicallyDisjoint; exact inferInstance

instance (v : List Extent) (dev_length : Nat) : Decidable (InsideDevice v dev_length) := by
  unfold InsideDevice; exact inferInstance

instance (v : List Extent) (shift x : Nat) : Decidable (CoversBlock v shift x) := by
  unfold CoversBlock; exact inferInstance

/-! ## The descriptors of `fr_io_posix` -/

/-- Linux value of `EBADF`. -/
def EBADF : Int := 9

/-- Linux value of `EIO`. -/
def EIO : Int := 5

/-- Linux value of `ENOMEM`. -/
def ENOMEM : Int := 12

/-- Modelled from the spec: `io/io.hh` is not among the sources. Index of ZERO-FILE
in `fd[]`; `open` handles DEVICE, LOOP-FILE and ZERO-FILE in this order. -/
def FC_ZERO_FILE : Nat := 2

/-- Modelled from the spec: `io/io.hh` is not among the sources. Number of files
`open` opens: DEVICE, LOOP-FILE and ZERO-FILE. -/
def FC_FILE_COUNT : Nat := 3

/-- Modelled from the spec: `io/io_posix.hh` is not among the sources. Index of
PRIMARY-STORAGE in `fd[]`. -/
def FC_PRIMARY_STORAGE : Nat := 3

/-- Modelled from the spec: `io/io_posix.hh` is not among the sources. Index of
SECONDARY-STORAGE in `fd[]`. -/
def FC_SECONDARY_STORAGE : Nat := 4

/-- Modelled from the spec: `io/io_posix.hh` is not among the sources. Length of
`fd[]`. -/
def FC_ALL_FILE_COUNT : Nat := 5

/-- The array `fd[]` right after construction: every descriptor invalid. -/
def fd_closed : List Int := List.replicate FC_ALL_FILE_COUNT (-1)

/-- Method `fr_io_posix::is_open0(i)` (io_posix.cc lines 60-63) on the array `fd`. -/
def is_open0 (fd : List Int) (i : Nat) : Bool := decide (0 ≤ fd.getD i (-1))

/-- Method `fr_io_posix::close0(i)` (io_posix.cc lines 66-73): the array `fd` after
the call and the descriptors handed to `::close`. The length of `fd` is
`FC_ALL_FILE_COUNT`. -/
def close0 (fd : List Int) (i : Nat) : List Int × List Int :=
  if i < fd.length ∧ 0 ≤ fd.getD i (-1) then (fd.set i (-1), [fd.getD i (-1)])
  else (fd, [])

/-- Loop of `fr_io_posix::close()` (io_posix.cc lines 194-195): `close0(i)` for
every `i < FC_FILE_COUNT`. -/
def close_files (fd : List Int) : List Int :=
  (List.range FC_FILE_COUNT).foldl (fun fd i => (close0 fd i).1) fd

/-! ## `fr_io_posix::open` -/

/-- What `fr_io_posix::open` reads from its surroundings, and the outcome of the
calls it makes on file `i` (`0` = success). -/
structure OpenEnv where
  /-- Value of `force_run()`. -/
  force_run : Bool
  /-- Status of `super_type::open(args)`. -/
  super_open : Int
  /-- Result of `::open(path[i], ...)`: the descriptor, negative on failure. -/
  sys_open : Nat → Int
  /-- The `errno` a failing `::open(path[i], ...)` leaves. -/
  sys_open_errno : Nat → Int
  /-- Status of `ff_posix_blkdev_dev` (DEVICE) or `ff_posix_dev` (other files). -/
  dev_status : Nat → Int
  /-- Value of `dev[i]` after that call. -/
  dev_value : Nat → Nat
  /-- Status of `ff_posix_blkdev_size` (DEVICE) or `ff_posix_size` (other files). -/
  size_status : Nat → Int
  /-- Value of `len[i]` after that call. -/
  size_value : Nat → Nat

/-- The state of `fr_io_posix` that `open` changes. -/
structure OpenState where
  fd : List Int
  dev_length : Nat
  loop_file_length : Nat
deriving DecidableEq

/-- Method `fr_io_posix::is_open()` (io_posix.cc lines 76-79). -/
def is_open (st : OpenState) : Bool :=
  decide (st.dev_length ≠ 0) && is_open0 st.fd FC_DEVICE

/-- Body of the `for` loop of `open` (io_posix.cc lines 109-175) for file `i`: the
value of `err` when the iteration ends, whether the loop goes on to the next file
(`false` after a `break`), and the state. -/
def open_step (env : OpenEnv) (i : Nat) (st : OpenState) : Int × Bool × OpenState :=
  let st := { st with fd := st.fd.set i (env.sys_open i) }
  if env.sys_open i < 0 then (ff_log (env.sys_open_errno i), false, st)
  else if env.dev_status i ≠ 0 ∧ env.force_run = false then
    (ff_log (env.dev_status i), false, st)
  else if i = FC_DEVICE then
    if env.size_status i ≠ 0 then (ff_log (env.size_status i), false, st)
    else (0, true, { st with dev_length := env.size_value i })
  else if env.size_status i ≠ 0 ∧ env.force_run = false then
    (ff_log (env.size_status i), false, st)
  else if env.size_status i = 0 ∧ env.size_value i > env.size_value FC_DEVICE then
    (ff_log 0, false, st)
  else
    let st :=
      if i = FC_LOOP_FILE then { st with loop_file_length := env.size_value i } else st
    if env.dev_value FC_DEVICE ≠ env.dev_value i then
      if env.force_run then (0, false, st) else (-EINVAL, true, st)
    else (0, true, st)

/-- The `for (i = 0; i < FC_FILE_COUNT; i++)` loop of `open` over the files still
to handle; `err` is the value the variable holds when the loop is entered. -/
def open_loop (env : OpenEnv) : List Nat → Int → OpenState → Int × OpenState
  | [], err, st => (err, st)
  | i :: rest, _, st =>
    let r := open_step env i st
    if r.2.1 then open_loop env rest r.1 r.2.2 else (r.1, r.2.2)

/-- Method `fr_io_posix::open(args)` (io_posix.cc lines 82-183): the status and the
state it leaves. Of `close()` only the loop over `fd[]` is part of the state. -/
def posix_open (env : OpenEnv) (st : OpenState) : Int × OpenState :=
  if is_open st then (EISCONN, st)
  else if env.super_open ≠ 0 then (env.super_open, st)
  else
    let r := open_loop env (List.range FC_FILE_COUNT) 0 st
    if r.1 ≠ 0 then (r.1, { r.2 with fd := close_files r.2.fd }) else r

/-! ## `fr_io_posix::is_open_extents`, `fr_io_posix::read_extents` -/

/-- The `for` loop of `is_open_extents` (io_posix.cc lines 209-211) over the entries
of `which[]` still to test, from index `i`: the final `i`. The test is the
expression `!is_open0(which[i]) < 0`: the negation gives `0` or `1`, which is then
compared with `0`. -/
def is_open_extents_scan (fd : List Int) : List Nat → Nat → Nat
  | [], i => i
  | w :: ws, i =>
    if (if !is_open0 fd w then (1 : Int) else 0) < 0 then i
    else is_open_extents_scan fd ws (i + 1)

/-- Method `fr_io_posix::is_open_extents()` (io_posix.cc lines 203-215). -/
def is_open_extents (dev_length : Nat) (fd : List Int) : Bool :=
  if dev_length ≠ 0 then
    decide (is_open_extents_scan fd [FC_LOOP_FILE, FC_ZERO_FILE] 0
      = [FC_LOOP_FILE, FC_ZERO_FILE].length)
  else false

/-- Outcome of `fr_io_posix::read_extents`. -/
structure ReadExtents where
  err : Int
  loop_file_extents : List Extent
  free_space_extents : List Extent
  ret_block_size_bitmask : Nat
deriving DecidableEq

/-- Method `fr_io_posix::read_extents` (io_posix.cc lines 237-261).
`ff_read_extents_posix(fd, dev_length, vec, bitmask)` is not among the sources and
is a parameter: it gives the status, the vector and the bitmask it leaves. -/
def read_extents (ff_read_extents_posix : Int → Nat → List Extent → Nat → Int × List Extent × Nat)
    (dev_length : Nat) (fd : List Int) (loop_file_extents free_space_extents : List Extent)
    (ret_block_size_bitmask : Nat) : ReadExtents :=
  if is_open_extents dev_length fd = false then
    ⟨ENOTCONN, loop_file_extents, free_space_extents, ret_block_size_bitmask⟩
  else
    let r1 := ff_read_extents_posix (fd.getD FC_LOOP_FILE (-1)) dev_length loop_file_extents
      ret_block_size_bitmask
    if r1.1 ≠ 0 then ⟨r1.1, r1.2.1, free_space_extents, ret_block_size_bitmask⟩
    else
      let r2 := ff_read_extents_posix (fd.getD FC_ZERO_FILE (-1)) dev_length
        free_space_extents r1.2.2
      if r2.1 ≠ 0 then ⟨r2.1, r1.2.1, r2.2.1, ret_block_size_bitmask⟩
      else ⟨0, r1.2.1, r2.2.1, r2.2.2⟩

/-- An environment of `open` in which every call succeeds: the files get the
descriptors 3, 4 and 5, DEVICE is device `0x800` of 2^30 bytes, LOOP-FILE has 2^29
bytes and lies on device `loop_dev`, ZERO-FILE has 2^20 bytes and lies on DEVICE. -/
def open_env (force_run : Bool) (loop_dev : Nat) : OpenEnv :=
  { force_run := force_run
    super_open := 0
    sys_open := fun i => 3 + i
    sys_open_errno := fun _ => 0
    dev_status := fun _ => 0
    dev_value := fun i => if i = FC_LOOP_FILE then loop_dev else 0x800
    size_status := fun _ => 0
    size_value := fun i =>
      if i = FC_DEVICE then 2 ^ 30 else if i = FC_LOOP_FILE then 2 ^ 29 else 2 ^ 20 }

/-! ## `fr_io_posix::create_secondary_storage` -/

/-- What `create_secondary_storage` reads from its surroundings, and the outcome of
the calls it makes on the scratch file; a status is the `errno` of the call, `0`
on success. -/
structure SecondaryEnv where
  /-- Width of `ft_size` in bits. -/
  szbits : Nat
  /-- Width of the signed type `ft_off` in bits. -/
  offbits : Nat
  simulate_run : Bool
  /-- Result of `::open(path, O_RDWR|O_CREAT|O_TRUNC, 0600)`: the descriptor,
  negative on failure. -/
  sys_open : Int
  /-- The `errno` a failing `::open` leaves. -/
  sys_open_errno : Int
  /-- Status of `ff_posix_lseek(fd[j], offset)`. -/
  sys_lseek : Nat → Int
  /-- Status of `ff_posix_write(fd[j], zero, chunk)` after `pos` bytes were
  written. -/
  sys_write : Nat → Nat → Int
  /-- Whether `FT_HAVE_POSIX_FALLOCATE` is defined. -/
  have_posix_fallocate : Bool
  /-- Status of `posix_fallocate(fd[j], 0, s_len)`. -/
  sys_fallocate : Nat → Int

/-- State of `fr_io_posix` when `create_secondary_storage` returns, and its
status. -/
structure SecondaryResult where
  err : Int
  fd : List Int
  /-- Descriptors handed to `::close`. -/
  closed : List Int
  /-- Whether `unlink(path)` was called. -/
  unlinked : Bool
  secondary_storage : Extent
deriving DecidableEq

/-- Conversion of an `int` to the unsigned type `ft_size`. -/
def int_to_size (szbits : Nat) (n : Int) : Nat := (n % 2 ^ szbits).toNat

/-- Conversion of an `ft_size` value to the signed type `ft_off`. -/
def size_to_off (offbits len : Nat) : Int :=
  if 2 ^ (offbits - 1) ≤ wrap offbits len then (wrap offbits len : Int) - 2 ^ offbits
  else wrap offbits len

/-- The fall-back loop `while (pos < len)` of `create_secondary_storage`
(io_posix.cc lines 566-573), writing chunks of at most 64 KiB: the value of `err`
when the loop ends, `none` when the fuel runs out. -/
def secondary_write_loop (env : SecondaryEnv) (len : Nat) : Nat → Nat → Int → Option Int
  | 0, pos, err => if pos < len then none else some err
  | fuel + 1, pos, err =>
    if pos < len then
      let chunk := ff_min2 (64 * 1024) (len - pos)
      if env.sys_write pos chunk ≠ 0 then some (ff_log (env.sys_write pos chunk))
      else secondary_write_loop env len fuel (wrap env.szbits (pos + chunk)) 0
    else some err

/-- The part of `create_secondary_storage` that fills the open scratch file
(io_posix.cc lines 544-584): the value of `err` and whether the details of
`secondary_storage()` were stored (they are not after a `break` out of the
`do ... while (0)` block). -/
def secondary_fill (env : SecondaryEnv) (fuel len : Nat) : Option (Int × Bool) :=
  if env.simulate_run then
    if env.sys_lseek (wrap env.szbits (len + (2 ^ env.szbits - 1))) ≠ 0 then
      some (ff_log (env.sys_lseek (wrap env.szbits (len + (2 ^ env.szbits - 1)))), false)
    else if env.sys_write 0 1 ≠ 0 then some (ff_log (env.sys_write 0 1), false)
    else some (0, true)
  else if env.have_posix_fallocate ∧ env.sys_fallocate len = 0 then some (0, true)
  else
    (secondary_write_loop env len fuel 0
      (if env.have_posix_fallocate then env.sys_fallocate len else 0)).map fun err => (err, true)

/-- Method `fr_io_posix::create_secondary_storage(len)` (io_posix.cc lines 517-595),
`none` when the fuel of the fall-back loop runs out. The error path calls
`close0(fd[j])`, that is, with the descriptor stored in `fd[j]` as argument. -/
def create_secondary_storage (env : SecondaryEnv) (fuel : Nat) (fd : List Int)
    (secondary_storage : Extent) (len : Nat) : Option SecondaryResult :=
  let j := FC_SECONDARY_STORAGE
  let s_len := size_to_off env.offbits len
  let body : Option (Int × List Int × Extent) :=
    if s_len < 0 ∨ len ≠ int_to_size env.szbits s_len then
      some (ff_log EOVERFLOW, fd, secondary_storage)
    else if env.sys_open < 0 then
      some (ff_log env.sys_open_errno, fd.set j env.sys_open, secondary_storage)
    else
      (secondary_fill env fuel len).map fun r =>
        (r.1, fd.set j env.sys_open,
          if r.2 then { secondary_storage with physical := 0, logical := 0, length := len }
          else secondary_storage)
  body.map fun b =>
    if b.1 ≠ 0 then
      let need_unlink := is_open0 b.2.1 j
      let c := close0 b.2.1 (int_to_size env.szbits (b.2.1.getD j (-1)))
      ⟨b.1, c.1, c.2, need_unlink, b.2.2⟩
    else ⟨0, b.2.1, [], false, b.2.2⟩

/-- An environment of `create_secondary_storage` with 64-bit `ft_size` and `ft_off`
and no `posix_fallocate`, in which `::open` gives the descriptor `d` and the first
`write` fails with `EIO`. -/
def failing_write_env (d : Int) : SecondaryEnv :=
  { szbits := 64
    offbits := 64
    simulate_run := false
    sys_open := d
    sys_open_errno := 0
    sys_lseek := fun _ => 0
    sys_write := fun _ _ => EIO
    have_posix_fallocate := false
    sys_fallocate := fun _ => 0 }

/-! ## `ft_job::init` and `ft_job::quit` -/

/-- What `ft_job::init` reads from its surroundings, and the outcome of the calls it
makes; a status is the `errno` of the call, `0` on success. -/
structure JobEnv where
  /-- Width of `ft_uint` in bits. -/
  uint_bits : Nat
  /-- Value of `args.root_dir`, `none` for `NULL`. -/
  root_dir : Option String
  /-- Value of `getenv("HOME")`, `none` for `NULL`. -/
  home : Option String
  /-- Value of `args.job_id`. -/
  job_id : Nat
  /-- Status of `ff_mkdir(path)` on the directory of the job with the given id. -/
  ff_mkdir : Nat → Int
  /-- The `errno` of `fopen(log_file, "a")` in the directory of the job with the
  given id, `0` when the file was opened. -/
  sys_fopen : Nat → Int

/-- The fields of `ft_job` that `init` and `quit` change. -/
structure JobState where
  this_dir : String
  /-- Name of the open log file, `none` when `this_log_file == NULL`. -/
  this_log_file : Option String
  this_id : Nat
deriving DecidableEq

/-- The job right after construction, and after `quit()`. -/
def job_reset : JobState := ⟨"", none, 0⟩

/-- Value of `this_dir` before the loop of `init` (job.cc lines 59-79). -/
def job_dir_base (env : JobEnv) : String :=
  (match env.root_dir with
    | none => (match env.home with
      | none => ""
      | some user_home => user_home ++ "/")
    | some root => root ++ "/") ++ ".fstransform" ++ "/job."

/-- Value of `this_dir` after the digits of the id `i` were printed into it (job.cc
lines 92-94). -/
def job_dir_of (env : JobEnv) (i : Nat) : String := job_dir_base env ++ toString i

/-- Method `ft_job::init_log()` (job.cc lines 38-53) in the directory of job `i`:
the status and the log file it leaves in `this_log_file`. -/
def init_log (env : JobEnv) (i : Nat) : Int × Option String :=
  if env.sys_fopen i ≠ 0 then (ff_log (env.sys_fopen i), none)
  else (0, some (job_dir_of env i ++ "/fstransform.log"))

/-- Outcome of the loop of `init`. -/
structure JobLoop where
  /-- Final value of `i`. -/
  i : Nat
  err : Int
  this_dir : String
  this_log_file : Option String
  /-- The ids whose directory the loop tried to create, in order. -/
  tried : List Nat
deriving DecidableEq

/-- The loop `for (i = job_min; i != job_max; i++)` of `init` (job.cc lines 90-105)
from the given `i`, `err`, `this_dir` and log file; `none` when the fuel runs
out. -/
def init_loop (env : JobEnv) (job_max : Nat) :
    Nat → Nat → Int → String → Option String → Option JobLoop
  | 0, i, err, dir, log => if i = job_max then some ⟨i, err, dir, log, []⟩ else none
  | fuel + 1, i, err, dir, log =>
    if i = job_max then some ⟨i, err, dir, log, []⟩
    else if env.ff_mkdir i ≠ 0 then
      (init_loop env job_max fuel (wrap env.uint_bits (i + 1)) (env.ff_mkdir i)
        (job_dir_of env i) log).map fun r => { r with tried := i :: r.tried }
    else if (init_log env i).1 ≠ 0 then
      (init_loop env job_max fuel (wrap env.uint_bits (i + 1)) (init_log env i).1
        (job_dir_of env i) (init_log env i).2).map fun r => { r with tried := i :: r.tried }
    else some ⟨i, 0, job_dir_of env i, (init_log env i).2, [i]⟩

/-- Method `ft_job::quit()` (job.cc lines 125-136). -/
def quit (_st : JobState) : JobState := ⟨"", none, 0⟩

/-- Method `ft_job::init(args)` (job.cc lines 57-123) on a job right after
construction: the status, the job it leaves and the ids it tried; `none` when the
fuel of the loop runs out. -/
def job_init (env : JobEnv) (fuel : Nat) : Option (Int × JobState × List Nat) :=
  let job_min := if env.job_id ≠ 0 then env.job_id else 1
  let job_max :=
    if env.job_id ≠ 0 then wrap env.uint_bits (env.job_id + 1) else 2 ^ env.uint_bits - 1
  (init_loop env job_max fuel job_min 0 (job_dir_base env) none).map fun r =>
    let err := if r.i = job_max then ff_log r.err else r.err
    if err = 0 then (0, ⟨r.this_dir, r.this_log_file, r.i⟩, r.tried)
    else (err, quit ⟨r.this_dir, r.this_log_file, r.i⟩, r.tried)

/-! ## `ft_cache_zmem` -/

/-- Lookup `map.find(key)` in an associative array given by its entries. -/
def zmap_find {K V : Type} [DecidableEq K] : List (K × V) → K → Option V
  | [], _ => none
  | (k, v) :: rest, key => if k = key then some v else zmap_find rest key

/-- Assignment through the reference `map[key]` to an entry that exists. -/
def zmap_set {K V : Type} [DecidableEq K] : List (K × V) → K → V → List (K × V)
  | [], _, _ => []
  | (k, v) :: rest, key, value =>
    if k = key then (k, value) :: rest else (k, v) :: zmap_set rest key value

/-- Removal `map.erase(iter)` of the entry of `key`. -/
def zmap_erase {K V : Type} [DecidableEq K] : List (K × V) → K → List (K × V)
  | [], _ => []
  | (k, v) :: rest, key => if k = key then rest else (k, v) :: zmap_erase rest key

/-- The state of an `ft_cache_zmem<K,V>` (cache_zmem.hh lines 39-50): the
`zero_payload` given to the constructor and the entries of `map`. The type
`zpaged_map<K,V>` is not among the sources; it is taken as an associative array
whose `operator[]` adds a missing key with the value-initialised payload `V()`,
the parameter `default_payload` of the methods. -/
structure ft_cache_zmem (K V : Type) where
  zero_payload : V
  map : List (K × V)

/-- Method `ft_cache_zmem::find_or_add(key, inout_payload)` (cache_zmem.hh lines
74-85): the status, the payload left in `inout_payload` and the cache; `none` when
the `ff_assert` fails. -/
def find_or_add {K V : Type} [DecidableEq K] [DecidableEq V] (default_payload : V)
    (c : ft_cache_zmem K V) (key : K) (inout_payload : V) :
    Option (Int × V × ft_cache_zmem K V) :=
  if inout_payload = c.zero_payload then none
  else
    let map :=
      match zmap_find c.map key with
      | some _ => c.map
      | none => c.map ++ [(key, default_payload)]
    let value := (zmap_find map key).getD default_payload
    if value = c.zero_payload then
      some (0, inout_payload, { c with map := zmap_set map key inout_payload })
    else some (1, value, { c with map := map })

/-- Method `ft_cache_zmem::find_and_delete(key, result_payload)` (cache_zmem.hh
lines 91-100): the status, the payload left in `result_payload` and the cache. -/
def find_and_delete {K V : Type} [DecidableEq K] (c : ft_cache_zmem K V) (key : K)
    (result_payload : V) : Int × V × ft_cache_zmem K V :=
  match zmap_find c.map key with
  | none => (0, result_payload, c)
  | some value => (1, value, { c with map := zmap_erase c.map key })

/-! ## The operations issued by the copy, flush and zero methods of `fr_io_posix` -/

/-- Modelled from the spec: `io/io.hh` is not among the sources. Source of a read
shown to the UI (`fr_from`). -/
inductive fr_from where
  | FC_FROM_DEV
  | FC_FROM_STORAGE
deriving DecidableEq

/-- Modelled from the spec: `io/io.hh` is not among the sources. Target of a write
(`fr_to`). -/
inductive fr_to where
  | FC_TO_DEV
  | FC_TO_STORAGE
deriving DecidableEq

/-- One call made by the copy, flush and zero methods: a notification of the UI, a
system call on the DEVICE descriptor, a synchronisation or a write into memory. -/
inductive Op where
  | show_io_read (src : fr_from) (offset length : Nat)
  | show_io_write (dst : fr_to) (offset length : Nat)
  | show_io_flush
  /-- `ff_posix_lseek(fd[FC_DEVICE], offset)`. -/
  | lseek (offset : Nat)
  /-- `ff_posix_read` from DEVICE into the staging window (`storage` set) or the RAM
  buffer, at `mem_offset`. -/
  | read (storage : Bool) (mem_offset mem_length : Nat)
  /-- `ff_posix_write` to DEVICE from the staging window (`storage` set) or the RAM
  buffer, at `mem_offset`. -/
  | write (storage : Bool) (mem_offset mem_length : Nat)
  /-- `ff_posix_write` of `chunk` bytes of the zero buffer to DEVICE. -/
  | write_zero (chunk : Nat)
  | msync
  | sync
  /-- `memset` of zeroes into the staging window. -/
  | memset (mem_offset mem_length : Nat)
  /-- `malloc` of the zero buffer. -/
  | malloc
deriving DecidableEq

/-- Whether a call is a notification of the UI. -/
def Op.is_ui : Op → Bool
  | Op.show_io_read _ _ _ => true
  | Op.show_io_write _ _ _ => true
  | Op.show_io_flush => true
  | _ => false

/-- The state the zero methods read besides that of the copy loop, and the outcome
of their calls. -/
structure IoEnv extends PosixEnv where
  /-- Whether `ui() != NULL`. -/
  has_ui : Bool
  /-- Value of `dev_length()`. -/
  dev_length : Nat
  /-- Whether the static `zero_buf` is allocated on entry. -/
  zero_buf : Bool
  /-- Whether `malloc(ZERO_BUF_LEN)` succeeds. -/
  sys_malloc : Bool
  /-- Status of `ff_posix_write(dev_fd, zero_buf, chunk)` when `length` bytes are
  left to write. -/
  sys_write_zero : Nat → Nat → Int

/-- Constant `ZERO_BUF_LEN` of `zero_bytes`. -/
def ZERO_BUF_LEN : Nat := 1024 * 1024

/-- Modelled from the spec: `util.hh` (`ff_can_sum`) is not among the sources;
whether the sum of two `ft_uoff` values is an `ft_uoff` value. -/
def ff_can_sum (a b : Nat) : Bool := decide (a + b < 2 ^ UOFF_BITS)

/-- The validation step of the four-argument `flush_copy_bytes` (io_posix.cc lines
792-796). -/
def copy_validate (env : PosixEnv) (dir : fr_dir_posix) (from_offset to_offset length : Nat) :
    Int :=
  let use_storage : Bool :=
    dir = fr_dir_posix.FC_POSIX_DEV2STORAGE || dir = fr_dir_posix.FC_POSIX_STORAGE2DEV
  let read_dev : Bool :=
    dir = fr_dir_posix.FC_POSIX_DEV2STORAGE || dir = fr_dir_posix.FC_POSIX_DEV2RAM
  let mmap_size := if use_storage then env.storage_mmap_size else env.buffer_mmap_size
  let other_offset := if read_dev then to_offset else from_offset
  let err := validate env.size_max from_offset to_offset length
  if err = 0 then validate mmap_size 0 other_offset length else err

/-- The notifications of the UI made by the four-argument `flush_copy_bytes`
(io_posix.cc lines 805-814). -/
def copy_notify (has_ui : Bool) (dir : fr_dir_posix) (from_offset to_offset length : Nat) :
    List Op :=
  if has_ui then
    (if dir ≠ fr_dir_posix.FC_POSIX_RAM2DEV then
      [Op.show_io_read
        (if dir = fr_dir_posix.FC_POSIX_STORAGE2DEV then fr_from.FC_FROM_STORAGE
          else fr_from.FC_FROM_DEV) from_offset length]
     else []) ++
    (if dir ≠ fr_dir_posix.FC_POSIX_DEV2RAM then
      [Op.show_io_write
        (if dir = fr_dir_posix.FC_POSIX_DEV2STORAGE then fr_to.FC_TO_STORAGE
          else fr_to.FC_TO_DEV) to_offset length]
     else [])
  else []

/-- The four-argument `fr_io_posix::flush_copy_bytes(dir, from_offset, to_offset,
length)` (io_posix.cc lines 776-859): the status and the calls made. -/
def flush_copy_bytes (env : IoEnv) (dir : fr_dir_posix) (from_offset to_offset length : Nat) :
    Int × List Op :=
  let use_storage : Bool :=
    dir = fr_dir_posix.FC_POSIX_DEV2STORAGE || dir = fr_dir_posix.FC_POSIX_STORAGE2DEV
  let read_dev : Bool :=
    dir = fr_dir_posix.FC_POSIX_DEV2STORAGE || dir = fr_dir_posix.FC_POSIX_DEV2RAM
  let dev_offset := if read_dev then from_offset else to_offset
  let other_offset := if read_dev then to_offset else from_offset
  let err := copy_validate env.toPosixEnv dir from_offset to_offset length
  if err ≠ 0 then (err, [])
  else
    let ui := copy_notify env.has_ui dir from_offset to_offset length
    if env.simulate_run then (0, ui)
    else if env.sys_lseek dev_offset ≠ 0 then
      (ff_log (env.sys_lseek dev_offset), ui ++ [Op.lseek dev_offset])
    else if read_dev then
      (if env.sys_read dev_offset other_offset length ≠ 0 then
          ff_log (env.sys_read dev_offset other_offset length) else 0,
        ui ++ [Op.lseek dev_offset, Op.read use_storage other_offset length])
    else
      (if env.sys_write dev_offset other_offset length ≠ 0 then
          ff_log (env.sys_write dev_offset other_offset length) else 0,
        ui ++ [Op.lseek dev_offset, Op.write use_storage other_offset length])

/-- Method `fr_io_posix::flush_bytes()` (io_posix.cc lines 883-916): the status and
the calls made. -/
def flush_bytes_calls (env : IoEnv) : Int × List Op :=
  let ui := if env.has_ui then [Op.show_io_flush] else []
  if env.simulate_run then (0, ui)
  else
    let err := env.sys_msync
    let err := if err ≠ 0 then 0 else err
    (err, ui ++ [Op.msync, Op.sync])

/-- The validation step of `zero_bytes` (io_posix.cc lines 940-949). -/
def zero_validate (env : IoEnv) (dst : fr_to) (offset length : Nat) : Int :=
  let max := if dst = fr_to.FC_TO_DEV then env.dev_length else to_uoff env.storage_mmap_size
  if ff_can_sum offset length = false ∨ length > max ∨ offset > max - length then
    ff_log EOVERFLOW
  else 0

/-- The loop `while (length != 0)` of `zero_bytes` (io_posix.cc lines 972-980): the
status and the writes made, `none` when the fuel runs out. -/
def zero_write_loop (env : IoEnv) : Nat → Nat → Option (Int × List Op)
  | _, 0 => some (0, [])
  | 0, _ + 1 => none
  | fuel + 1, length + 1 =>
    let chunk := ff_min2 (length + 1) ZERO_BUF_LEN
    if env.sys_write_zero (length + 1) chunk ≠ 0 then
      some (ff_log (env.sys_write_zero (length + 1) chunk), [Op.write_zero chunk])
    else
      (zero_write_loop env fuel (length + 1 - chunk)).map fun r =>
        (r.1, Op.write_zero chunk :: r.2)

/-- Method `fr_io_posix::zero_bytes(to, offset, length)` (io_posix.cc lines
936-983): the status and the calls made, `none` when the fuel of the write loop runs
out. -/
def zero_bytes (env : IoEnv) (fuel : Nat) (dst : fr_to) (offset length : Nat) :
    Option (Int × List Op) :=
  if zero_validate env dst offset length ≠ 0 then some (zero_validate env dst offset length, [])
  else
    let ui := if env.has_ui then [Op.show_io_write dst offset length] else []
    if env.simulate_run then some (0, ui)
    else if dst = fr_to.FC_TO_STORAGE then some (0, ui ++ [Op.memset offset length])
    else if env.zero_buf = false ∧ env.sys_malloc = false then some (ENOMEM, ui ++ [Op.malloc])
    else
      let alloc := if env.zero_buf then [] else [Op.malloc]
      if env.sys_lseek offset ≠ 0 then
        some (ff_log (env.sys_lseek offset), ui ++ alloc ++ [Op.lseek offset])
      else
        (zero_write_loop env fuel length).map fun r =>
          (r.1, ui ++ alloc ++ [Op.lseek offset] ++ r.2)

/-- Method `fr_io_posix::zero_primary_storage()` (io_posix.cc lines 990-1010): the
status and the calls made; `mem_offset` and `mem_length` are `ft_size` values. -/
def zero_primary_storage (env : IoEnv) (primary_storage : List Extent) : Int × List Op :=
  (0, primary_storage.flatMap fun extent =>
    (if env.has_ui then
      [Op.show_io_write fr_to.FC_TO_STORAGE (extent.user_data % (env.size_max + 1))
        (extent.length % (env.size_max + 1))]
     else []) ++
    (if env.simulate_run then []
     else [Op.memset (extent.user_data % (env.size_max + 1))
       (extent.length % (env.size_max + 1))]))

/-- An environment of the zero methods in which every call succeeds: 64-bit
`ft_size`, a device of `dev_length` bytes, a staging window of `storage_size`
bytes, no simulation. -/
def ideal_io_env (has_ui : Bool) (dev_length storage_size : Nat) : IoEnv :=
  { size_max := 2 ^ 64 - 1
    storage_mmap_size := storage_size
    buffer_mmap_size := 0
    simulate_run := false
    sys_lseek := fun _ => 0
    sys_read := fun _ _ _ => 0
    sys_write := fun _ _ _ => 0
    sys_msync := 0
    has_ui := has_ui
    dev_length := dev_length
    zero_buf := false
    sys_malloc := true
    sys_write_zero := fun _ _ => 0 }

/-- The same environment in a real run: `simulate_run` not set. -/
def real_run (env : IoEnv) : IoEnv := { env with simulate_run := false }

/-! ## Page-aligned trimming in the words of the specification -/

/-- Length of a candidate after page-aligned trimming as the specification words it:
the physical range `[p, p + n)` becomes `[round_up(p, P), round_down(p + n, P))`, with
`round_up(p, P)` the smallest multiple of `P` at least `p` and `round_down(x, P)` the
largest multiple of `P` at most `x`, computed on mathematical integers; the length is
0 when the second bound does not exceed the first. To be compared with what
`ff_extent_align` returns. -/
def spec_trimmed_length (P : Nat) (e : Extent) : Nat :=
  (e.physical + e.length) / P * P - (e.physical + (P - 1)) / P * P

/-- The candidate after page-aligned trimming as the specification words it: the
physical start moves up to `round_up(p, P)`, the logical start moves by the same
amount (kept in the `tbits` bits of `T`), and the length is `spec_trimmed_length`;
an empty result only has its length set to 0. -/
def spec_trimmed (tbits P : Nat) (e : Extent) : Extent :=
  if spec_trimmed_length P e = 0 then { e with length := 0 }
  else
    { physical := (e.physical + (P - 1)) / P * P
      logical := wrap tbits (e.logical + ((e.physical + (P - 1)) / P * P - e.physical))
      length := spec_trimmed_length P e
      user_data := e.user_data }

/-! ## Lemmas on the DEV2DEV loop -/

theorem flush_bytes_eq_zero (env : PosixEnv) : flush_bytes env = 0 := by
  unfold flush_bytes
  by_cases h : env.simulate_run = true
  · simp [h]
  · by_cases h2 : env.sys_msync = 0 <;> simp [h, h2]

theorem validate_ok {m a b n : Nat} (ha : a + n ≤ m) (hb : b + n ≤ m) :
    validate m a b n = 0 := by
  simp [validate, ha, hb]

theorem read_status_ok {env : PosixEnv} (hs : SyscallsSucceed env)
    {p off n : Nat} (hp : p + n ≤ env.size_max) (ho : off + n ≤ env.buffer_mmap_size)
    (hB : env.buffer_mmap_size ≤ env.size_max) :
    flush_copy_bytes_status env fr_dir_posix.FC_POSIX_DEV2RAM p off n = 0 := by
  obtain ⟨h1, h2, _⟩ := hs
  have hn : n ≤ env.buffer_mmap_size := by omega
  have ho2 : off + n ≤ env.size_max := by omega
  simp [flush_copy_bytes_status, validate_ok hp ho2, validate_ok (by omega : 0 + n ≤ _) ho,
    h1, h2]

theorem write_status_ok {env : PosixEnv} (hs : SyscallsSucceed env)
    {l off n : Nat} (hl : l + n ≤ env.size_max) (ho : off + n ≤ env.buffer_mmap_size)
    (hB : env.buffer_mmap_size ≤ env.size_max) :
    flush_copy_bytes_status env fr_dir_posix.FC_POSIX_RAM2DEV off l n = 0 := by
  obtain ⟨h1, _, h3⟩ := hs
  have hn : n ≤ env.buffer_mmap_size := by omega
  have ho2 : off + n ≤ env.size_max := by omega
  simp [flush_copy_bytes_status, validate_ok ho2 hl, validate_ok (by omega : 0 + n ≤ _) ho,
    h1, h3]

theorem total_length_cons (e : Extent) (es : List Extent) :
    total_length (e :: es) = e.length + total_length es := by
  simp [total_length]

theorem total_length_nil : total_length [] = 0 := rfl

theorem total_length_append (a b : List Extent) :
    total_length (a ++ b) = total_length a + total_length b := by
  simp [total_length]

theorem OffsetsFrom.get_user_data : ∀ {l : List Extent} {off : Nat}, OffsetsFrom off l →
    ∀ (k : Nat) (hk : k < l.length), (l.get ⟨k, hk⟩).user_data = off + total_length (l.take k)
  | [], _, _, k, hk => by simp at hk
  | e :: es, off, h, 0, _ => by simpa [total_length] using h.1
  | e :: es, off, h, k + 1, hk => by
    have := OffsetsFrom.get_user_data h.2 k (by simpa using hk)
    simp only [List.get_eq_getElem, List.getElem_cons_succ, List.take_succ_cons,
      total_length_cons] at this ⊢
    omega

theorem fill_pass_spec {env : PosixEnv} (hs : SyscallsSucceed env)
    (hB : env.buffer_mmap_size ≤ env.size_max) :
    ∀ (req : List Extent) (off free : Nat), off + free ≤ env.buffer_mmap_size →
      FitsSize env req →
      (fill_pass env off free req).err = 0 ∧
      (fill_pass env off free req).calls = (fill_pass env off free req).batch.map read_call ∧
      (∃ taken, req = taken ++ (fill_pass env off free req).rest ∧
        (fill_pass env off free req).batch.map Extent.key = taken.map Extent.key) ∧
      OffsetsFrom off (fill_pass env off free req).batch ∧
      total_length (fill_pass env off free req).batch ≤ free ∧
      (∀ e ∈ (fill_pass env off free req).batch, e.user_data + e.length ≤ off + free) ∧
      (∀ e es, req = e :: es → e.length ≤ free → 0 < free →
        (fill_pass env off free req).batch ≠ []) := by
  intro req
  induction req with
  | nil =>
    intro off free _ _
    simp [fill_pass, OffsetsFrom, total_length]
  | cons e es ih =>
    intro off free hof hfit
    by_cases hfree : free = 0
    · have hfp : fill_pass env off free (e :: es) = ⟨0, [], [], e :: es⟩ := by
        simp [fill_pass, hfree]
      rw [hfp]
      refine ⟨rfl, rfl, ⟨[], rfl, rfl⟩, trivial, by simp [total_length], by simp, ?_⟩
      intro _ _ _ _ h0; omega
    · by_cases hlen : e.length > free
      · have hfp : fill_pass env off free (e :: es) = ⟨0, [], [], e :: es⟩ := by
          simp [fill_pass, hfree, hlen]
        rw [hfp]
        refine ⟨rfl, rfl, ⟨[], rfl, rfl⟩, trivial, by simp [total_length], by simp, ?_⟩
        intro e' es' h hle _
        simp only [List.cons.injEq] at h
        rw [← h.1] at hle
        omega
      · have hfe := hfit e (List.mem_cons_self _ _)
        have hst : (Call.copy fr_dir_posix.FC_POSIX_DEV2RAM e.physical off e.length).status env = 0 :=
          read_status_ok hs hfe.1 (by omega) hB
        have hfit' : FitsSize env es := fun x hx => hfit x (List.mem_cons_of_mem _ hx)
        obtain ⟨h1, h2, ⟨taken, h3, h3'⟩, h4, h5, h6, _⟩ :=
          ih (off + e.length) (free - e.length) (by omega) hfit'
        have hfp : fill_pass env off free (e :: es) =
            ⟨(fill_pass env (off + e.length) (free - e.length) es).err,
             { e with user_data := off } ::
               (fill_pass env (off + e.length) (free - e.length) es).batch,
             Call.copy fr_dir_posix.FC_POSIX_DEV2RAM e.physical off e.length ::
               (fill_pass env (off + e.length) (free - e.length) es).calls,
             (fill_pass env (off + e.length) (free - e.length) es).rest⟩ := by
          simp [fill_pass, hfree, hlen, hst]
        rw [hfp]
        refine ⟨h1, ?_, ⟨e :: taken, ?_, ?_⟩, ⟨rfl, h4⟩, ?_, ?_, ?_⟩
        · simp [h2, read_call]
        · simp [← h3]
        · simp [h3', Extent.key]
        · rw [total_length_cons]; simp only; omega
        · intro x hx
          rcases List.mem_cons.1 hx with rfl | hx
          · simp only; omega
          · have := h6 x hx; omega
        · intro _ _ _ _ _; simp

theorem drain_pass_spec {env : PosixEnv} (hs : SyscallsSucceed env)
    (hB : env.buffer_mmap_size ≤ env.size_max) :
    ∀ (l : List Extent),
      (∀ e ∈ l, e.user_data + e.length ≤ env.buffer_mmap_size ∧
        e.logical + e.length ≤ env.size_max) →
      drain_pass env l = (0, l.map write_call)
  | [], _ => rfl
  | e :: es, h => by
    have he := h e (List.mem_cons_self _ _)
    have hst : (Call.copy fr_dir_posix.FC_POSIX_RAM2DEV e.user_data e.logical e.length).status env
        = 0 := write_status_ok hs he.2 he.1 hB
    have ih := drain_pass_spec hs hB es (fun x hx => h x (List.mem_cons_of_mem _ hx))
    simp [drain_pass, hst, ih, write_call]

theorem ff_min2_le_left (a b : Nat) : ff_min2 a b ≤ a := by
  unfold ff_min2; split <;> omega

theorem ff_min2_le_right (a b : Nat) : ff_min2 a b ≤ b := by
  unfold ff_min2; split <;> omega

theorem ff_min2_eq_min (a b : Nat) : ff_min2 a b = min a b := by
  unfold ff_min2; split <;> omega

theorem ff_min2_pos {a b : Nat} (ha : 0 < a) (hb : 0 < b) : 0 < ff_min2 a b := by
  unfold ff_min2; split <;> omega

theorem chunk_loop_spec {env : PosixEnv} (hs : SyscallsSucceed env)
    (hB : env.buffer_mmap_size ≤ env.size_max) (p l len0 : Nat)
    (hp : p + len0 ≤ env.size_max) (hl : l + len0 ≤ env.size_max) :
    ∀ (fuel len : Nat) (r : Int × List Call), len ≤ len0 →
      chunk_loop env p l 0 env.buffer_mmap_size fuel len = some r →
      r.1 = 0 ∧ ∃ ns : List Nat, r.2 = (ns.map fun n => (p, l, n)).flatMap chunk_calls := by
  intro fuel
  induction fuel with
  | zero =>
    intro len r _ h
    cases len with
    | zero =>
      simp only [chunk_loop, Option.some.injEq] at h
      subst h
      exact ⟨rfl, [], rfl⟩
    | succ n => simp [chunk_loop] at h
  | succ fuel ih =>
    intro len r hlen h
    cases len with
    | zero =>
      simp only [chunk_loop, Option.some.injEq] at h
      subst h
      exact ⟨rfl, [], rfl⟩
    | succ n =>
      have hm1 := ff_min2_le_left (n + 1) env.buffer_mmap_size
      have hm2 := ff_min2_le_right (n + 1) env.buffer_mmap_size
      have hrd : (Call.copy fr_dir_posix.FC_POSIX_DEV2RAM p 0
          (ff_min2 (n + 1) env.buffer_mmap_size)).status env = 0 :=
        read_status_ok hs (by omega) (by omega) hB
      have hwr : (Call.copy fr_dir_posix.FC_POSIX_RAM2DEV 0 l
          (ff_min2 (n + 1) env.buffer_mmap_size)).status env = 0 :=
        write_status_ok hs (by omega) (by omega) hB
      simp only [chunk_loop, hrd, hwr, flush_bytes_eq_zero, ne_eq, not_true_eq_false,
        if_false] at h
      cases hrec : chunk_loop env p l 0 env.buffer_mmap_size fuel
          (n + 1 - ff_min2 (n + 1) env.buffer_mmap_size) with
      | none => simp [hrec] at h
      | some r' =>
        obtain ⟨h0, ns, hns⟩ := ih _ r' (by omega) hrec
        simp only [hrec, Option.some.injEq] at h
        subst h
        refine ⟨h0, ff_min2 (n + 1) env.buffer_mmap_size :: ns, ?_⟩
        simp [hns, chunk_calls]

theorem chunk_loop_terminates {env : PosixEnv} (hpos : 0 < env.buffer_mmap_size)
    (p l : Nat) :
    ∀ (fuel len : Nat), len ≤ fuel →
      ∃ r, chunk_loop env p l 0 env.buffer_mmap_size fuel len = some r := by
  intro fuel
  induction fuel with
  | zero =>
    intro len h
    have : len = 0 := by omega
    subst this
    exact ⟨_, rfl⟩
  | succ fuel ih =>
    intro len h
    cases len with
    | zero => exact ⟨(0, []), by simp [chunk_loop]⟩
    | succ n =>
      have hm : 0 < ff_min2 (n + 1) env.buffer_mmap_size :=
        ff_min2_pos (Nat.succ_pos n) hpos
      obtain ⟨r', hr'⟩ := ih (n + 1 - ff_min2 (n + 1) env.buffer_mmap_size) (by omega)
      simp only [chunk_loop, hr']
      split_ifs <;> exact ⟨_, rfl⟩

theorem oversize_pass_spec {env : PosixEnv} (hs : SyscallsSucceed env)
    (hB : env.buffer_mmap_size ≤ env.size_max) (fuel : Nat) :
    ∀ (req : List Extent) (r : Int × List Call × List Extent), FitsSize env req →
      oversize_pass env fuel req = some r →
      r.1 = 0 ∧ ∃ (big : List Extent) (chunks : List (Nat × Nat × Nat)),
        req = big ++ r.2.2 ∧ r.2.1 = chunks.flatMap chunk_calls ∧
        (∀ e ∈ big, env.buffer_mmap_size < e.length) ∧
        (∀ e es, r.2.2 = e :: es → e.length ≤ env.buffer_mmap_size) := by
  intro req
  induction req with
  | nil =>
    intro r _ h
    simp only [oversize_pass, Option.some.injEq] at h
    subst h
    exact ⟨rfl, [], [], rfl, rfl, by simp, by simp⟩
  | cons e es ih =>
    intro r hfit h
    by_cases hle : e.length ≤ env.buffer_mmap_size
    · simp only [oversize_pass, hle, if_true, Option.some.injEq] at h
      subst h
      refine ⟨rfl, [], [], rfl, rfl, by simp, ?_⟩
      intro e' es' heq
      simp only [List.cons.injEq] at heq
      rw [← heq.1]; exact hle
    · have hfe := hfit e (List.mem_cons_self _ _)
      simp only [oversize_pass, hle, if_false] at h
      cases hc : chunk_loop env e.physical e.logical 0 env.buffer_mmap_size fuel e.length with
      | none => simp [hc] at h
      | some rc =>
        obtain ⟨hc0, ns, hns⟩ :=
          chunk_loop_spec hs hB e.physical e.logical e.length hfe.1 hfe.2 fuel e.length rc
            (le_refl _) hc
        obtain ⟨err, calls⟩ := rc
        simp only at hc0 hns
        subst hc0
        simp only [hc, ne_eq, not_true_eq_false, if_false] at h
        cases ho : oversize_pass env fuel es with
        | none => simp [ho] at h
        | some ro =>
          obtain ⟨h0, big, chunks, h1, h2, h3, h4⟩ :=
            ih ro (fun x hx => hfit x (List.mem_cons_of_mem _ hx)) ho
          obtain ⟨err2, calls2, rest2⟩ := ro
          simp only [ho, Option.some.injEq] at h
          subst h
          simp only at h0 h1 h2 h4 ⊢
          refine ⟨h0, e :: big, (ns.map fun n => (e.physical, e.logical, n)) ++ chunks,
            by simp [h1], by simp [hns, h2], ?_, h4⟩
          intro x hx
          rcases List.mem_cons.1 hx with rfl | hx
          · omega
          · exact h3 x hx

theorem oversize_pass_terminates {env : PosixEnv} (hpos : 0 < env.buffer_mmap_size)
    (fuel : Nat) :
    ∀ (req : List Extent), (∀ e ∈ req, e.length ≤ fuel) →
      ∃ r, oversize_pass env fuel req = some r := by
  intro req
  induction req with
  | nil => intro _; exact ⟨_, rfl⟩
  | cons e es ih =>
    intro h
    obtain ⟨rc, hc⟩ := chunk_loop_terminates hpos e.physical e.logical fuel e.length
      (h e (List.mem_cons_self _ _))
    obtain ⟨ro, ho⟩ := ih (fun x hx => h x (List.mem_cons_of_mem _ hx))
    obtain ⟨err, calls⟩ := rc
    obtain ⟨err2, calls2, rest2⟩ := ro
    simp only [oversize_pass, hc, ho]
    split_ifs <;> exact ⟨_, rfl⟩

theorem mem_of_map_key_eq {a b : List Extent} (h : a.map Extent.key = b.map Extent.key)
    {e : Extent} (he : e ∈ a) : ∃ e' ∈ b, e'.key = e.key := by
  have : e.key ∈ b.map Extent.key := by
    rw [← h]; exact List.mem_map_of_mem _ he
  obtain ⟨e', he', hk⟩ := List.mem_map.1 this
  exact ⟨e', he', hk⟩

theorem mem_sort_by_logical {e : Extent} {l : List Extent} :
    e ∈ sort_by_logical l ↔ e ∈ l :=
  (List.perm_insertionSort le_by_logical l).mem_iff

theorem dev2dev_loop_spec {env : PosixEnv} (hs : SyscallsSucceed env)
    (hB : env.buffer_mmap_size ≤ env.size_max) :
    ∀ (fuel : Nat) (req : List Extent) (r : Int × List Call), FitsSize env req →
      dev2dev_loop env fuel req = some r →
      r.1 = 0 ∧ ∃ passes : List Pass,
        r.2 = passes.flatMap Pass.calls ∧
        passes.flatMap (fun p => p.batch.map Extent.key ++ p.oversize.map Extent.key)
          = req.map Extent.key ∧
        ∀ p ∈ passes, p.drained = sort_by_logical p.batch ∧ OffsetsFrom 0 p.batch ∧
          total_length p.batch ≤ env.buffer_mmap_size ∧
          (∀ e ∈ p.oversize, env.buffer_mmap_size < e.length) := by
  intro fuel
  induction fuel with
  | zero => intro req r _ h; simp [dev2dev_loop] at h
  | succ fuel ih =>
    intro req r hfit h
    obtain ⟨f1, f2, ⟨taken, f3, f3'⟩, f4, f5, f6, _⟩ :=
      fill_pass_spec hs hB req 0 env.buffer_mmap_size (by omega) hfit
    have hd : (if (fill_pass env 0 env.buffer_mmap_size req).batch ≠ [] then
          drain_pass env (sort_by_logical (fill_pass env 0 env.buffer_mmap_size req).batch)
        else (0, [])) =
        (0, (sort_by_logical (fill_pass env 0 env.buffer_mmap_size req).batch).map write_call) := by
      by_cases hb : (fill_pass env 0 env.buffer_mmap_size req).batch = []
      · simp [hb, sort_by_logical]
      · simp only [ne_eq, hb, not_false_eq_true, if_true]
        apply drain_pass_spec hs hB
        intro e he
        have he' := mem_sort_by_logical.1 he
        refine ⟨by have := f6 e he'; omega, ?_⟩
        obtain ⟨e', he'', hk⟩ := mem_of_map_key_eq f3' he'
        have := hfit e' (by rw [f3]; exact List.mem_append_left _ he'')
        simp only [Extent.key, Prod.mk.injEq] at hk
        omega
    have hfit_rest : FitsSize env (fill_pass env 0 env.buffer_mmap_size req).rest :=
      fun x hx => hfit x (by rw [f3]; exact List.mem_append_right _ hx)
    rw [dev2dev_loop] at h
    simp only [f1, hd, flush_bytes_eq_zero, ne_eq, not_true_eq_false, if_false] at h
    cases ho : oversize_pass env fuel (fill_pass env 0 env.buffer_mmap_size req).rest with
    | none => simp [ho] at h
    | some ro =>
      obtain ⟨o0, big, chunks, o1, o2, o3, _⟩ := oversize_pass_spec hs hB fuel _ ro hfit_rest ho
      obtain ⟨err, calls, rest⟩ := ro
      simp only at o0 o1 o2
      subst o0
      simp only [ho, ne_eq, not_true_eq_false, if_false] at h
      have hkeys : (fill_pass env 0 env.buffer_mmap_size req).batch.map Extent.key
          ++ big.map Extent.key ++ rest.map Extent.key = req.map Extent.key := by
        rw [f3', f3, o1]; simp
      by_cases hrest : rest = []
      · simp only [hrest, if_true, Option.some.injEq] at h
        subst h
        refine ⟨rfl, [⟨(fill_pass env 0 env.buffer_mmap_size req).batch,
          sort_by_logical (fill_pass env 0 env.buffer_mmap_size req).batch, big, chunks⟩],
          ?_, ?_, ?_⟩
        · simp [Pass.calls, f2, o2]
        · rw [← hkeys, hrest]; simp
        · intro p hp
          simp only [List.mem_singleton] at hp
          subst hp
          exact ⟨rfl, f4, f5, o3⟩
      · simp only [hrest, if_false] at h
        cases hl : dev2dev_loop env fuel rest with
        | none => simp [hl] at h
        | some rl =>
          have hfit_rest2 : FitsSize env rest :=
            fun x hx => hfit_rest x (by rw [o1]; exact List.mem_append_right _ hx)
          obtain ⟨l0, passes, l1, l2, l3⟩ := ih rest rl hfit_rest2 hl
          obtain ⟨err2, calls2⟩ := rl
          simp only [hl, Option.some.injEq] at h
          subst h
          simp only at l0 l1
          refine ⟨l0, ⟨(fill_pass env 0 env.buffer_mmap_size req).batch,
            sort_by_logical (fill_pass env 0 env.buffer_mmap_size req).batch, big, chunks⟩
            :: passes, ?_, ?_, ?_⟩
          · simp [Pass.calls, f2, o2, l1]
          · rw [← hkeys, List.flatMap_cons, l2]
          · intro p hp
            rcases List.mem_cons.1 hp with rfl | hp
            · exact ⟨rfl, f4, f5, o3⟩
            · exact l3 p hp

theorem length_le_total_length {e : Extent} {l : List Extent} (h : e ∈ l) :
    e.length ≤ total_length l := by
  induction l with
  | nil => simp at h
  | cons x xs ih =>
    rw [total_length_cons]
    rcases List.mem_cons.1 h with rfl | h
    · omega
    · have := ih h; omega

theorem dev2dev_loop_terminates {env : PosixEnv} (hs : SyscallsSucceed env)
    (hB : env.buffer_mmap_size ≤ env.size_max) (hpos : 0 < env.buffer_mmap_size) :
    ∀ (fuel : Nat) (req : List Extent), FitsSize env req →
      req.length + total_length req < fuel →
      ∃ r, dev2dev_loop env fuel req = some r := by
  intro fuel
  induction fuel with
  | zero => intro req _ h; omega
  | succ fuel ih =>
    intro req hfit hfuel
    obtain ⟨f1, _, ⟨taken, f3, f3'⟩, _, _, _, f7⟩ :=
      fill_pass_spec hs hB req 0 env.buffer_mmap_size (by omega) hfit
    have hfit_rest : FitsSize env (fill_pass env 0 env.buffer_mmap_size req).rest :=
      fun x hx => hfit x (by rw [f3]; exact List.mem_append_right _ hx)
    have hlen_rest : ∀ e ∈ (fill_pass env 0 env.buffer_mmap_size req).rest, e.length ≤ fuel := by
      intro e he
      have : e ∈ req := by rw [f3]; exact List.mem_append_right _ he
      have := length_le_total_length this
      omega
    obtain ⟨ro, ho⟩ := oversize_pass_terminates hpos fuel _ hlen_rest
    obtain ⟨o0, big, chunks, o1, _, _, o4⟩ := oversize_pass_spec hs hB fuel _ ro hfit_rest ho
    obtain ⟨err, calls, rest⟩ := ro
    simp only at o0 o1 o4
    subst o0
    rw [dev2dev_loop]
    simp only [f1, ho, flush_bytes_eq_zero, ne_eq, not_true_eq_false, if_false]
    generalize (if ¬(fill_pass env 0 env.buffer_mmap_size req).batch = [] then
      drain_pass env (sort_by_logical (fill_pass env 0 env.buffer_mmap_size req).batch)
      else (0, [])) = d
    by_cases hd : d.1 = 0
    swap
    · simp only [hd, not_false_eq_true, if_true]; exact ⟨_, rfl⟩
    simp only [hd, not_true_eq_false, if_false]
    by_cases h3 : rest = []
    · simp only [h3, if_true]; exact ⟨_, rfl⟩
    simp only [h3, if_false]
    · have hreq : req = taken ++ (big ++ rest) := by rw [← o1]; exact f3
      have hprog : rest.length < req.length := by
        by_contra hcon
        have hl : req.length = taken.length + (big.length + rest.length) := by
          rw [hreq]; simp
        have ht : taken = [] := List.length_eq_zero.1 (by omega)
        have hb : big = [] := List.length_eq_zero.1 (by omega)
        subst ht hb
        simp only [List.nil_append] at hreq
        subst hreq
        cases req with
        | nil => exact h3 rfl
        | cons e es =>
          have hle := o4 e es rfl
          have hne := f7 e es rfl hle hpos
          apply hne
          simpa using f3'
      have htot : total_length rest ≤ total_length req := by
        rw [hreq, total_length_append, total_length_append]; omega
      have hfit_rest2 : FitsSize env rest :=
        fun x hx => hfit_rest x (by rw [o1]; exact List.mem_append_right _ hx)
      obtain ⟨rl, hl⟩ := ih rest hfit_rest2 (by omega)
      obtain ⟨err2, calls2⟩ := rl
      simp only [hl]
      exact ⟨_, rfl⟩

theorem sorted_sort_by_physical (v : List Extent) :
    (sort_by_physical v).Pairwise le_by_physical := by
  have htot : IsTotal Extent le_by_physical := ⟨fun a b => by
    unfold le_by_physical; omega⟩
  have htr : IsTrans Extent le_by_physical := ⟨fun a b c => by
    unfold le_by_physical; omega⟩
  exact List.sorted_insertionSort le_by_physical v

theorem sorted_sort_by_logical (v : List Extent) :
    (sort_by_logical v).Pairwise le_by_logical := by
  have htot : IsTotal Extent le_by_logical := ⟨fun a b => by
    unfold le_by_logical; omega⟩
  have htr : IsTrans Extent le_by_logical := ⟨fun a b c => by
    unfold le_by_logical; omega⟩
  exact List.sorted_insertionSort le_by_logical v

theorem pairwise_le_by_physical_iff (l : List Extent) :
    l.Pairwise le_by_physical ↔ (l.map Extent.key).Pairwise key_le_by_physical := by
  rw [List.pairwise_map]
  exact Iff.rfl

theorem batch_keys_sublist {passes : List Pass} {p : Pass} (hp : p ∈ passes) :
    (p.batch.map Extent.key).Sublist
      (passes.flatMap fun p => p.batch.map Extent.key ++ p.oversize.map Extent.key) := by
  obtain ⟨s, t, rfl⟩ := List.append_of_mem hp
  rw [List.flatMap_append, List.flatMap_cons]
  exact ((List.sublist_append_left _ _).trans (List.sublist_append_left _ _)).trans
    (List.sublist_append_right _ _)

theorem filter_pass_keys (B : Nat) :
    ∀ (passes : List Pass),
      (∀ p ∈ passes, (∀ e ∈ p.batch, e.length ≤ B) ∧ ∀ e ∈ p.oversize, B < e.length) →
      (passes.flatMap fun p => p.batch.map Extent.key ++ p.oversize.map Extent.key).filter
          (fun k => decide (k.2.2 ≤ B))
        = (passes.flatMap Pass.batch).map Extent.key
  | [], _ => rfl
  | p :: ps, h => by
    have ih := filter_pass_keys B ps (fun q hq => h q (List.mem_cons_of_mem _ hq))
    obtain ⟨hb, ho⟩ := h p (List.mem_cons_self _ _)
    have h1 : (p.batch.map Extent.key).filter (fun k => decide (k.2.2 ≤ B))
        = p.batch.map Extent.key := by
      rw [List.filter_eq_self]
      intro k hk
      obtain ⟨e, he, rfl⟩ := List.mem_map.1 hk
      simpa [Extent.key] using hb e he
    have h2 : (p.oversize.map Extent.key).filter (fun k => decide (k.2.2 ≤ B)) = [] := by
      rw [List.filter_eq_nil_iff]
      intro k hk
      obtain ⟨e, he, rfl⟩ := List.mem_map.1 hk
      have := ho e he
      simp only [Extent.key, decide_eq_true_eq]
      omega
    rw [List.flatMap_cons, List.filter_append, List.filter_append, h1, h2, ih,
      List.flatMap_cons, List.map_append, List.append_nil]

theorem total_length_take_le (l : List Extent) (i j : Nat) (h : i ≤ j) :
    total_length (l.take i) ≤ total_length (l.take j) := by
  induction l generalizing i j with
  | nil => simp
  | cons e es ih =>
    cases i with
    | zero => simp [total_length]
    | succ i =>
      cases j with
      | zero => omega
      | succ j =>
        simp only [List.take_succ_cons, total_length_cons]
        have := ih i j (by omega)
        omega

theorem total_length_take_succ (l : List Extent) (i : Nat) (hi : i < l.length) :
    total_length (l.take (i + 1)) = total_length (l.take i) + (l.get ⟨i, hi⟩).length := by
  induction l generalizing i with
  | nil => simp at hi
  | cons e es ih =>
    cases i with
    | zero => simp [total_length]
    | succ i =>
      have := ih i (by simpa using hi)
      simp only [List.take_succ_cons, total_length_cons, List.get_eq_getElem,
        List.getElem_cons_succ] at this ⊢
      omega

/-! ## Claims on `fr_io_posix::flush_copy_bytes(FC_DEV2DEV, ...)` -/

/-- C1 (the code at a failing input): with a RAM buffer of 4 bytes and the single
request `(physical 0, logical 8, length 8)`, the loop transfers two chunks of 4
bytes, and both are read from device offset 0 and written to device offset 8: the
read at offset `0 + 4` and the write at offset `8 + 4` that the claim describes are
never issued, so the device bytes `[4, 8)` are not copied. -/
theorem dev2dev_chunk_offsets_not_advanced :
    flush_copy_bytes_dev2dev (ideal_env 4) 3 [⟨0, 8, 8, 0⟩]
      = some (0,
          [Call.flush,
           Call.copy fr_dir_posix.FC_POSIX_DEV2RAM 0 0 4,
           Call.copy fr_dir_posix.FC_POSIX_RAM2DEV 0 8 4,
           Call.flush,
           Call.copy fr_dir_posix.FC_POSIX_DEV2RAM 0 0 4,
           Call.copy fr_dir_posix.FC_POSIX_RAM2DEV 0 8 4,
           Call.flush]) := by
  decide

/-- C2: with every system call succeeding and every request extent representable
in `ft_size`, whenever the DEV2DEV call returns it returns `0` and its operations
split into loop iterations whose batches are exactly the extents of the sorted
request that fit the RAM buffer, in that order; in every batch the extents are in
ascending physical order, the k-th extent is read to the buffer offset equal to the
sum of the lengths of the earlier ones (so the buffer ranges are consecutive and
disjoint), the batch totals at most the buffer size, and the extents written by the
drain pass are the extents of the batch, each with the buffer offset and length it
was read with. With a non-empty buffer and enough fuel the call does return. -/
theorem dev2dev_batches_fill_and_drain (env : PosixEnv) (request_vec : List Extent)
    (fuel : Nat) (hs : SyscallsSucceed env) (hB : env.buffer_mmap_size ≤ env.size_max)
    (hfit : FitsSize env request_vec) :
    (∀ r, flush_copy_bytes_dev2dev env fuel request_vec = some r →
      r.1 = 0 ∧ ∃ passes : List Pass,
        r.2 = passes.flatMap Pass.calls ∧
        (passes.flatMap Pass.batch).map Extent.key
          = ((sort_by_physical request_vec).filter
              (fun e => decide (e.length ≤ env.buffer_mmap_size))).map Extent.key ∧
        ∀ p ∈ passes,
          (p.batch.map Extent.physical).Pairwise (fun a b => a ≤ b) ∧
          (∀ (k : Nat) (hk : k < p.batch.length),
            (p.batch.get ⟨k, hk⟩).user_data = total_length (p.batch.take k)) ∧
          (∀ (i j : Nat) (hi : i < p.batch.length) (hj : j < p.batch.length), i < j →
            (p.batch.get ⟨i, hi⟩).user_data + (p.batch.get ⟨i, hi⟩).length
              ≤ (p.batch.get ⟨j, hj⟩).user_data) ∧
          total_length p.batch ≤ env.buffer_mmap_size ∧
          p.drained.Perm p.batch) ∧
    (0 < env.buffer_mmap_size → request_vec.length + total_length request_vec < fuel →
      ∃ r, flush_copy_bytes_dev2dev env fuel request_vec = some r) := by
  have hperm : (sort_by_physical request_vec).Perm request_vec :=
    List.perm_insertionSort le_by_physical request_vec
  have hfit' : FitsSize env (sort_by_physical request_vec) :=
    fun e he => hfit e (hperm.mem_iff.1 he)
  refine ⟨?_, ?_⟩
  · intro r hr
    obtain ⟨h0, passes, h1, h2, h3⟩ := dev2dev_loop_spec hs hB fuel _ r hfit' hr
    refine ⟨h0, passes, h1, ?_, ?_⟩
    · have hf := filter_pass_keys env.buffer_mmap_size passes (fun p hp =>
        ⟨fun e he => le_trans (length_le_total_length he) (h3 p hp).2.2.1, (h3 p hp).2.2.2⟩)
      rw [← hf, h2, List.filter_map]
      rfl
    · intro p hp
      obtain ⟨hd, hoff, htot, _⟩ := h3 p hp
      have hget := OffsetsFrom.get_user_data hoff
      refine ⟨?_, ?_, ?_, htot, ?_⟩
      · have hsorted := (pairwise_le_by_physical_iff _).1 (sorted_sort_by_physical request_vec)
        rw [← h2] at hsorted
        have hb := (pairwise_le_by_physical_iff _).2 (hsorted.sublist (batch_keys_sublist hp))
        rw [List.pairwise_map]
        refine hb.imp ?_
        intro a b hab
        unfold le_by_physical at hab
        omega
      · intro k hk
        rw [hget k hk]; omega
      · intro i j hi hj hij
        rw [hget i hi, hget j hj]
        have h1 := total_length_take_succ p.batch i hi
        have h2 := total_length_take_le p.batch (i + 1) j hij
        omega
      · rw [hd]
        exact List.perm_insertionSort le_by_logical p.batch
  · intro hpos hfuel
    have hlen : (sort_by_physical request_vec).length = request_vec.length := hperm.length_eq
    have htot : total_length (sort_by_physical request_vec) = total_length request_vec := by
      unfold total_length
      exact (hperm.map Extent.length).sum_eq
    exact dev2dev_loop_terminates hs hB hpos fuel _ hfit' (by omega)

/-- C2, at a concrete input: a RAM buffer of 10 bytes and five requests, one of
them larger than the buffer. -/
theorem dev2dev_batches_fill_and_drain_witness :
    SyscallsSucceed (ideal_env 10) ∧
    FitsSize (ideal_env 10)
      [⟨0, 100, 3, 0⟩, ⟨5, 50, 4, 0⟩, ⟨20, 10, 5, 0⟩, ⟨30, 0, 12, 0⟩, ⟨50, 70, 1, 0⟩] ∧
    ∃ r, flush_copy_bytes_dev2dev (ideal_env 10) 31
        [⟨0, 100, 3, 0⟩, ⟨5, 50, 4, 0⟩, ⟨20, 10, 5, 0⟩, ⟨30, 0, 12, 0⟩, ⟨50, 70, 1, 0⟩]
          = some r ∧ r.1 = 0 := by
  have hs : SyscallsSucceed (ideal_env 10) :=
    ⟨fun _ => rfl, fun _ _ _ => rfl, fun _ _ _ => rfl⟩
  have hfit : FitsSize (ideal_env 10)
      [⟨0, 100, 3, 0⟩, ⟨5, 50, 4, 0⟩, ⟨20, 10, 5, 0⟩, ⟨30, 0, 12, 0⟩, ⟨50, 70, 1, 0⟩] := by
    unfold FitsSize
    decide
  have h := dev2dev_batches_fill_and_drain (ideal_env 10)
    [⟨0, 100, 3, 0⟩, ⟨5, 50, 4, 0⟩, ⟨20, 10, 5, 0⟩, ⟨30, 0, 12, 0⟩, ⟨50, 70, 1, 0⟩] 31
    hs (by decide) hfit
  obtain ⟨r, hr⟩ := h.2 (by decide) (by decide)
  exact ⟨hs, hfit, r, hr, (h.1 r hr).1⟩

/-- C3: with every system call succeeding and every request extent representable
in `ft_size`, whenever the DEV2DEV call returns, its sequence of operations is a
sequence of loop iterations, each made of the reads of its batch, then the writes
of its batch, then one flush, then the chunks of the oversized extents (each chunk
a read, a write and a flush); the writes of every batch are in ascending logical
order. With a non-empty buffer and enough fuel the call does return. -/
theorem dev2dev_reads_writes_flush_order (env : PosixEnv) (request_vec : List Extent)
    (fuel : Nat) (hs : SyscallsSucceed env) (hB : env.buffer_mmap_size ≤ env.size_max)
    (hfit : FitsSize env request_vec) :
    (∀ r, flush_copy_bytes_dev2dev env fuel request_vec = some r →
      ∃ passes : List Pass,
        r.2 = passes.flatMap (fun p =>
          p.batch.map read_call ++ p.drained.map write_call ++ [Call.flush]
            ++ p.chunks.flatMap chunk_calls) ∧
        ∀ p ∈ passes,
          p.drained.Perm p.batch ∧
          (p.drained.map Extent.logical).Pairwise (fun a b => a ≤ b)) ∧
    (0 < env.buffer_mmap_size → request_vec.length + total_length request_vec < fuel →
      ∃ r, flush_copy_bytes_dev2dev env fuel request_vec = some r) := by
  have hperm : (sort_by_physical request_vec).Perm request_vec :=
    List.perm_insertionSort le_by_physical request_vec
  have hfit' : FitsSize env (sort_by_physical request_vec) :=
    fun e he => hfit e (hperm.mem_iff.1 he)
  refine ⟨?_, ?_⟩
  · intro r hr
    obtain ⟨_, passes, h1, _, h3⟩ := dev2dev_loop_spec hs hB fuel _ r hfit' hr
    refine ⟨passes, h1, ?_⟩
    intro p hp
    obtain ⟨hd, _, _, _⟩ := h3 p hp
    refine ⟨by rw [hd]; exact List.perm_insertionSort le_by_logical p.batch, ?_⟩
    rw [hd, List.pairwise_map]
    refine (sorted_sort_by_logical p.batch).imp ?_
    intro a b hab
    unfold le_by_logical at hab
    omega
  · intro hpos hfuel
    have hlen : (sort_by_physical request_vec).length = request_vec.length := hperm.length_eq
    have htot : total_length (sort_by_physical request_vec) = total_length request_vec := by
      unfold total_length
      exact (hperm.map Extent.length).sum_eq
    exact dev2dev_loop_terminates hs hB hpos fuel _ hfit' (by omega)

/-- C3, at a concrete input: a RAM buffer of 10 bytes and five requests, one of
them larger than the buffer. -/
theorem dev2dev_reads_writes_flush_order_witness :
    SyscallsSucceed (ideal_env 10) ∧
    FitsSize (ideal_env 10)
      [⟨0, 100, 3, 0⟩, ⟨5, 50, 4, 0⟩, ⟨20, 10, 5, 0⟩, ⟨30, 0, 12, 0⟩, ⟨50, 70, 1, 0⟩] ∧
    ∃ (r : Int × List Call) (passes : List Pass), flush_copy_bytes_dev2dev (ideal_env 10) 31
        [⟨0, 100, 3, 0⟩, ⟨5, 50, 4, 0⟩, ⟨20, 10, 5, 0⟩, ⟨30, 0, 12, 0⟩, ⟨50, 70, 1, 0⟩]
          = some r ∧
      r.2 = passes.flatMap (fun p =>
          p.batch.map read_call ++ p.drained.map write_call ++ [Call.flush]
            ++ p.chunks.flatMap chunk_calls) := by
  have hs : SyscallsSucceed (ideal_env 10) :=
    ⟨fun _ => rfl, fun _ _ _ => rfl, fun _ _ _ => rfl⟩
  have hfit : FitsSize (ideal_env 10)
      [⟨0, 100, 3, 0⟩, ⟨5, 50, 4, 0⟩, ⟨20, 10, 5, 0⟩, ⟨30, 0, 12, 0⟩, ⟨50, 70, 1, 0⟩] := by
    unfold FitsSize
    decide
  have h := dev2dev_reads_writes_flush_order (ideal_env 10)
    [⟨0, 100, 3, 0⟩, ⟨5, 50, 4, 0⟩, ⟨20, 10, 5, 0⟩, ⟨30, 0, 12, 0⟩, ⟨50, 70, 1, 0⟩] 31
    hs (by decide) hfit
  obtain ⟨r, hr⟩ := h.2 (by decide) (by decide)
  obtain ⟨passes, hp, _⟩ := h.1 r hr
  exact ⟨hs, hfit, r, passes, hr, hp⟩

/-! ## Bit arithmetic on `ft_uoff` -/

theorem or_two_pow_sub_one (n j : Nat) : n ||| (2 ^ j - 1) = n / 2 ^ j * 2 ^ j + (2 ^ j - 1) := by
  apply Nat.eq_of_testBit_eq
  intro i
  have hlt : 2 ^ j - 1 < 2 ^ j := Nat.sub_lt (Nat.two_pow_pos j) Nat.one_pos
  rw [Nat.testBit_or, Nat.testBit_two_pow_sub_one, Nat.mul_comm,
    Nat.testBit_mul_pow_two_add _ hlt, Nat.testBit_two_pow_sub_one]
  by_cases h : i < j
  · simp [h]
  · have hij : j + (i - j) = i := by omega
    simp [h, ← Nat.shiftRight_eq_div_pow, Nat.testBit_shiftRight, hij]

theorem and_uoff_not_two_pow_sub_one (n m : Nat) (hn : n < 2 ^ 64) (hm : m ≤ 64) :
    n &&& uoff_not (2 ^ m - 1) = n / 2 ^ m * 2 ^ m := by
  have hlt : 2 ^ m - 1 < 2 ^ 64 :=
    lt_of_lt_of_le (Nat.sub_lt (Nat.two_pow_pos m) Nat.one_pos)
      (Nat.pow_le_pow_right (by decide) hm)
  have hnot : uoff_not (2 ^ m - 1) = 2 ^ 64 - ((2 ^ m - 1) + 1) := by
    unfold uoff_not UOFF_BITS
    rw [Nat.mod_eq_of_lt hlt]
    omega
  apply Nat.eq_of_testBit_eq
  intro i
  rw [Nat.testBit_and, hnot, Nat.testBit_two_pow_sub_succ hlt, Nat.testBit_two_pow_sub_one,
    Nat.mul_comm, ← Nat.add_zero (2 ^ m * (n / 2 ^ m)),
    Nat.testBit_mul_pow_two_add _ (Nat.two_pow_pos m)]
  by_cases h : i < m
  · simp [h]
  · have hij : m + (i - m) = i := by omega
    simp only [h, decide_False, Bool.not_false, Bool.and_true, if_false,
      ← Nat.shiftRight_eq_div_pow, Nat.testBit_shiftRight, hij]
    by_cases h64 : i < 64
    · simp [h64]
    · have : n < 2 ^ i := lt_of_lt_of_le hn (Nat.pow_le_pow_right (by decide) (by omega))
      simp [h64, Nat.testBit_lt_two_pow this]

theorem ff_round_up_two_pow (bits n j : Nat) :
    ff_round_up bits n (2 ^ j - 1)
      = if n % 2 ^ j ≠ 0 then wrap bits ((n / 2 ^ j + 1) * 2 ^ j) else n := by
  unfold ff_round_up
  rw [Nat.and_pow_two_sub_one_eq_mod, or_two_pow_sub_one]
  have hpos : 0 < 2 ^ j := Nat.two_pow_pos j
  have : n / 2 ^ j * 2 ^ j + (2 ^ j - 1) + 1 = (n / 2 ^ j + 1) * 2 ^ j := by
    rw [Nat.add_mul]; omega
  rw [this]

theorem two_pow_dvd_ff_round_up (bits n j : Nat) (hj : j ≤ bits) :
    2 ^ j ∣ ff_round_up bits n (2 ^ j - 1) := by
  rw [ff_round_up_two_pow]
  split
  · unfold wrap
    exact (Nat.dvd_mod_iff (Nat.pow_dvd_pow 2 hj)).2 (Nat.dvd_mul_left _ _)
  · rename_i h
    exact Nat.dvd_of_mod_eq_zero (by simpa using h)

theorem ff_round_up_of_dvd (bits n j : Nat) (h : 2 ^ j ∣ n) :
    ff_round_up bits n (2 ^ j - 1) = n := by
  rw [ff_round_up_two_pow, if_neg]
  simpa using Nat.mod_eq_zero_of_dvd h

theorem ff_round_up_lt (bits n m : Nat) (hn : n < 2 ^ bits) :
    ff_round_up bits n m < 2 ^ bits := by
  unfold ff_round_up wrap
  split
  · exact Nat.mod_lt _ (Nat.two_pow_pos bits)
  · exact hn

theorem to_uoff_lt (n : Nat) : to_uoff n < 2 ^ 64 :=
  Nat.mod_lt _ (Nat.two_pow_pos 64)

theorem to_uoff_of_lt {n : Nat} (h : n < 2 ^ 64) : to_uoff n = n :=
  Nat.mod_eq_of_lt h

theorem uoff_sub_one {x : Nat} (h0 : 0 < x) (hx : x < 2 ^ 64) : uoff_sub x 1 = x - 1 := by
  unfold uoff_sub to_uoff wrap UOFF_BITS
  have h1 : (1 : Nat) % 2 ^ 64 = 1 := Nat.mod_eq_of_lt (by norm_num)
  rw [h1]
  have h2 : x + (2 ^ 64 - 1) = (x - 1) + 2 ^ 64 := by
    have : 1 ≤ 2 ^ 64 := Nat.one_le_two_pow
    omega
  rw [h2, Nat.add_mod_right]
  exact Nat.mod_eq_of_lt (by omega)

theorem uoff_sub_two_pow_one (s : Nat) (hs : s < 64) :
    uoff_sub (to_uoff (1 <<< s)) 1 = 2 ^ s - 1 := by
  have h1 : 2 ^ s < 2 ^ 64 := Nat.pow_lt_pow_right (by decide) hs
  have hpos : 0 < 2 ^ s := Nat.two_pow_pos s
  rw [Nat.shiftLeft_eq, Nat.one_mul, to_uoff_of_lt h1]
  exact uoff_sub_one hpos h1

theorem uoff_sub_page_size_one (k : Nat) (hk : k < 64) :
    uoff_sub (to_uoff (2 ^ k)) 1 = 2 ^ k - 1 := by
  have := uoff_sub_two_pow_one k hk
  rwa [Nat.shiftLeft_eq, Nat.one_mul] at this

theorem two_pow_sub_one_or (s k : Nat) :
    (2 ^ s - 1) ||| (2 ^ k - 1) = 2 ^ (max s k) - 1 := by
  apply Nat.eq_of_testBit_eq
  intro i
  simp only [Nat.testBit_or, Nat.testBit_two_pow_sub_one]
  by_cases h1 : i < s <;> by_cases h2 : i < k <;> simp [h1, h2]

/-! ## Lemmas on `create_storage` -/

theorem ite_error_eq_ok {c : Prop} [Decidable c] {e : Int} {x : Except Int StoragePlan}
    {p : StoragePlan} (h : (if c then Except.error e else x) = Except.ok p) :
    x = Except.ok p := by
  split at h
  · cases h
  · exact h

theorem create_storage_plan_ok_eq {inp : PlannerInput} {plan : StoragePlan}
    (h : create_storage_plan inp = Except.ok plan) : plan = planned_lengths inp := by
  unfold create_storage_plan at h
  simp only [] at h
  have h := ite_error_eq_ok (ite_error_eq_ok (ite_error_eq_ok (ite_error_eq_ok
    (ite_error_eq_ok h))))
  injection h with h
  exact h.symm

theorem create_storage_plan_of_not_exact {inp : PlannerInput}
    (h : inp.job_storage_size_exact = false) :
    create_storage_plan inp = Except.ok (planned_lengths inp) := by
  unfold create_storage_plan planned_lengths
  simp [h]

theorem ff_min2_cases (a b : Nat) : ff_min2 a b = a ∨ ff_min2 a b = b := by
  unfold ff_min2; split <;> simp

theorem dvd_ff_min2 {d a b : Nat} (ha : d ∣ a) (hb : d ∣ b) : d ∣ ff_min2 a b := by
  rcases ff_min2_cases a b with h | h <;> rw [h] <;> assumption

theorem lcm_two_pow (k s : Nat) : Nat.lcm (2 ^ k) (2 ^ s) = 2 ^ max s k := by
  rcases Nat.le_total k s with h | h
  · rw [max_eq_left h, Nat.lcm, Nat.gcd_eq_left (Nat.pow_dvd_pow 2 h),
      Nat.mul_div_cancel_left _ (Nat.two_pow_pos k)]
  · rw [max_eq_right h, Nat.lcm, Nat.gcd_eq_right (Nat.pow_dvd_pow 2 h),
      Nat.mul_div_cancel _ (Nat.two_pow_pos s)]

theorem two_pow_dvd_and_uoff_not (x m : Nat) (hx : x < 2 ^ 64) (hm : m ≤ 64) :
    2 ^ m ∣ x &&& uoff_not (2 ^ m - 1) := by
  rw [and_uoff_not_two_pow_sub_one x m hx hm]
  exact Nat.dvd_mul_left _ _

theorem two_pow_dvd_round_div_mod (t m sz : Nat) :
    2 ^ m ∣ (2 ^ t / 2 ^ m * 2 ^ m) % 2 ^ sz := by
  rcases Nat.lt_or_ge t m with h | h
  · rw [Nat.div_eq_of_lt (Nat.pow_lt_pow_right (by decide) h)]
    simp
  · rw [Nat.div_mul_cancel (Nat.pow_dvd_pow 2 h)]
    rcases Nat.lt_or_ge t sz with h2 | h2
    · rw [Nat.mod_eq_of_lt (Nat.pow_lt_pow_right (by decide) h2)]
      exact Nat.pow_dvd_pow 2 h
    · rw [Nat.mod_eq_zero_of_dvd (Nat.pow_dvd_pow 2 h2)]
      exact Nat.dvd_zero _

theorem two_pow_dvd_mem_max (szbits m : Nat) (exact : Bool) (hm : m ≤ 64)
    (hsz : szbits = 32 ∨ szbits = 64) :
    2 ^ m ∣ wrap szbits
      (to_uoff (((2 ^ szbits - 1) >>> (if exact then 0 else 2)) + 1)
        &&& uoff_not (2 ^ m - 1)) := by
  have key : ∀ y, y < 2 ^ 64 → (∃ t, y = 2 ^ t) ∨ y = 0 →
      2 ^ m ∣ wrap szbits (y &&& uoff_not (2 ^ m - 1)) := by
    intro y hy hcase
    rw [and_uoff_not_two_pow_sub_one y m hy hm]
    unfold wrap
    rcases hcase with ⟨t, rfl⟩ | rfl
    · exact two_pow_dvd_round_div_mod t m szbits
    · simp
  apply key _ (to_uoff_lt _)
  rcases hsz with h | h <;> cases exact <;> subst h
  · exact Or.inl ⟨30, by decide⟩
  · exact Or.inl ⟨32, by decide⟩
  · exact Or.inl ⟨62, by decide⟩
  · exact Or.inr (by decide)

theorem clamp_lengths_aligned (P T4 P3 : Nat) (hPpos : 0 < P) (hT : P ∣ T4) (hPr : P ∣ P3) :
    (if P3 > (if T4 = 0 then P else T4) then (if T4 = 0 then P else T4) else P3)
        ≤ (if T4 = 0 then P else T4) ∧
    0 < (if T4 = 0 then P else T4) ∧
    P ∣ (if T4 = 0 then P else T4) ∧
    P ∣ (if P3 > (if T4 = 0 then P else T4) then (if T4 = 0 then P else T4) else P3) ∧
    P ∣ (if T4 = 0 then P else T4)
      - (if P3 > (if T4 = 0 then P else T4) then (if T4 = 0 then P else T4) else P3) := by
  have h5 : P ∣ (if T4 = 0 then P else T4) := by
    split_ifs
    · exact dvd_refl _
    · exact hT
  have h4 : P ∣ (if P3 > (if T4 = 0 then P else T4) then (if T4 = 0 then P else T4) else P3) := by
    split_ifs <;> first | exact dvd_refl _ | exact hT | exact hPr
  refine ⟨?_, ?_, h5, h4, Nat.dvd_sub' h5 h4⟩
  · split_ifs <;> omega
  · split_ifs <;> omega

theorem planned_lengths_aligned (inp : PlannerInput) (k : Nat)
    (hpage : inp.page_size = 2 ^ k) (hk : k < 64) (hs : inp.eff_block_size_log2 < 64)
    (hsz : inp.szbits = 32 ∨ inp.szbits = 64) :
    (planned_lengths inp).primary_len ≤ (planned_lengths inp).total_len ∧
    (planned_lengths inp).secondary_len
      = (planned_lengths inp).total_len - (planned_lengths inp).primary_len ∧
    0 < (planned_lengths inp).total_len ∧
    2 ^ max inp.eff_block_size_log2 k ∣ (planned_lengths inp).total_len ∧
    2 ^ max inp.eff_block_size_log2 k ∣ (planned_lengths inp).primary_len ∧
    2 ^ max inp.eff_block_size_log2 k ∣ (planned_lengths inp).secondary_len := by
  have hm : max inp.eff_block_size_log2 k ≤ 63 := by
    rcases max_cases inp.eff_block_size_log2 k with h | h <;> omega
  have hm64 : max inp.eff_block_size_log2 k ≤ 64 := by omega
  have hP : 2 ^ max inp.eff_block_size_log2 k < 2 ^ 64 :=
    Nat.pow_lt_pow_right (by decide) (by omega)
  have hPpos : 0 < 2 ^ max inp.eff_block_size_log2 k := Nat.two_pow_pos _
  have hebs := uoff_sub_two_pow_one inp.eff_block_size_log2 hs
  have hpsz : uoff_sub (to_uoff inp.page_size) 1 = 2 ^ k - 1 := by
    rw [hpage]; exact uoff_sub_page_size_one k hk
  have ha := two_pow_sub_one_or inp.eff_block_size_log2 k
  have hsucc : to_uoff (2 ^ max inp.eff_block_size_log2 k - 1 + 1)
      = 2 ^ max inp.eff_block_size_log2 k := by
    rw [Nat.sub_add_cancel hPpos]; exact to_uoff_of_lt hP
  -- alignment of the rounded total length
  have ht1 : 2 ^ k ∣ ff_round_up UOFF_BITS (initial_total_len inp) (2 ^ k - 1) :=
    two_pow_dvd_ff_round_up _ _ _ (by unfold UOFF_BITS; omega)
  have ht2s : 2 ^ inp.eff_block_size_log2 ∣ ff_round_up UOFF_BITS
      (ff_round_up UOFF_BITS (initial_total_len inp) (2 ^ k - 1))
      (2 ^ inp.eff_block_size_log2 - 1) :=
    two_pow_dvd_ff_round_up _ _ _ (by unfold UOFF_BITS; omega)
  have ht2 : 2 ^ max inp.eff_block_size_log2 k ∣ ff_round_up UOFF_BITS
      (ff_round_up UOFF_BITS (initial_total_len inp) (2 ^ k - 1))
      (2 ^ inp.eff_block_size_log2 - 1) := by
    rcases Nat.le_total k inp.eff_block_size_log2 with h | h
    · rw [max_eq_left h]; exact ht2s
    · rw [max_eq_right h,
        ff_round_up_of_dvd _ _ _ (Nat.dvd_trans (Nat.pow_dvd_pow 2 h) ht1)]
      exact ht1
  have hoff : 2 ^ max inp.eff_block_size_log2 k ∣
      ((2 ^ UOFF_BITS - 1) >>> 1) &&& uoff_not (2 ^ max inp.eff_block_size_log2 k - 1) :=
    two_pow_dvd_and_uoff_not _ _ (by decide) hm64
  have hmem := two_pow_dvd_mem_max inp.szbits (max inp.eff_block_size_log2 k)
    inp.job_storage_size_exact hm64 hsz
  have hprim : 2 ^ max inp.eff_block_size_log2 k ∣
      to_uoff (to_uoff inp.free_total_count <<< inp.eff_block_size_log2)
        &&& uoff_not (2 ^ max inp.eff_block_size_log2 k - 1) :=
    two_pow_dvd_and_uoff_not _ _ (to_uoff_lt _) hm64
  have hT := dvd_ff_min2 (dvd_ff_min2 ht2 hoff) hmem
  have hPr := dvd_ff_min2 (dvd_ff_min2 hprim hoff) hmem
  obtain ⟨c1, c2, c3, c4, c5⟩ := clamp_lengths_aligned _ _ _ hPpos hT hPr
  unfold planned_lengths
  simp only [hebs, hpsz, ha, hsucc]
  exact ⟨c1, trivial, c2, c3, c4, c5⟩

/-! ## Claims on `ft_work<T>::create_storage` and the hole threshold -/

/-- C4: when page size is a power of two (the effective block size is one by
construction), the lengths with which `create_storage` reaches the call of
`io->create_storage` satisfy `primary_len ≤ total_len`,
`secondary_len = total_len - primary_len`, `primary_len + secondary_len = total_len`,
`total_len > 0`, and all three are multiples of `lcm(page_size, block_size)`.
Without `storage_size_exact` the call is always reached. -/
theorem create_storage_plan_aligned (inp : PlannerInput) (k : Nat)
    (hpage : inp.page_size = 2 ^ k) (hk : k < 64) (hs : inp.eff_block_size_log2 < 64)
    (hsz : inp.szbits = 32 ∨ inp.szbits = 64) :
    (∀ plan, create_storage_plan inp = Except.ok plan →
      plan.primary_len ≤ plan.total_len ∧
      plan.secondary_len = plan.total_len - plan.primary_len ∧
      plan.primary_len + plan.secondary_len = plan.total_len ∧
      0 < plan.total_len ∧
      Nat.lcm inp.page_size (2 ^ inp.eff_block_size_log2) ∣ plan.total_len ∧
      Nat.lcm inp.page_size (2 ^ inp.eff_block_size_log2) ∣ plan.primary_len ∧
      Nat.lcm inp.page_size (2 ^ inp.eff_block_size_log2) ∣ plan.secondary_len) ∧
    (inp.job_storage_size_exact = false → ∃ plan, create_storage_plan inp = Except.ok plan) := by
  refine ⟨?_, fun h => ⟨_, create_storage_plan_of_not_exact h⟩⟩
  intro plan hplan
  have hp := create_storage_plan_ok_eq hplan
  obtain ⟨h1, h2, h3, h4, h5, h6⟩ := planned_lengths_aligned inp k hpage hk hs hsz
  rw [hpage, lcm_two_pow, hp]
  refine ⟨h1, h2, ?_, h3, h4, h5, h6⟩
  rw [h2]
  omega

/-- C4, at a concrete input: 64-bit `ft_size`, 4 KiB pages and blocks, automatic
sizing with unknown free RAM, 1000 free blocks and 2^20 blocks to relocate. -/
theorem create_storage_plan_aligned_witness :
    create_storage_plan ⟨64, 12, 0, 4096, 1000, 2 ^ 20, 0, false⟩
        = Except.ok ⟨268435456, 4096000, 264339456⟩ ∧
      Nat.lcm 4096 (2 ^ 12) ∣ 268435456 ∧ Nat.lcm 4096 (2 ^ 12) ∣ 4096000 ∧
      Nat.lcm 4096 (2 ^ 12) ∣ 264339456 := by
  have h : create_storage_plan ⟨64, 12, 0, 4096, 1000, 2 ^ 20, 0, false⟩
      = Except.ok ⟨268435456, 4096000, 264339456⟩ := by rfl
  have := (create_storage_plan_aligned ⟨64, 12, 0, 4096, 1000, 2 ^ 20, 0, false⟩ 12
    (by decide) (by decide) (by decide) (Or.inr rfl)).1 _ h
  exact ⟨h, this.2.2.2.2.1, this.2.2.2.2.2.1, this.2.2.2.2.2.2⟩

/-- C7 (the code at a failing input): with `storage_size_exact` set, 64-bit
`ft_size`, 4 KiB pages and blocks and a requested size of 1 MiB - a multiple of
page and block size, below `off_t` and `size_t` maximum - `create_storage` rejects
the size with `-EOVERFLOW`. -/
theorem create_storage_exact_rejects_aligned_size :
    create_storage_plan ⟨64, 12, 2 ^ 32, 4096, 0, 2 ^ 20, 2 ^ 20, true⟩
      = Except.error (-EOVERFLOW) := by
  rfl

theorem ff_min2_zero_right (a : Nat) : ff_min2 a 0 = 0 := by
  unfold ff_min2; split <;> omega

theorem mem_max_exact_eq_zero (szbits A : Nat) (hsz : szbits = 32 ∨ szbits = 64) :
    wrap szbits (to_uoff (((2 ^ szbits - 1) >>> 0) + 1) &&& A) = 0 := by
  rcases hsz with h | h <;> subst h
  · have h1 : to_uoff (((2 ^ 32 - 1) >>> 0) + 1) = 2 ^ 32 := by decide
    rw [h1]
    unfold wrap
    apply Nat.eq_of_testBit_eq
    intro i
    rw [Nat.testBit_mod_two_pow, Nat.testBit_and, Nat.testBit_two_pow, Nat.zero_testBit]
    by_cases hi : i < 32
    · have : ¬ (32 = i) := by omega
      simp [this]
    · simp [hi]
  · have h1 : to_uoff (((2 ^ 64 - 1) >>> 0) + 1) = 0 := by decide
    rw [h1]
    simp [wrap]

/-- With `storage_size_exact` set, `create_storage` never reaches the call of
`io->create_storage`: the clamp to `mem_max`, which is `0` in that mode, always
changes a non-zero request. -/
theorem create_storage_exact_never_ok (inp : PlannerInput)
    (hexact : inp.job_storage_size_exact = true) (hsz : inp.szbits = 32 ∨ inp.szbits = 64)
    (plan : StoragePlan) : create_storage_plan inp ≠ Except.ok plan := by
  intro h
  unfold create_storage_plan at h
  simp only [hexact, true_and, if_true] at h
  split at h
  · cases h
  rename_i hreq
  have h := ite_error_eq_ok (ite_error_eq_ok (ite_error_eq_ok h))
  rw [mem_max_exact_eq_zero _ _ hsz, ff_min2_zero_right] at h
  split at h
  · cases h
  · rename_i hne
    exact hne (fun h0 => hreq h0.symm)

/-- C8 (counterexample): with 3 MiB + 1 byte of free RAM and 4 GiB to relocate, the
automatic size is 2 MiB, which is not the smallest multiple of 1 MiB that is at
least `min(free_ram / 3, ceil(work_bytes / 10))` = 1 MiB. -/
theorem auto_total_len_not_floor_third :
    initial_total_len ⟨64, 12, 3 * 2 ^ 20 + 1, 4096, 0, 2 ^ 20, 0, false⟩ = 2 * 2 ^ 20 ∧
    ¬ IsSmallestMultipleGE (1024 * 1024)
        (min ((3 * 2 ^ 20 + 1) / 3) ((2 ^ 20 * 2 ^ 12 + 9) / 10))
        (initial_total_len ⟨64, 12, 3 * 2 ^ 20 + 1, 4096, 0, 2 ^ 20, 0, false⟩) := by
  have h : initial_total_len ⟨64, 12, 3 * 2 ^ 20 + 1, 4096, 0, 2 ^ 20, 0, false⟩ = 2 * 2 ^ 20 := by
    decide
  refine ⟨h, ?_⟩
  rw [h]
  intro hc
  have := hc.2.2 (1024 * 1024) (dvd_refl _) (by decide)
  omega

/-- C8 (amended): in automatic mode with known free RAM, and as long as
`free_ram + 2` and `work_bytes + 9` do not overflow `ft_uoff`, the `total_len`
computed before alignment is the smallest multiple of 1 MiB that is at least
`min(ceil(free_ram / 3), ceil(work_bytes / 10))`, with
`work_bytes = work_count * block_size`. -/
theorem auto_total_len_ceil_third (inp : PlannerInput)
    (hauto : inp.job_storage_size = 0) (hram : inp.free_ram ≠ 0)
    (hram2 : inp.free_ram + 2 < 2 ^ 64)
    (hwork : inp.work_count * 2 ^ inp.eff_block_size_log2 + 9 < 2 ^ 64) :
    IsSmallestMultipleGE (1024 * 1024)
      (min ((inp.free_ram + 2) / 3) ((inp.work_count * 2 ^ inp.eff_block_size_log2 + 9) / 10))
      (initial_total_len inp) := by
  have hwc : inp.work_count < 2 ^ 64 := by
    have : inp.work_count * 1 ≤ inp.work_count * 2 ^ inp.eff_block_size_log2 :=
      Nat.mul_le_mul_left _ (Nat.one_le_two_pow)
    omega
  have h3 : free_ram_3 inp = (inp.free_ram + 2) / 3 := by
    unfold free_ram_3
    rw [if_pos hram, to_uoff_of_lt (by omega : inp.free_ram < 2 ^ 64), to_uoff_of_lt hram2]
  have h10 : work_length_10 inp = (inp.work_count * 2 ^ inp.eff_block_size_log2 + 9) / 10 := by
    unfold work_length_10
    rw [to_uoff_of_lt hwc, Nat.shiftLeft_eq,
      to_uoff_of_lt (by omega : inp.work_count * 2 ^ inp.eff_block_size_log2 < 2 ^ 64),
      to_uoff_of_lt hwork]
  have hM : _1M_minus_1 = 2 ^ 20 - 1 := by decide
  have hinit : initial_total_len inp = ff_round_up UOFF_BITS
      (min ((inp.free_ram + 2) / 3) ((inp.work_count * 2 ^ inp.eff_block_size_log2 + 9) / 10))
      (2 ^ 20 - 1) := by
    unfold initial_total_len
    simp only [hauto]
    rw [h3, h10, hM, ff_min2_eq_min]
    rfl
  rw [hinit, ff_round_up_two_pow]
  generalize hx : min ((inp.free_ram + 2) / 3)
    ((inp.work_count * 2 ^ inp.eff_block_size_log2 + 9) / 10) = x
  have hxle : x ≤ (inp.free_ram + 2) / 3 := by rw [← hx]; exact min_le_left _ _
  have hxlt : x * 3 < 2 ^ 64 := by
    have := Nat.div_mul_le_self (inp.free_ram + 2) 3
    omega
  have hdm := Nat.div_add_mod x (2 ^ 20)
  have hmod := Nat.mod_lt x (Nat.two_pow_pos 20)
  unfold IsSmallestMultipleGE
  by_cases hr : x % 2 ^ 20 = 0
  · rw [if_neg (by simpa using hr)]
    exact ⟨Nat.dvd_of_mod_eq_zero hr, le_refl _, fun m _ hm => hm⟩
  · rw [if_pos hr]
    have hnow : wrap UOFF_BITS ((x / 2 ^ 20 + 1) * 2 ^ 20) = (x / 2 ^ 20 + 1) * 2 ^ 20 := by
      unfold wrap UOFF_BITS
      apply Nat.mod_eq_of_lt
      omega
    rw [hnow]
    refine ⟨Nat.dvd_mul_left _ _, by omega, ?_⟩
    intro m hm hxm
    obtain ⟨c, rfl⟩ := hm
    have : x / 2 ^ 20 < c := by
      by_contra hcon
      have : c ≤ x / 2 ^ 20 := by omega
      have := Nat.mul_le_mul_left (2 ^ 20) this
      omega
    have := Nat.mul_le_mul_left (2 ^ 20) (Nat.succ_le_of_lt this)
    omega

/-- C8 (amended), at a concrete input: 3 MiB + 1 byte of free RAM, 4 GiB to
relocate. -/
theorem auto_total_len_ceil_third_witness :
    IsSmallestMultipleGE (1024 * 1024)
      (min ((3 * 2 ^ 20 + 1 + 2) / 3) ((2 ^ 20 * 2 ^ 12 + 9) / 10))
      (initial_total_len ⟨64, 12, 3 * 2 ^ 20 + 1, 4096, 0, 2 ^ 20, 0, false⟩) :=
  auto_total_len_ceil_third ⟨64, 12, 3 * 2 ^ 20 + 1, 4096, 0, 2 ^ 20, 0, false⟩ rfl
    (by decide) (by decide) (by decide)

/-- C9 (counterexample): on a platform with 64-bit `ft_size`, with 4 GiB to
relocate, unknown free RAM plans `total_len` = 256 MiB, whereas 256 MiB of free RAM
plans `total_len` = 86 MiB. -/
theorem unknown_ram_differs_from_256M :
    create_storage_plan ⟨64, 12, 0, 4096, 0, 2 ^ 20, 0, false⟩
      = Except.ok ⟨256 * 2 ^ 20, 0, 256 * 2 ^ 20⟩ ∧
    create_storage_plan ⟨64, 12, 256 * 2 ^ 20, 4096, 0, 2 ^ 20, 0, false⟩
      = Except.ok ⟨86 * 2 ^ 20, 0, 86 * 2 ^ 20⟩ ∧
    256 * 2 ^ 20 ≠ 86 * 2 ^ 20 :=
  ⟨rfl, rfl, by decide⟩

/-- C9 (amended): when the free RAM amount is reported as `0`, `create_storage`
computes the same result as for three times 256 MiB (768 MiB) of free RAM on a
platform with 64-bit `ft_size`, and as for three times 16 MiB (48 MiB) on a
platform with 32-bit `ft_size`. -/
theorem unknown_ram_assumes_three_times (inp : PlannerInput) (hram : inp.free_ram = 0) :
    (inp.szbits = 64 →
      create_storage_plan inp
        = create_storage_plan { inp with free_ram := 3 * (256 * 1024 * 1024) }) ∧
    (inp.szbits = 32 →
      create_storage_plan inp
        = create_storage_plan { inp with free_ram := 3 * (16 * 1024 * 1024) }) := by
  constructor
  · intro hsz
    have h3 : free_ram_3 inp = free_ram_3 { inp with free_ram := 3 * (256 * 1024 * 1024) } := by
      have : to_uoff (to_uoff (3 * (256 * 1024 * 1024)) + 2) / 3 = 256 * 1024 * 1024 := by decide
      simp [free_ram_3, hram, hsz, this]
    have hinit : initial_total_len inp
        = initial_total_len { inp with free_ram := 3 * (256 * 1024 * 1024) } := by
      unfold initial_total_len
      rw [h3]
      rfl
    unfold create_storage_plan
    rw [hinit]
  · intro hsz
    have h3 : free_ram_3 inp = free_ram_3 { inp with free_ram := 3 * (16 * 1024 * 1024) } := by
      have : to_uoff (to_uoff (3 * (16 * 1024 * 1024)) + 2) / 3 = 16 * 1024 * 1024 := by decide
      simp [free_ram_3, hram, hsz, this]
    have hinit : initial_total_len inp
        = initial_total_len { inp with free_ram := 3 * (16 * 1024 * 1024) } := by
      unfold initial_total_len
      rw [h3]
      rfl
    unfold create_storage_plan
    rw [hinit]

/-- C9 (amended), at a concrete input: 64-bit `ft_size`, 4 GiB to relocate. -/
theorem unknown_ram_assumes_three_times_witness :
    create_storage_plan ⟨64, 12, 0, 4096, 0, 2 ^ 20, 0, false⟩
      = create_storage_plan ⟨64, 12, 3 * (256 * 1024 * 1024), 4096, 0, 2 ^ 20, 0, false⟩ :=
  (unknown_ram_assumes_three_times ⟨64, 12, 0, 4096, 0, 2 ^ 20, 0, false⟩ rfl).1 rfl

/-- C10 (counterexample): for `work_count = 2^20` blocks and `page_blocks = 1` the
threshold is 1024, not `max(work_count / 1024, 4096 * page_blocks)` = 4096. -/
theorem hole_threshold_not_max :
    hole_threshold (2 ^ 20) 1 = 1024 ∧
    hole_threshold (2 ^ 20) 1 ≠ max (2 ^ 20 / 1024) (4096 * 1) := by
  decide

/-- C10 (amended): the threshold equals `min(work_count / 1024, 4096 * page_blocks)`
for every `work_count` of type `ft_uoff` and every `page_blocks` below `2^52` (so
that `page_blocks << 12` does not wrap). -/
theorem hole_threshold_eq_min (work_count page_blocks : Nat) (hw : work_count < 2 ^ 64)
    (hp : page_blocks < 2 ^ 52) :
    hole_threshold work_count page_blocks = min (work_count / 1024) (4096 * page_blocks) := by
  unfold hole_threshold
  rw [ff_min2_eq_min, to_uoff_of_lt hw, to_uoff_of_lt (by omega : page_blocks < 2 ^ 64),
    Nat.shiftLeft_eq, Nat.shiftRight_eq_div_pow, to_uoff_of_lt (by omega)]
  norm_num
  omega

/-- C10 (amended), at a concrete input: `work_count = 2^20`, `page_blocks = 1`. -/
theorem hole_threshold_eq_min_witness :
    hole_threshold (2 ^ 20) 1 = min (2 ^ 20 / 1024) (4096 * 1) :=
  hole_threshold_eq_min (2 ^ 20) 1 (by decide) (by decide)

/-! ## Claims on `ft_work<T>::fill_io_primary_storage` -/

/-- C5 (the code at a failing input): for a 32-bit block-number type `T`, 4 KiB
blocks and one candidate of 2^20 blocks at block 2^20 (byte range
`[2^32, 2^33)`), all of it requested (`primary_len = 2^32`), the extent appended to
`io->primary_storage()` is `(physical 0, logical 0, length 0)`: its length does not
sum to `primary_len` and it is not a part of the candidate. -/
theorem fill_io_primary_storage_truncates :
    fill_io_primary_storage 32 12 ⟨[⟨2 ^ 20, 2 ^ 20, 2 ^ 20, 0⟩], 2 ^ 20, 0⟩ [] (2 ^ 32)
      = some (⟨[⟨2 ^ 20, 2 ^ 20, 2 ^ 20, 0⟩], 2 ^ 20, 0⟩, [⟨0, 0, 0, 0⟩]) ∧
    total_length [⟨0, 0, 0, 0⟩] ≠ 2 ^ 32 := by
  decide

/-- C6 (the code at a failing input, and the scenario of the claim): for a 32-bit
block-number type `T` and 4 KiB blocks, with candidates of 2^20 blocks (4 GiB), 2
blocks and 1 block, and 4 KiB to give up, the 4 GiB candidate and the 1-block
candidate are dropped and the 2-block candidate is kept. For candidates of 256 KiB,
512 KiB and 256 KiB with `primary_len` = 512 KiB exactly the 512 KiB candidate
remains. -/
theorem fill_io_primary_storage_drops_largest :
    fill_io_primary_storage 32 12
        ⟨[⟨0, 0, 2 ^ 20, 0⟩, ⟨2 ^ 20 + 10, 2 ^ 20 + 10, 2, 0⟩, ⟨2 ^ 20 + 20, 2 ^ 20 + 20, 1, 0⟩],
          2 ^ 20 + 3, 0⟩ [] (2 ^ 32 + 8192)
      = some (⟨[⟨10, 10, 2, 0⟩], 2 ^ 20 + 2, 0⟩, [⟨40960, 40960, 8192, 0⟩]) ∧
    fill_io_primary_storage 32 12
        ⟨[⟨0, 0, 64, 0⟩, ⟨100, 100, 128, 0⟩, ⟨300, 300, 64, 0⟩], 256, 0⟩ [] (512 * 1024)
      = some (⟨[⟨100, 100, 128, 0⟩], 128, 0⟩, [⟨409600, 409600, 524288, 0⟩]) := by
  decide

/-! ## `fill_io_primary_storage` when the byte values fit `T` -/

theorem uoff_sub_of_le {a b : Nat} (hb : b ≤ a) (ha : a < 2 ^ 64) : uoff_sub a b = a - b := by
  unfold uoff_sub to_uoff wrap UOFF_BITS
  have hb64 : b < 2 ^ 64 := lt_of_le_of_lt hb ha
  rw [Nat.mod_eq_of_lt hb64]
  have : a + (2 ^ 64 - b) = (a - b) + 2 ^ 64 := by omega
  rw [this, Nat.add_mod_right]
  exact Nat.mod_eq_of_lt (by omega)

theorem wrap_of_lt {bits n : Nat} (h : n < 2 ^ bits) : wrap bits n = n :=
  Nat.mod_eq_of_lt h

theorem drop_smallest_spec (tbits : Nat) (h64 : tbits ≤ 64) :
    ∀ (l : List Extent) (extra : Nat), (∀ e ∈ l, e.length < 2 ^ tbits) →
      ∃ dropped rest, l = dropped ++ rest ∧ total_length dropped ≤ extra ∧
        ((drop_smallest tbits extra l = rest ∧
            (rest = [] ∨ total_length dropped = extra)) ∨
          (∃ e rest', rest = e :: rest' ∧ 0 < extra - total_length dropped ∧
            extra - total_length dropped < e.length ∧
            drop_smallest tbits extra l
              = { e with length := e.length - (extra - total_length dropped) } :: rest')) := by
  intro l
  induction l with
  | nil =>
    intro extra _
    exact ⟨[], [], rfl, by simp [total_length], Or.inl ⟨rfl, Or.inl rfl⟩⟩
  | cons e es ih =>
    intro extra hl
    have he := hl e (List.mem_cons_self _ _)
    have he64 : e.length < 2 ^ 64 :=
      lt_of_lt_of_le he (Nat.pow_le_pow_right (by decide) h64)
    by_cases h0 : extra = 0
    · refine ⟨[], e :: es, rfl, by simp [total_length], Or.inl ⟨?_, Or.inr ?_⟩⟩
      · simp [drop_smallest, h0]
      · simp [total_length, h0]
    · by_cases hle : e.length ≤ extra
      · obtain ⟨dropped, rest, h1, h2, h3⟩ :=
          ih (extra - e.length) (fun x hx => hl x (List.mem_cons_of_mem _ hx))
        have hds : drop_smallest tbits extra (e :: es)
            = drop_smallest tbits (extra - e.length) es := by
          simp [drop_smallest, h0, wrap_of_lt he, hle]
        refine ⟨e :: dropped, rest, by simp [h1], ?_, ?_⟩
        · rw [total_length_cons]; omega
        · rw [hds, total_length_cons]
          rcases h3 with ⟨h3a, h3b⟩ | ⟨x, rest', h3a, h3b, h3c, h3d⟩
          · refine Or.inl ⟨h3a, ?_⟩
            rcases h3b with h | h
            · exact Or.inl h
            · exact Or.inr (by omega)
          · refine Or.inr ⟨x, rest', h3a, by omega, by omega, ?_⟩
            rw [h3d]
            have : extra - (e.length + total_length dropped)
                = extra - e.length - total_length dropped := by omega
            rw [this]
      · have hds : drop_smallest tbits extra (e :: es)
            = { e with length := e.length - extra } :: es := by
          simp [drop_smallest, h0, wrap_of_lt he, hle, uoff_sub_of_le (by omega : extra ≤ e.length) he64]
        refine ⟨[], e :: es, rfl, by simp [total_length], Or.inr ⟨e, es, rfl, ?_, ?_, ?_⟩⟩
        · simp only [total_length_nil]; omega
        · simp only [total_length_nil]; omega
        · simp only [total_length_nil, Nat.sub_zero]; exact hds

theorem total_length_drop_smallest (tbits : Nat) (h64 : tbits ≤ 64) (l : List Extent)
    (extra : Nat) (hl : ∀ e ∈ l, e.length < 2 ^ tbits) (hextra : extra ≤ total_length l) :
    total_length (drop_smallest tbits extra l) = total_length l - extra := by
  obtain ⟨dropped, rest, h1, h2, h3⟩ := drop_smallest_spec tbits h64 l extra hl
  have htl : total_length l = total_length dropped + total_length rest := by
    rw [h1, total_length_append]
  rcases h3 with ⟨h3a, h3b⟩ | ⟨x, rest', h3a, h3b, h3c, h3d⟩
  · rw [h3a]
    rcases h3b with h | h
    · rw [h] at htl ⊢
      simp only [total_length_nil] at htl ⊢
      omega
    · omega
  · rw [h3d, total_length_cons]
    rw [h3a, total_length_cons] at htl
    simp only
    omega

theorem mem_drop_smallest (tbits : Nat) (h64 : tbits ≤ 64) (d : Nat) (l : List Extent)
    (extra : Nat) (hl : ∀ e ∈ l, e.length < 2 ^ tbits) (hd : ∀ e ∈ l, d ∣ e.length)
    (hde : d ∣ extra) :
    ∀ x ∈ drop_smallest tbits extra l, ∃ y ∈ l, x.physical = y.physical ∧
      x.logical = y.logical ∧ x.user_data = y.user_data ∧ x.length ≤ y.length ∧
      d ∣ x.length := by
  obtain ⟨dropped, rest, h1, h2, h3⟩ := drop_smallest_spec tbits h64 l extra hl
  have hdd : d ∣ total_length dropped := by
    have : ∀ e ∈ dropped, d ∣ e.length :=
      fun e he => hd e (by rw [h1]; exact List.mem_append_left _ he)
    clear h1 h2 h3
    induction dropped with
    | nil => simp [total_length]
    | cons a as ih =>
      rw [total_length_cons]
      exact Nat.dvd_add (this a (List.mem_cons_self _ _))
        (ih (fun e he => this e (List.mem_cons_of_mem _ he)))
  intro x hx
  rcases h3 with ⟨h3a, _⟩ | ⟨e, rest', h3a, h3b, h3c, h3d⟩
  · rw [h3a] at hx
    have hxl : x ∈ l := by rw [h1]; exact List.mem_append_right _ hx
    exact ⟨x, hxl, rfl, rfl, rfl, le_refl _, hd x hxl⟩
  · rw [h3d] at hx
    rcases List.mem_cons.1 hx with rfl | hx
    · have hel : e ∈ l := by rw [h1, h3a]; exact List.mem_append_right _ (List.mem_cons_self _ _)
      refine ⟨e, hel, rfl, rfl, rfl, by simp only; omega, ?_⟩
      exact Nat.dvd_sub' (hd e hel) (Nat.dvd_sub' hde hdd)
    · have hxl : x ∈ l := by
        rw [h1, h3a]; exact List.mem_append_right _ (List.mem_cons_of_mem _ hx)
      exact ⟨x, hxl, rfl, rfl, rfl, le_refl _, hd x hxl⟩

/-- Byte extent of a candidate: physical, logical and length scaled by the block
size. -/
theorem primary_extent_of_eq (tbits s : Nat) (h64 : tbits ≤ 64) (e : Extent)
    (hp : e.physical * 2 ^ s < 2 ^ tbits) (hl : e.length * 2 ^ s < 2 ^ tbits) :
    primary_extent_of tbits s e
      = ⟨e.physical * 2 ^ s, e.physical * 2 ^ s, e.length * 2 ^ s, e.user_data⟩ := by
  have hT : 2 ^ tbits ≤ 2 ^ 64 := Nat.pow_le_pow_right (by decide) h64
  have h1 : 1 ≤ 2 ^ s := Nat.one_le_two_pow
  have hp1 : e.physical * 1 ≤ e.physical * 2 ^ s := Nat.mul_le_mul_left _ h1
  have hl1 : e.length * 1 ≤ e.length * 2 ^ s := Nat.mul_le_mul_left _ h1
  unfold primary_extent_of
  simp only [Nat.shiftLeft_eq]
  rw [to_uoff_of_lt (by omega : e.physical < 2 ^ 64),
    to_uoff_of_lt (by omega : e.length < 2 ^ 64),
    to_uoff_of_lt (by omega : e.physical * 2 ^ s < 2 ^ 64),
    to_uoff_of_lt (by omega : e.length * 2 ^ s < 2 ^ 64),
    wrap_of_lt hp, wrap_of_lt hl]

theorem map_primary_extent_of_eq (tbits s : Nat) (h64 : tbits ≤ 64) (l : List Extent)
    (hfit : ∀ e ∈ l, e.physical * 2 ^ s < 2 ^ tbits ∧ e.length * 2 ^ s < 2 ^ tbits) :
    l.map (primary_extent_of tbits s)
      = l.map fun e => ⟨e.physical * 2 ^ s, e.physical * 2 ^ s, e.length * 2 ^ s, e.user_data⟩ := by
  apply List.map_congr_left
  intro e he
  exact primary_extent_of_eq tbits s h64 e (hfit e he).1 (hfit e he).2

theorem total_length_map_scale (s : Nat) (l : List Extent) :
    total_length
        (l.map fun e => (⟨e.physical * 2 ^ s, e.physical * 2 ^ s, e.length * 2 ^ s, e.user_data⟩ : Extent))
      = total_length l * 2 ^ s := by
  induction l with
  | nil => simp [total_length]
  | cons e es ih =>
    rw [List.map_cons, total_length_cons, total_length_cons, ih, Nat.add_mul]

theorem total_length_perm {a b : List Extent} (h : a.Perm b) :
    total_length a = total_length b := by
  unfold total_length
  exact (h.map Extent.length).sum_eq

theorem total_length_reverse (a : List Extent) : total_length a.reverse = total_length a :=
  total_length_perm (List.reverse_perm a)

theorem perm_sort_by_reverse_length (l : List Extent) : (sort_by_reverse_length l).Perm l :=
  List.perm_insertionSort le_by_reverse_length l

theorem perm_sort_by_physical (l : List Extent) : (sort_by_physical l).Perm l :=
  List.perm_insertionSort le_by_physical l

theorem sorted_sort_by_reverse_length (v : List Extent) :
    (sort_by_reverse_length v).Pairwise le_by_reverse_length := by
  have htot : IsTotal Extent le_by_reverse_length := ⟨fun a b => by
    unfold le_by_reverse_length; omega⟩
  have htr : IsTrans Extent le_by_reverse_length := ⟨fun a b c => by
    unfold le_by_reverse_length; omega⟩
  exact List.sorted_insertionSort le_by_reverse_length v

theorem assert_aligned (s primary_len : Nat) (hs : s < 64) (h : 2 ^ s ∣ primary_len) :
    primary_len &&& uoff_sub (to_uoff (1 <<< s)) 1 = 0 := by
  rw [uoff_sub_two_pow_one s hs, Nat.and_pow_two_sub_one_eq_mod]
  exact Nat.mod_eq_zero_of_dvd h

/-- When the byte values of every candidate fit the block-number type `T`
(`tbits` bits), the extents `fill_io_primary_storage` leaves in
`io->primary_storage()` sum to `primary_len`, are in ascending physical order, each
starts at the start of a candidate and is no longer than it, and `dev_free_map`
holds the same extents in blocks with `total_count = primary_len / block_size`. -/
theorem fill_io_primary_storage_exact (tbits s : Nat) (m : ft_map) (primary_len : Nat)
    (h64 : tbits ≤ 64) (hs : s < 64)
    (hfit : ∀ e ∈ m.entries, e.physical * 2 ^ s < 2 ^ tbits ∧ e.length * 2 ^ s < 2 ^ tbits)
    (hsorted : m.entries.Pairwise (fun a b => a.physical < b.physical))
    (htc : m.total_count = total_length m.entries) (htcT : m.total_count < 2 ^ tbits)
    (havail : m.total_count * 2 ^ s < 2 ^ 64)
    (halign : 2 ^ s ∣ primary_len) (hle : primary_len ≤ m.total_count * 2 ^ s) :
    ∃ (fm : ft_map) (ps : List Extent),
      fill_io_primary_storage tbits s m [] primary_len = some (fm, ps) ∧
      total_length ps = primary_len ∧
      ps.Pairwise le_by_physical ∧
      (∀ x ∈ ps, ∃ e ∈ m.entries, x.physical = e.physical * 2 ^ s ∧
        x.logical = x.physical ∧ x.length ≤ e.length * 2 ^ s) ∧
      ps.map (fun x => (x.physical, x.length))
        = fm.entries.map (fun e => (e.physical * 2 ^ s, e.length * 2 ^ s)) ∧
      fm.total_count = primary_len / 2 ^ s := by
  have hT : 2 ^ tbits ≤ 2 ^ 64 := Nat.pow_le_pow_right (by decide) h64
  have hpos : 0 < 2 ^ s := Nat.two_pow_pos s
  have hbytes := map_primary_extent_of_eq tbits s h64 m.entries hfit
  have havl : to_uoff (to_uoff m.total_count <<< s) = m.total_count * 2 ^ s := by
    rw [to_uoff_of_lt (by omega : m.total_count < 2 ^ 64), Nat.shiftLeft_eq,
      to_uoff_of_lt havail]
  have htotal : wrap tbits (primary_len >>> s) = primary_len / 2 ^ s := by
    rw [Nat.shiftRight_eq_div_pow]
    apply wrap_of_lt
    have : primary_len / 2 ^ s ≤ m.total_count := by
      have := Nat.div_le_div_right (c := 2 ^ s) hle
      rwa [Nat.mul_div_cancel _ hpos] at this
    omega
  have hassert := assert_aligned s primary_len hs halign
  have hsum : total_length (m.entries.map (primary_extent_of tbits s))
      = m.total_count * 2 ^ s := by
    rw [hbytes, total_length_map_scale, htc]
  unfold fill_io_primary_storage
  simp only [hassert, ne_eq, not_true_eq_false, if_false, List.nil_append, havl, htotal]
  by_cases hshrink : m.total_count * 2 ^ s > primary_len
  · -- part of the candidates is given up
    simp only [hshrink, if_true]
    refine ⟨_, _, rfl, ?_, sorted_sort_by_physical _, ?_, ?_, rfl⟩
    · rw [total_length_perm (perm_sort_by_physical _), total_length_reverse,
        total_length_drop_smallest tbits h64 _ _ ?_ ?_, total_length_reverse,
        total_length_perm (perm_sort_by_reverse_length _), hsum]
      · omega
      · intro e he
        have he' : e ∈ m.entries.map (primary_extent_of tbits s) :=
          (perm_sort_by_reverse_length _).mem_iff.1 (List.mem_reverse.1 he)
        rw [hbytes] at he'
        obtain ⟨c, hc, rfl⟩ := List.mem_map.1 he'
        exact (hfit c hc).2
      · rw [total_length_reverse, total_length_perm (perm_sort_by_reverse_length _), hsum]
        omega
    all_goals
      have hmem : ∀ x ∈ sort_by_physical
          (drop_smallest tbits (m.total_count * 2 ^ s - primary_len)
            (sort_by_reverse_length (m.entries.map (primary_extent_of tbits s))).reverse).reverse,
          ∃ e ∈ m.entries, x.physical = e.physical * 2 ^ s ∧ x.logical = x.physical ∧
            x.length ≤ e.length * 2 ^ s ∧ 2 ^ s ∣ x.length := by
        intro x hx
        have hx' := List.mem_reverse.1 ((perm_sort_by_physical _).mem_iff.1 hx)
        have hin : ∀ e ∈ (sort_by_reverse_length
            (m.entries.map (primary_extent_of tbits s))).reverse,
            ∃ c ∈ m.entries, e = ⟨c.physical * 2 ^ s, c.physical * 2 ^ s,
              c.length * 2 ^ s, c.user_data⟩ := by
          intro e he
          have he' : e ∈ m.entries.map (primary_extent_of tbits s) :=
            (perm_sort_by_reverse_length _).mem_iff.1 (List.mem_reverse.1 he)
          rw [hbytes] at he'
          obtain ⟨c, hc, rfl⟩ := List.mem_map.1 he'
          exact ⟨c, hc, rfl⟩
        obtain ⟨y, hy, h1, h2, _, h4, h5⟩ := mem_drop_smallest tbits h64 (2 ^ s) _ _
          (fun e he => by
            obtain ⟨c, hc, rfl⟩ := hin e he
            exact (hfit c hc).2)
          (fun e he => by
            obtain ⟨c, _, rfl⟩ := hin e he
            exact Nat.dvd_mul_left _ _)
          (Nat.dvd_sub' (Nat.dvd_mul_left _ _) halign) x hx'
        obtain ⟨c, hc, rfl⟩ := hin y hy
        exact ⟨c, hc, h1, by rw [h2, h1], h4, h5⟩
    · intro x hx
      obtain ⟨e, he, h1, h2, h3, _⟩ := hmem x hx
      exact ⟨e, he, h1, h2, h3⟩
    · unfold append0_shift
      rw [List.map_map]
      apply List.map_congr_left
      intro x hx
      obtain ⟨e, he, h1, _, h3, h4⟩ := hmem x hx
      have hfe := hfit e he
      have h1' : 1 ≤ 2 ^ s := hpos
      have hp1 : e.physical * 1 ≤ e.physical * 2 ^ s := Nat.mul_le_mul_left _ h1'
      have hl1 : e.length * 1 ≤ e.length * 2 ^ s := Nat.mul_le_mul_left _ h1'
      have hxl : x.length / 2 ^ s ≤ e.length := by
        have := Nat.div_le_div_right (c := 2 ^ s) h3
        rwa [Nat.mul_div_cancel _ hpos] at this
      simp only [Function.comp, Nat.shiftRight_eq_div_pow, Prod.mk.injEq]
      rw [h1, Nat.mul_div_cancel _ hpos, wrap_of_lt (by omega : e.physical < 2 ^ tbits),
        wrap_of_lt (by omega : x.length / 2 ^ s < 2 ^ tbits), Nat.div_mul_cancel h4]
      exact ⟨rfl, rfl⟩
  · -- all candidates are used
    simp only [hshrink, if_false]
    refine ⟨_, _, rfl, ?_, ?_, ?_, ?_, rfl⟩
    · rw [hsum]; omega
    · rw [hbytes, List.pairwise_map]
      refine hsorted.imp ?_
      intro a b hab
      exact Or.inl (Nat.mul_lt_mul_of_pos_right hab hpos)
    · intro x hx
      rw [hbytes] at hx
      obtain ⟨c, hc, rfl⟩ := List.mem_map.1 hx
      exact ⟨c, hc, rfl, rfl, le_refl _⟩
    · rw [hbytes, List.map_map]
      rfl

/-- When the byte values of every candidate fit the block-number type `T` and part
of the available PRIMARY-STORAGE is given up, `fill_io_primary_storage` gives up
the shortest candidates: the byte extents of the candidates split into dropped and
kept ones, every dropped one is no longer than every kept one, and the resulting
`io->primary_storage()` is the kept ones, at most one of them (the shortest)
truncated. -/
theorem fill_io_primary_storage_gives_up_shortest (tbits s : Nat) (m : ft_map)
    (primary_len : Nat) (h64 : tbits ≤ 64) (hs : s < 64)
    (hfit : ∀ e ∈ m.entries, e.physical * 2 ^ s < 2 ^ tbits ∧ e.length * 2 ^ s < 2 ^ tbits)
    (htcT : m.total_count < 2 ^ tbits) (havail : m.total_count * 2 ^ s < 2 ^ 64)
    (halign : 2 ^ s ∣ primary_len) (hshrink : primary_len < m.total_count * 2 ^ s) :
    ∃ (fm : ft_map) (ps dropped kept : List Extent),
      fill_io_primary_storage tbits s m [] primary_len = some (fm, ps) ∧
      (dropped ++ kept).Perm (m.entries.map fun e =>
        ⟨e.physical * 2 ^ s, e.physical * 2 ^ s, e.length * 2 ^ s, e.user_data⟩) ∧
      (∀ d ∈ dropped, ∀ r ∈ kept, d.length ≤ r.length) ∧
      (ps.Perm kept ∨
        ∃ (e : Extent) (kept' : List Extent) (k : Nat), kept = e :: kept' ∧ 0 < k ∧
          k < e.length ∧ ps.Perm ({ e with length := e.length - k } :: kept')) := by
  have hT : 2 ^ tbits ≤ 2 ^ 64 := Nat.pow_le_pow_right (by decide) h64
  have hbytes := map_primary_extent_of_eq tbits s h64 m.entries hfit
  have havl : to_uoff (to_uoff m.total_count <<< s) = m.total_count * 2 ^ s := by
    rw [to_uoff_of_lt (by omega : m.total_count < 2 ^ 64), Nat.shiftLeft_eq,
      to_uoff_of_lt havail]
  have hassert := assert_aligned s primary_len hs halign
  have hrevperm : ((sort_by_reverse_length
      (m.entries.map (primary_extent_of tbits s))).reverse).Perm
      (m.entries.map (primary_extent_of tbits s)) :=
    (List.reverse_perm _).trans (perm_sort_by_reverse_length _)
  have hlen : ∀ e ∈ (sort_by_reverse_length
      (m.entries.map (primary_extent_of tbits s))).reverse, e.length < 2 ^ tbits := by
    intro e he
    have he' := hrevperm.mem_iff.1 he
    rw [hbytes] at he'
    obtain ⟨c, hc, rfl⟩ := List.mem_map.1 he'
    exact (hfit c hc).2
  have hasc : ((sort_by_reverse_length
      (m.entries.map (primary_extent_of tbits s))).reverse).Pairwise
      (fun a b => a.length ≤ b.length) := by
    rw [List.pairwise_reverse]
    exact sorted_sort_by_reverse_length _
  obtain ⟨dropped, rest, h1, _, h3⟩ := drop_smallest_spec tbits h64 _
    (m.total_count * 2 ^ s - primary_len) hlen
  rw [h1] at hasc hrevperm
  have hdr : ∀ d ∈ dropped, ∀ r ∈ rest, d.length ≤ r.length :=
    (List.pairwise_append.1 hasc).2.2
  unfold fill_io_primary_storage
  simp only [hassert, ne_eq, not_true_eq_false, if_false, List.nil_append, havl,
    gt_iff_lt, hshrink, if_true]
  refine ⟨_, _, dropped, rest, rfl, by rw [← hbytes]; exact hrevperm, hdr, ?_⟩
  rcases h3 with ⟨h3a, _⟩ | ⟨e, rest', h3a, h3b, h3c, h3d⟩
  · left
    rw [h3a]
    exact (perm_sort_by_physical _).trans (List.reverse_perm _)
  · right
    refine ⟨e, rest', _, h3a, h3b, h3c, ?_⟩
    rw [h3d]
    exact (perm_sort_by_physical _).trans (List.reverse_perm _)

/-! ## Claims on `ft_work<T>::init`, `fr_io_posix::flush_bytes` -/

theorem check_eq (tbits : Nat) (t_signed : Bool) (s dev_length : Nat) (h1 : 0 < tbits)
    (hdev : dev_length < 2 ^ 64) :
    check tbits t_signed s dev_length
      = if representable tbits t_signed (dev_length >>> s) then 0 else EOVERFLOW := by
  have hX : 2 ^ tbits = 2 * 2 ^ (tbits - 1) := by
    rw [← Nat.pow_succ']
    congr 1
    omega
  have hYpos : 0 < 2 ^ (tbits - 1) := Nat.two_pow_pos _
  have hmodlt : (dev_length >>> s) % 2 ^ tbits < 2 ^ tbits := Nat.mod_lt _ (Nat.two_pow_pos _)
  unfold check representable
  simp only [to_uoff_of_lt hdev, wrap]
  by_cases hlt : dev_length >>> s < 2 ^ tbits
  · have hn : (dev_length >>> s) % 2 ^ tbits = dev_length >>> s := Nat.mod_eq_of_lt hlt
    rw [hn]
    cases t_signed
    · simp [hlt]
    · by_cases hneg : 2 ^ (tbits - 1) ≤ dev_length >>> s
      · have : ¬ (dev_length >>> s < 2 ^ (tbits - 1)) := by omega
        simp [hneg, this]
      · have : dev_length >>> s < 2 ^ (tbits - 1) := by omega
        simp [hneg, this]
  · have hne : dev_length >>> s ≠ (dev_length >>> s) % 2 ^ tbits := by omega
    cases t_signed
    · simp [hlt, hne]
    · have hnr : ¬ (dev_length >>> s < 2 ^ (tbits - 1)) := by omega
      by_cases hneg : 2 ^ (tbits - 1) ≤ (dev_length >>> s) % 2 ^ tbits
      · simp [hneg, hnr]
      · simp [hneg, hnr, hne]

/-- C18: `init(io)` returns `EOVERFLOW` iff the block count
`dev_length >> effective_block_size_log2` is not a non-negative value of `T`,
whether or not the I/O is open; otherwise it returns `ENOTCONN` iff the I/O is not
open; otherwise it returns `0`; and it stores the reference to `io` exactly when it
returns `0`. -/
theorem init_status (tbits : Nat) (t_signed : Bool) (s dev_length : Nat) (is_open : Bool)
    (h1 : 0 < tbits) (hdev : dev_length < 2 ^ 64) :
    ((init tbits t_signed s dev_length is_open).1 = EOVERFLOW
      ↔ ¬ representable tbits t_signed (dev_length >>> s)) ∧
    (representable tbits t_signed (dev_length >>> s) →
      ((init tbits t_signed s dev_length is_open).1 = ENOTCONN ↔ is_open = false)) ∧
    (representable tbits t_signed (dev_length >>> s) → is_open = true →
      (init tbits t_signed s dev_length is_open).1 = 0) ∧
    ((init tbits t_signed s dev_length is_open).2 = true
      ↔ (init tbits t_signed s dev_length is_open).1 = 0) := by
  have hc := check_eq tbits t_signed s dev_length h1 hdev
  unfold init
  simp only [hc]
  by_cases hr : representable tbits t_signed (dev_length >>> s)
  · cases is_open <;> simp [hr, EOVERFLOW, ENOTCONN]
  · cases is_open <;> simp [hr, EOVERFLOW, ENOTCONN]

/-- C18, at concrete inputs: a 32-bit unsigned `T`, 4 KiB blocks and a device of
2^44 bytes (2^32 blocks, not representable) with the I/O open, and a device of
2^40 bytes (2^28 blocks) with the I/O closed. -/
theorem init_status_witness :
    (init 32 false 12 (2 ^ 44) true).1 = EOVERFLOW ∧
    (init 32 false 12 (2 ^ 40) false).1 = ENOTCONN ∧
    ((init 32 false 12 (2 ^ 40) true).2 = true ↔ (init 32 false 12 (2 ^ 40) true).1 = 0) := by
  have h1 := init_status 32 false 12 (2 ^ 44) true (by decide) (by decide)
  have h2 := init_status 32 false 12 (2 ^ 40) false (by decide) (by decide)
  have h3 := init_status 32 false 12 (2 ^ 40) true (by decide) (by decide)
  refine ⟨h1.1.2 (by decide), (h2.2.1 (by decide)).2 rfl, h3.2.2.2⟩

/-- C20 (counterexample): with `simulate_run` not set and `msync` failing with `EIO`
(5), `flush_bytes` returns `0`, not a non-zero status: the failure is not fatal to
the run. -/
theorem flush_bytes_msync_failure_returns_zero :
    flush_bytes { ideal_env 4096 with sys_msync := 5 } = 0 ∧
    ({ ideal_env 4096 with sys_msync := 5 } : PosixEnv).simulate_run = false ∧
    ({ ideal_env 4096 with sys_msync := 5 } : PosixEnv).sys_msync ≠ 0 := by
  decide

/-- C20 (amended): whenever `msync` of the staging window fails in `flush_bytes`
(`simulate_run` not set), the failure is only logged as a warning: the status is
reset by `err = 0` and `flush_bytes` returns `0`, so the run goes on. -/
theorem flush_bytes_ignores_msync_failure (env : PosixEnv) (hsim : env.simulate_run = false)
    (hfail : env.sys_msync ≠ 0) : flush_bytes env = 0 := by
  unfold flush_bytes
  simp [hsim, hfail]

/-- C20 (amended) at a concrete input: `msync` fails with `EIO` (5), `simulate_run` is
not set, and `flush_bytes` returns `0`. -/
theorem flush_bytes_ignores_msync_failure_witness :
    flush_bytes { ideal_env 4096 with sys_msync := 5 } = 0 :=
  flush_bytes_ignores_msync_failure { ideal_env 4096 with sys_msync := 5 } rfl (by decide)

/-! ## Claims on `ff_extent_align` and the candidate loop of `analyze` -/

theorem and_t_not_two_pow_sub_one (w n m : Nat) (hn : n < 2 ^ w) (hm : m ≤ w) :
    n &&& t_not w (2 ^ m - 1) = n / 2 ^ m * 2 ^ m := by
  have hlt : 2 ^ m - 1 < 2 ^ w :=
    lt_of_lt_of_le (Nat.sub_lt (Nat.two_pow_pos m) Nat.one_pos)
      (Nat.pow_le_pow_right (by decide) hm)
  have hnot : t_not w (2 ^ m - 1) = 2 ^ w - ((2 ^ m - 1) + 1) := by
    unfold t_not
    rw [Nat.mod_eq_of_lt hlt]
    omega
  apply Nat.eq_of_testBit_eq
  intro i
  rw [Nat.testBit_and, hnot, Nat.testBit_two_pow_sub_succ hlt, Nat.testBit_two_pow_sub_one,
    Nat.mul_comm, ← Nat.add_zero (2 ^ m * (n / 2 ^ m)),
    Nat.testBit_mul_pow_two_add _ (Nat.two_pow_pos m)]
  by_cases h : i < m
  · simp [h]
  · have hij : m + (i - m) = i := by omega
    simp only [h, decide_False, Bool.not_false, Bool.and_true, if_false,
      ← Nat.shiftRight_eq_div_pow, Nat.testBit_shiftRight, hij]
    by_cases hw : i < w
    · simp [hw]
    · have : n < 2 ^ i := lt_of_lt_of_le hn (Nat.pow_le_pow_right (by decide) (by omega))
      simp [hw, Nat.testBit_lt_two_pow this]

theorem t_sub_of_le {tbits a b : Nat} (hb : b ≤ a) (ha : a < 2 ^ tbits) :
    t_sub tbits a b = a - b := by
  unfold t_sub wrap
  have hb' : b < 2 ^ tbits := lt_of_le_of_lt hb ha
  rw [Nat.mod_eq_of_lt hb']
  have : a + (2 ^ tbits - b) = (a - b) + 2 ^ tbits := by omega
  rw [this, Nat.add_mod_right]
  exact Nat.mod_eq_of_lt (by omega)

theorem smallest_multiple_ge_eq {P x t : Nat} (hP : 0 < P) (h : IsSmallestMultipleGE P x t) :
    t = if x % P ≠ 0 then (x / P + 1) * P else x := by
  obtain ⟨⟨c, rfl⟩, h2, h3⟩ := h
  have hdm := Nat.div_add_mod x P
  have hmod := Nat.mod_lt x hP
  split
  · rename_i hne
    have hle := h3 ((x / P + 1) * P) (Nat.dvd_mul_left _ _) (by
      rw [Nat.add_mul, Nat.mul_comm (x / P) P]; omega)
    have hc : x / P < c := by
      by_contra hcon
      have : c ≤ x / P := by omega
      have := Nat.mul_le_mul_left P this
      omega
    have hc1 : x / P + 1 ≤ c := hc
    have hmul := Nat.mul_le_mul_left P hc1
    have hexp : P * (x / P + 1) = P * (x / P) + P := by rw [Nat.mul_add, Nat.mul_one]
    rw [Nat.mul_comm (x / P + 1) P] at hle ⊢
    omega
  · rename_i hne
    have hz : x % P = 0 := by simpa using hne
    have := h3 x (Nat.dvd_of_mod_eq_zero hz) (le_refl _)
    omega

theorem largest_multiple_le_eq {P x t : Nat} (hP : 0 < P) (h : IsLargestMultipleLE P x t) :
    t = x / P * P := by
  obtain ⟨⟨c, rfl⟩, h2, h3⟩ := h
  have hdm := Nat.div_add_mod x P
  have hmod := Nat.mod_lt x hP
  have hle := h3 (x / P * P) (Nat.dvd_mul_left _ _) (Nat.div_mul_le_self x P)
  have hc : c ≤ x / P := by
    rw [Nat.le_div_iff_mul_le hP, Nat.mul_comm]; exact h2
  have := Nat.mul_le_mul_left P hc
  rw [Nat.mul_comm (x / P) P] at hle ⊢
  omega

/-- When rounding `physical` up to a multiple of the page size does not leave the
block-number type `T`, `ff_extent_align` trims the extent to its largest
page-aligned sub-range: with `p'` the smallest multiple of `P` at least `p` and
`e'` the largest multiple of `P` at most `p + n`, the extent becomes
`(p', l + (p' - p), e' - p')` when `e' > p'`, and otherwise only its length is set
to 0. -/
theorem ff_extent_align_no_overflow (tbits j : Nat) (extent : Extent) (p' e' : Nat)
    (hj : j ≤ tbits) (hpn : extent.physical + extent.length < 2 ^ tbits)
    (hp' : IsSmallestMultipleGE (2 ^ j) extent.physical p')
    (he' : IsLargestMultipleLE (2 ^ j) (extent.physical + extent.length) e')
    (hround : p' < 2 ^ tbits) :
    (p' < e' →
      ff_extent_align tbits extent (2 ^ j - 1)
        = (e' - p',
            { physical := p',
              logical := wrap tbits (extent.logical + (p' - extent.physical)),
              length := e' - p',
              user_data := extent.user_data }) ∧
      extent.physical ≤ p' ∧ e' ≤ extent.physical + extent.length) ∧
    (e' ≤ p' →
      ff_extent_align tbits extent (2 ^ j - 1) = (0, { extent with length := 0 })) := by
  have hP : 0 < 2 ^ j := Nat.two_pow_pos j
  have hp'eq := smallest_multiple_ge_eq hP hp'
  have he'eq := largest_multiple_le_eq hP he'
  have hple : extent.physical ≤ p' := hp'.2.1
  have hele : e' ≤ extent.physical + extent.length := he'.2.1
  have hnp : ff_round_up tbits extent.physical (2 ^ j - 1) = p' := by
    rw [ff_round_up_two_pow, hp'eq]
    split
    · rename_i hne
      rw [if_pos hne] at hp'eq
      rw [wrap_of_lt (by rw [← hp'eq]; exact hround)]
    · rfl
  have hne : wrap tbits (extent.physical + extent.length) &&& t_not tbits (2 ^ j - 1) = e' := by
    rw [wrap_of_lt hpn, and_t_not_two_pow_sub_one tbits _ j hpn hj, he'eq]
  unfold ff_extent_align
  simp only [hnp, hne]
  constructor
  · intro hlt
    have h1 : ¬ e' ≤ p' := by omega
    rw [if_neg h1, t_sub_of_le (le_of_lt hlt) (by omega), t_sub_of_le hple hround]
    exact ⟨rfl, hple, hele⟩
  · intro hle
    rw [if_pos hle]

/-- The trimming at a concrete input: a 32-bit `T`, a page of 4 blocks and the extent
`(physical 5, logical 105, length 20)` give `(8, 108, 16)`. -/
theorem ff_extent_align_no_overflow_witness :
    ff_extent_align 32 ⟨5, 105, 20, 0⟩ (2 ^ 2 - 1) = (16, ⟨8, 108, 16, 0⟩) := by
  have hp : IsSmallestMultipleGE (2 ^ 2) 5 8 := by
    refine ⟨⟨2, by decide⟩, by decide, ?_⟩
    rintro m ⟨c, rfl⟩ hm
    omega
  have he : IsLargestMultipleLE (2 ^ 2) (5 + 20) 24 := by
    refine ⟨⟨6, by decide⟩, by decide, ?_⟩
    rintro m ⟨c, rfl⟩ hm
    omega
  exact ((ff_extent_align_no_overflow 32 2 ⟨5, 105, 20, 0⟩ 8 24 (by decide) (by decide)
    hp he (by decide)).1 (by decide)).1

/-- C13 (the code at a failing input): for a 32-bit block-number type `T`, a page of
4 blocks and the extent `(physical 2^32 - 3, logical 2^32 - 3, length 2)`, whose end
`2^32 - 1` does not overflow `T`, rounding `physical` up wraps to 0 and
`ff_extent_align` returns `2^32 - 4` with the extent changed to
`(0, 0, 2^32 - 4)`; the largest multiple of 4 below the end is `2^32 - 4`, no
multiple of 4 lies in `[2^32 - 3, 2^32 - 4]`, so the trimmed range is empty. -/
theorem ff_extent_align_round_up_wraps :
    ff_extent_align 32 ⟨2 ^ 32 - 3, 2 ^ 32 - 3, 2, 0⟩ 3
      = (2 ^ 32 - 4, ⟨0, 0, 2 ^ 32 - 4, 0⟩) ∧
    (2 ^ 32 - 3) + 2 < 2 ^ 32 ∧
    IsLargestMultipleLE 4 ((2 ^ 32 - 3) + 2) (2 ^ 32 - 4) ∧
    IsSmallestMultipleGE 4 (2 ^ 32 - 3) (2 ^ 32) := by
  refine ⟨by decide, by decide, ⟨⟨2 ^ 30 - 1, by decide⟩, by decide, ?_⟩,
    ⟨⟨2 ^ 30, by decide⟩, by decide, ?_⟩⟩
  · rintro m ⟨c, rfl⟩ hm
    omega
  · rintro m ⟨c, rfl⟩ hm
    omega

theorem ff_extent_align_fst_lt (tbits : Nat) (extent : Extent) (m : Nat) :
    (ff_extent_align tbits extent m).1 < 2 ^ tbits := by
  unfold ff_extent_align
  simp only
  split
  · exact Nat.two_pow_pos tbits
  · exact Nat.mod_lt _ (Nat.two_pow_pos tbits)

theorem ff_extent_align_snd_length (tbits : Nat) (extent : Extent) (m : Nat) :
    (ff_extent_align tbits extent m).2.length = (ff_extent_align tbits extent m).1 := by
  unfold ff_extent_align
  simp only
  split <;> rfl

theorem select_holes_kept (tbits thr psb : Nat) (htb : tbits ≤ 64) :
    ∀ (cands : List Extent) (hl tot : Nat), (∀ e ∈ cands, e.length < 2 ^ tbits) →
      (select_holes tbits thr psb cands hl tot).kept
        = cands.filterMap (surviving_hole tbits thr psb) := by
  have h64 : 2 ^ tbits ≤ 2 ^ 64 := Nat.pow_le_pow_right (by decide) htb
  intro cands
  induction cands with
  | nil => intro hl tot _; rfl
  | cons e rest ih =>
    intro hl tot hlen
    have he : e.length < 2 ^ 64 :=
      lt_of_lt_of_le (hlen e (List.mem_cons_self _ _)) h64
    have hrest : ∀ x ∈ rest, x.length < 2 ^ tbits :=
      fun x hx => hlen x (List.mem_cons_of_mem _ hx)
    have ha : (ff_extent_align tbits e (psb - 1)).1 < 2 ^ 64 :=
      lt_of_lt_of_le (ff_extent_align_fst_lt tbits e (psb - 1)) h64
    rw [select_holes, List.filterMap_cons]
    simp only [to_uoff_of_lt he, to_uoff_of_lt ha, ge_iff_le]
    by_cases h1 : thr ≤ e.length
    · by_cases h2 : psb ≤ 1
      · have hs : surviving_hole tbits thr psb e = some e := by
          simp [surviving_hole, h1, h2]
        simp only [h1, h2, if_true, hs]
        rw [ih _ _ hrest]
      · by_cases h3 : thr ≤ (ff_extent_align tbits e (psb - 1)).1
        · have hs : surviving_hole tbits thr psb e
              = some (ff_extent_align tbits e (psb - 1)).2 := by
            simp [surviving_hole, h1, h2, h3]
          simp only [h1, h2, h3, if_true, if_false, hs]
          rw [ih _ _ hrest]
        · have hs : surviving_hole tbits thr psb e = none := by
            simp [surviving_hole, h1, h2, h3]
          simp only [h1, h2, h3, if_true, if_false, hs]
          rw [ih _ _ hrest]
    · have hs : surviving_hole tbits thr psb e = none := by
        simp [surviving_hole, h1]
      simp only [h1, if_false, hs]
      rw [ih _ _ hrest]

theorem wrap_add_wrap (tbits a b : Nat) : wrap tbits (wrap tbits a + b) = wrap tbits (a + b) := by
  unfold wrap
  exact Nat.mod_add_mod a (2 ^ tbits) b

/-- With more than one block per page, the candidate loop of `analyze` accumulates in
`hole_total_len` the lengths of the entries it keeps, modulo the width of `T`. -/
theorem select_holes_total_of_paged (tbits thr psb : Nat) (hpsb : 1 < psb) :
    ∀ (cands : List Extent) (hl tot : Nat), tot < 2 ^ tbits →
      (select_holes tbits thr psb cands hl tot).hole_total_len
        = wrap tbits (tot +
            total_length (select_holes tbits thr psb cands hl tot).kept) := by
  intro cands
  induction cands with
  | nil =>
    intro hl tot htot
    simp only [select_holes, total_length, List.map_nil, List.sum_nil, Nat.add_zero]
    exact (wrap_of_lt htot).symm
  | cons e rest ih =>
    intro hl tot htot
    rw [select_holes]
    have h2 : ¬ psb ≤ 1 := by omega
    simp only [h2, if_false]
    split
    · split
      · simp only [total_length_cons, ff_extent_align_snd_length]
        have hw : wrap tbits (tot + (ff_extent_align tbits e (psb - 1)).1) < 2 ^ tbits :=
          Nat.mod_lt _ (Nat.two_pow_pos tbits)
        rw [ih _ _ hw, wrap_add_wrap, Nat.add_assoc]
      · exact ih _ _ htot
    · exact ih _ _ htot

/-- In the candidate loop of `analyze` (step 9), run with the threshold
`hole_threshold work_count page_size_blocks`, a candidate stays in the map iff its
length is at least the threshold and, when `page_size_blocks > 1`, the value
`ff_extent_align` returns for it is also at least the threshold (the entry kept is
then the extent as `ff_extent_align` leaves it); every other candidate is removed,
and order is kept. -/
theorem select_holes_keeps_large_candidates (tbits work_count page_size_blocks : Nat)
    (cands : List Extent) (hole_len hole_total_len : Nat)
    (htb : tbits ≤ 64) (hlen : ∀ e ∈ cands, e.length < 2 ^ tbits) :
    (select_holes tbits (hole_threshold work_count page_size_blocks) page_size_blocks
        cands hole_len hole_total_len).kept
      = cands.filterMap fun e =>
          if hole_threshold work_count page_size_blocks ≤ e.length ∧
              (page_size_blocks ≤ 1 ∨
                hole_threshold work_count page_size_blocks
                  ≤ (ff_extent_align tbits e (page_size_blocks - 1)).1) then
            some (if page_size_blocks ≤ 1 then e
              else (ff_extent_align tbits e (page_size_blocks - 1)).2)
          else none :=
  select_holes_kept tbits _ page_size_blocks htb cands hole_len hole_total_len hlen

/-- The scenario of the specification: for candidates of lengths 1, 2 and 1024 blocks,
`work_count = 2^20` and one block per page, exactly the candidate of length 1024 is
kept. -/
theorem select_holes_keeps_large_candidates_witness :
    (64 ≤ 64 ∧
      ∀ e ∈ [(⟨0, 0, 1, 0⟩ : Extent), ⟨10, 10, 2, 0⟩, ⟨100, 100, 1024, 0⟩],
        e.length < 2 ^ 64) ∧
    (select_holes 64 (hole_threshold (2 ^ 20) 1) 1
        [⟨0, 0, 1, 0⟩, ⟨10, 10, 2, 0⟩, ⟨100, 100, 1024, 0⟩] 0 0).kept
      = [⟨100, 100, 1024, 0⟩] :=
  ⟨⟨le_refl _, by decide⟩,
    (select_holes_keeps_large_candidates 64 (2 ^ 20) 1
      [⟨0, 0, 1, 0⟩, ⟨10, 10, 2, 0⟩, ⟨100, 100, 1024, 0⟩] 0 0 (le_refl _)
      (by decide)).trans (by decide)⟩

theorem round_up_is_smallest_multiple (P x : Nat) (hP : 0 < P) :
    IsSmallestMultipleGE P x ((x + (P - 1)) / P * P) := by
  have hdm := Nat.div_add_mod (x + (P - 1)) P
  have hmod := Nat.mod_lt (x + (P - 1)) hP
  refine ⟨Nat.dvd_mul_left _ _, ?_, ?_⟩
  · rw [Nat.mul_comm]
    omega
  · rintro m ⟨c, rfl⟩ hm
    rw [Nat.mul_comm P c]
    apply Nat.mul_le_mul_right
    have hlt : x + (P - 1) < (c + 1) * P := by
      rw [Nat.add_mul, Nat.one_mul, Nat.mul_comm c P]
      omega
    exact Nat.lt_succ_iff.mp ((Nat.div_lt_iff_lt_mul hP).mpr hlt)

theorem round_down_is_largest_multiple (P x : Nat) (hP : 0 < P) :
    IsLargestMultipleLE P x (x / P * P) := by
  refine ⟨Nat.dvd_mul_left _ _, Nat.div_mul_le_self x P, ?_⟩
  rintro m ⟨c, rfl⟩ hm
  rw [Nat.mul_comm P c]
  apply Nat.mul_le_mul_right
  rw [Nat.le_div_iff_mul_le hP, Nat.mul_comm]
  exact hm

/-- When the end of the extent and the round-up of its start are values of the
block-number type `T`, `ff_extent_align` returns the length after page-aligned
trimming as the specification words it, and leaves the extent trimmed that way. -/
theorem ff_extent_align_eq_spec (tbits j : Nat) (e : Extent) (hj : j ≤ tbits)
    (hpn : e.physical + e.length < 2 ^ tbits)
    (hround : (e.physical + (2 ^ j - 1)) / 2 ^ j * 2 ^ j < 2 ^ tbits) :
    ff_extent_align tbits e (2 ^ j - 1)
      = (spec_trimmed_length (2 ^ j) e, spec_trimmed tbits (2 ^ j) e) := by
  have hP : 0 < 2 ^ j := Nat.two_pow_pos j
  have h := ff_extent_align_no_overflow tbits j e _ _ hj hpn
    (round_up_is_smallest_multiple (2 ^ j) e.physical hP)
    (round_down_is_largest_multiple (2 ^ j) (e.physical + e.length) hP) hround
  by_cases hlt : (e.physical + (2 ^ j - 1)) / 2 ^ j * 2 ^ j
      < (e.physical + e.length) / 2 ^ j * 2 ^ j
  · have hne : spec_trimmed_length (2 ^ j) e ≠ 0 := by
      unfold spec_trimmed_length
      omega
    rw [(h.1 hlt).1]
    unfold spec_trimmed
    rw [if_neg hne]
    rfl
  · have hz : spec_trimmed_length (2 ^ j) e = 0 := by
      unfold spec_trimmed_length
      omega
    rw [h.2 (by omega)]
    unfold spec_trimmed
    rw [if_pos hz, hz]

/-- With more than one block per page (`2^j` blocks, `j >= 1`), and for candidates on
which neither the end nor the round-up of the start leaves the block-number type `T`,
the candidate loop of `analyze` keeps a candidate iff its length and its length after
page-aligned trimming, as the specification words it, are both at least the
threshold; the entry kept is the trimmed candidate. -/
theorem select_holes_kept_of_no_overflow (tbits j work_count : Nat)
    (cands : List Extent) (hole_len hole_total_len : Nat)
    (htb : tbits ≤ 64) (hj1 : 1 ≤ j) (hj : j ≤ tbits)
    (hfit : ∀ e ∈ cands, e.physical + e.length < 2 ^ tbits ∧
      (e.physical + (2 ^ j - 1)) / 2 ^ j * 2 ^ j < 2 ^ tbits) :
    (select_holes tbits (hole_threshold work_count (2 ^ j)) (2 ^ j)
        cands hole_len hole_total_len).kept
      = cands.filterMap fun e =>
          if hole_threshold work_count (2 ^ j) ≤ e.length ∧
              hole_threshold work_count (2 ^ j) ≤ spec_trimmed_length (2 ^ j) e then
            some (spec_trimmed tbits (2 ^ j) e)
          else none := by
  have hlen : ∀ e ∈ cands, e.length < 2 ^ tbits := fun e he => by
    have := (hfit e he).1
    omega
  rw [select_holes_kept tbits _ (2 ^ j) htb cands hole_len hole_total_len hlen]
  have hP : ¬ 2 ^ j ≤ 1 := by
    have : 2 ^ 1 ≤ 2 ^ j := Nat.pow_le_pow_right (by decide) hj1
    omega
  apply List.filterMap_congr
  intro e he
  have ha := ff_extent_align_eq_spec tbits j e hj (hfit e he).1 (hfit e he).2
  unfold surviving_hole
  simp only [hP, false_or, if_false, ha]

/-- The trimming rule at a concrete input: a 32-bit `T`, 4 blocks per page,
`work_count = 8192` (threshold 8) and the candidates `(5, 105, 20)`, `(40, 40, 9)` and
`(61, 61, 10)`: the first is kept as `(8, 108, 16)`, the second as `(40, 40, 8)`, and
the third, trimmed to `[64, 68)` of length 4, is removed. -/
theorem select_holes_kept_of_no_overflow_witness :
    (select_holes 32 (hole_threshold 8192 (2 ^ 2)) (2 ^ 2)
        [⟨5, 105, 20, 0⟩, ⟨40, 40, 9, 0⟩, ⟨61, 61, 10, 0⟩] 0 0).kept
      = [⟨8, 108, 16, 0⟩, ⟨40, 40, 8, 0⟩] :=
  (select_holes_kept_of_no_overflow 32 2 8192
    [⟨5, 105, 20, 0⟩, ⟨40, 40, 9, 0⟩, ⟨61, 61, 10, 0⟩] 0 0 (by decide) (by decide) (by decide)
    (by decide)).trans (by decide)

/-- C11 (the code at a failing input): for a 32-bit block-number type `T`, 4 blocks
per page and `work_count = 2048` (threshold `min(2048 >> 10, 4 << 12) = 2`), the
candidate `(physical 2^32 - 3, logical 2^32 - 3, length 2)`, whose end `2^32 - 1` is a
value of `T`, stays in the map, as the entry `(0, 0, 2^32 - 4)`: `ff_extent_align`
returns `2^32 - 4` for it because the round-up of its start wraps to 0. Its length
after page-aligned trimming is 0, below the threshold: the smallest multiple of 4 at
least `2^32 - 3` is `2^32`, the largest multiple of 4 at most `2^32 - 1` is
`2^32 - 4`, and no multiple of 4 lies in between. -/
theorem select_holes_keeps_wrapped_candidate :
    hole_threshold 2048 4 = 2 ∧
    (select_holes 32 (hole_threshold 2048 4) 4
        [⟨2 ^ 32 - 3, 2 ^ 32 - 3, 2, 0⟩] 0 0).kept = [⟨0, 0, 2 ^ 32 - 4, 0⟩] ∧
    (select_holes 32 (hole_threshold 2048 4) 4
        [⟨2 ^ 32 - 3, 2 ^ 32 - 3, 2, 0⟩] 0 0).hole_total_len = 2 ^ 32 - 4 ∧
    (2 ^ 32 - 3) + 2 < 2 ^ 32 ∧
    spec_trimmed_length 4 ⟨2 ^ 32 - 3, 2 ^ 32 - 3, 2, 0⟩ = 0 ∧
    IsSmallestMultipleGE 4 (2 ^ 32 - 3) (2 ^ 32) ∧
    IsLargestMultipleLE 4 ((2 ^ 32 - 3) + 2) (2 ^ 32 - 4) := by
  refine ⟨by decide, by decide, by decide, by decide, by decide,
    ⟨⟨2 ^ 30, by decide⟩, by decide, ?_⟩, ⟨⟨2 ^ 30 - 1, by decide⟩, by decide, ?_⟩⟩
  · rintro m ⟨c, rfl⟩ hm
    omega
  · rintro m ⟨c, rfl⟩ hm
    omega

/-- The wrapped candidate reached from `analyze`: a 32-bit `T`, 4096-byte blocks,
16384-byte pages (4 blocks per page) and a device of `2^32 - 1` blocks. LOOP-FILE
holds blocks `[0, M)` in place and 2048 blocks at physical `M + 2048`, logical `M`
(`M = 2^32 - 4099`); FREE-SPACE is `[M, M + 2048)` and the last two blocks
`[2^32 - 3, 2^32 - 1)`. `analyze` returns 0 with `work_count = 2048` and
`dev_free_map` holding the single entry `(0, 0, 2^32 - 4)`, which is not made of free
blocks. -/
theorem analyze_keeps_wrapped_candidate :
    (analyze ⟨32, 12, (2 ^ 32 - 1) * 4096, 16384, 0⟩
        [⟨0, 0, (2 ^ 32 - 4099) * 4096, 0⟩,
         ⟨(2 ^ 32 - 2051) * 4096, (2 ^ 32 - 4099) * 4096, 2048 * 4096, 0⟩]
        [⟨(2 ^ 32 - 4099) * 4096, (2 ^ 32 - 4099) * 4096, 2048 * 4096, 0⟩,
         ⟨(2 ^ 32 - 3) * 4096, (2 ^ 32 - 3) * 4096, 2 * 4096, 0⟩]).err = 0 ∧
    (analyze ⟨32, 12, (2 ^ 32 - 1) * 4096, 16384, 0⟩
        [⟨0, 0, (2 ^ 32 - 4099) * 4096, 0⟩,
         ⟨(2 ^ 32 - 2051) * 4096, (2 ^ 32 - 4099) * 4096, 2048 * 4096, 0⟩]
        [⟨(2 ^ 32 - 4099) * 4096, (2 ^ 32 - 4099) * 4096, 2048 * 4096, 0⟩,
         ⟨(2 ^ 32 - 3) * 4096, (2 ^ 32 - 3) * 4096, 2 * 4096, 0⟩]).work_count = 2048 ∧
    (analyze ⟨32, 12, (2 ^ 32 - 1) * 4096, 16384, 0⟩
        [⟨0, 0, (2 ^ 32 - 4099) * 4096, 0⟩,
         ⟨(2 ^ 32 - 2051) * 4096, (2 ^ 32 - 4099) * 4096, 2048 * 4096, 0⟩]
        [⟨(2 ^ 32 - 4099) * 4096, (2 ^ 32 - 4099) * 4096, 2048 * 4096, 0⟩,
         ⟨(2 ^ 32 - 3) * 4096, (2 ^ 32 - 3) * 4096, 2 * 4096, 0⟩]).dev_free_map.entries
      = [⟨0, 0, 2 ^ 32 - 4, 0⟩] := by
  refine ⟨by decide, by decide, by decide⟩

/-- C12 (the code at a failing input): on a 16-block device with 4096-byte blocks and
4096-byte pages (one block per page), LOOP-FILE = one extent of 4 blocks at physical
block 4, logical block 0, and FREE-SPACE = blocks 8..11, `analyze` returns 0 with
`dev_free_map` holding the single entry `(8, 8, 4)`, of length 4, while
`dev_free_map.total_count()` is the indeterminate initial value of the local
`hole_len` (0 in the first run, 7 in the second), which the loop never assigns when
`page_size_blocks <= 1`. -/
theorem analyze_total_count_unassigned_hole_len :
    (analyze ⟨64, 12, 16 * 4096, 4096, 0⟩ [⟨4 * 4096, 0, 4 * 4096, 0⟩]
        [⟨8 * 4096, 8 * 4096, 4 * 4096, 0⟩]).err = 0 ∧
    (analyze ⟨64, 12, 16 * 4096, 4096, 0⟩ [⟨4 * 4096, 0, 4 * 4096, 0⟩]
        [⟨8 * 4096, 8 * 4096, 4 * 4096, 0⟩]).dev_free_map
      = ⟨[⟨8, 8, 4, 0⟩], 0, 0⟩ ∧
    (analyze ⟨64, 12, 16 * 4096, 4096, 7⟩ [⟨4 * 4096, 0, 4 * 4096, 0⟩]
        [⟨8 * 4096, 8 * 4096, 4 * 4096, 0⟩]).dev_free_map
      = ⟨[⟨8, 8, 4, 0⟩], 7, 0⟩ ∧
    total_length [(⟨8, 8, 4, 0⟩ : Extent)] = 4 := by
  refine ⟨by decide, by decide, by decide, by decide⟩

/-! ## Extent maps as sets of blocks -/

theorem cover_count_cons (e : Extent) (m : List Extent) (x : Nat) :
    cover_count (e :: m) x = cover_count m x + (if e.covers x then 1 else 0) := by
  unfold cover_count
  rw [List.countP_cons]
  simp

theorem cover_count_append (a b : List Extent) (x : Nat) :
    cover_count (a ++ b) x = cover_count a x + cover_count b x := by
  unfold cover_count
  exact List.countP_append _ a b

theorem cover_count_pos_iff (m : List Extent) (x : Nat) :
    0 < cover_count m x ↔ ∃ e ∈ m, e.covers x := by
  unfold cover_count
  rw [List.countP_pos_iff]
  simp

theorem cover_count_nil (x : Nat) : cover_count [] x = 0 := rfl

theorem cover_count_singleton (f : Extent) (x : Nat) :
    cover_count [f] x = if f.covers x then 1 else 0 := by
  rw [cover_count_cons, cover_count_nil, Nat.zero_add]

theorem cover_count_remove_range (e : Extent) (p q x : Nat) :
    cover_count (remove_range e p q) x
      = if p ≤ x ∧ x < q then 0 else (if e.covers x then 1 else 0) := by
  unfold remove_range
  by_cases hqp : q ≤ p
  · rw [if_pos hqp, cover_count_singleton]
    have : ¬ (p ≤ x ∧ x < q) := by omega
    rw [if_neg this]
  · rw [if_neg hqp]
    rw [cover_count_append]
    by_cases h1 : e.physical < min (e.physical + e.length) p <;>
      by_cases h2 : max e.physical q < e.physical + e.length <;>
      simp only [h1, h2, if_true, if_false, cover_count_singleton, cover_count_nil,
        Extent.covers] <;>
      split_ifs <;> omega

theorem cover_count_flatMap_remove_range (m : List Extent) (p q x : Nat) :
    cover_count (m.flatMap fun e => remove_range e p q) x
      = if p ≤ x ∧ x < q then 0 else cover_count m x := by
  induction m with
  | nil => simp [cover_count]
  | cons e m ih =>
    rw [List.flatMap_cons, cover_count_append, ih, cover_count_remove_range, cover_count_cons]
    split_ifs <;> omega

theorem cover_count_remove_all (self other : List Extent) (x : Nat) :
    cover_count (remove_all self other) x
      = if 0 < cover_count other x then 0 else cover_count self x := by
  induction other generalizing self with
  | nil => simp [remove_all, cover_count]
  | cons o os ih =>
    have hstep : remove_all self (o :: os)
        = remove_all (self.flatMap fun e => remove_range e o.physical (o.physical + o.length))
            os := rfl
    rw [hstep, ih, cover_count_flatMap_remove_range, cover_count_cons]
    unfold Extent.covers
    split_ifs <;> omega

theorem mem_remove_range {e f : Extent} {p q : Nat} (h : f ∈ remove_range e p q) :
    (0 < e.length → 0 < f.length) ∧ e.physical ≤ f.physical ∧
      f.physical + f.length ≤ e.physical + e.length ∧
      f.logical + e.physical = e.logical + f.physical := by
  unfold remove_range at h
  by_cases hqp : q ≤ p
  · rw [if_pos hqp, List.mem_singleton] at h
    subst h
    exact ⟨id, le_refl _, le_refl _, rfl⟩
  · rw [if_neg hqp, List.mem_append] at h
    rcases h with h | h
    · split at h
      · rw [List.mem_singleton] at h
        subst h
        refine ⟨fun _ => ?_, ?_, ?_, ?_⟩ <;> simp only <;> omega
      · cases h
    · split at h
      · rw [List.mem_singleton] at h
        subst h
        refine ⟨fun _ => ?_, ?_, ?_, ?_⟩ <;> simp only <;> omega
      · cases h

theorem remove_all_forall (P : Extent → Prop)
    (hP : ∀ e f p q, P e → f ∈ remove_range e p q → P f) :
    ∀ (other self : List Extent), (∀ e ∈ self, P e) → ∀ f ∈ remove_all self other, P f := by
  intro other
  induction other with
  | nil => intro self h f hf; exact h f hf
  | cons o os ih =>
    intro self h f hf
    have hstep : remove_all self (o :: os)
        = remove_all (self.flatMap fun e => remove_range e o.physical (o.physical + o.length))
            os := rfl
    rw [hstep] at hf
    refine ih _ ?_ f hf
    intro g hg
    rw [List.mem_flatMap] at hg
    obtain ⟨e, he, hge⟩ := hg
    exact hP e g _ _ (h e he) hge

theorem remove_all_pos (self other : List Extent) (h : ∀ e ∈ self, 0 < e.length) :
    ∀ f ∈ remove_all self other, 0 < f.length :=
  remove_all_forall (fun e => 0 < e.length)
    (fun _ _ _ _ he hf => (mem_remove_range hf).1 he) other self h

theorem remove_all_inside (self other : List Extent) (B : Nat)
    (h : ∀ e ∈ self, e.physical + e.length ≤ B) :
    ∀ f ∈ remove_all self other, f.physical + f.length ≤ B :=
  remove_all_forall (fun e => e.physical + e.length ≤ B)
    (fun _ _ _ _ he hf => le_trans (mem_remove_range hf).2.2.1 he) other self h

theorem sum_covers_le (e : Extent) (B : Nat) :
    (∑ x in Finset.range B, if e.covers x then 1 else 0) ≤ e.length := by
  rw [Finset.sum_boole]
  have hsub : Finset.filter (fun x => e.covers x) (Finset.range B)
      ⊆ Finset.Ico e.physical (e.physical + e.length) := by
    intro x hx
    rw [Finset.mem_filter] at hx
    rw [Finset.mem_Ico]
    exact hx.2
  have := Finset.card_le_card hsub
  rw [Nat.card_Ico] at this
  simpa using this

theorem sum_covers_eq (e : Extent) (B : Nat) (h : e.physical + e.length ≤ B) :
    (∑ x in Finset.range B, if e.covers x then 1 else 0) = e.length := by
  rw [Finset.sum_boole]
  have heq : Finset.filter (fun x => e.covers x) (Finset.range B)
      = Finset.Ico e.physical (e.physical + e.length) := by
    ext x
    rw [Finset.mem_filter, Finset.mem_Ico, Finset.mem_range]
    unfold Extent.covers
    omega
  rw [heq, Nat.card_Ico]
  simp

theorem sum_cover_count_le (m : List Extent) (B : Nat) :
    (∑ x in Finset.range B, cover_count m x) ≤ total_length m := by
  induction m with
  | nil => simp [cover_count, total_length]
  | cons e m ih =>
    simp only [cover_count_cons, Finset.sum_add_distrib, total_length_cons]
    have := sum_covers_le e B
    omega

theorem sum_cover_count_eq (m : List Extent) (B : Nat)
    (h : ∀ e ∈ m, e.physical + e.length ≤ B) :
    (∑ x in Finset.range B, cover_count m x) = total_length m := by
  induction m with
  | nil => simp [cover_count, total_length]
  | cons e m ih =>
    simp only [cover_count_cons, Finset.sum_add_distrib, total_length_cons]
    rw [sum_covers_eq e B (h e (List.mem_cons_self _ _)),
      ih (fun x hx => h x (List.mem_cons_of_mem _ hx))]
    omega

theorem cover_count_le_one_of_disjoint (m : List Extent) (h : PhysicallyDisjoint m) (x : Nat) :
    cover_count m x ≤ 1 := by
  induction m with
  | nil => simp [cover_count]
  | cons e m ih =>
    unfold PhysicallyDisjoint at h
    rw [List.pairwise_cons] at h
    rw [cover_count_cons]
    have hm := ih h.2
    by_cases hc : e.covers x
    · rw [if_pos hc]
      have hz : cover_count m x = 0 := by
        by_contra hne
        have hpos : 0 < cover_count m x := Nat.pos_of_ne_zero hne
        rw [cover_count_pos_iff] at hpos
        obtain ⟨f, hf, hfx⟩ := hpos
        have := h.1 f hf
        unfold Extent.covers at hc hfx
        omega
      omega
    · rw [if_neg hc]
      omega

/-! ## The best-fit pool -/

theorem mem_pool_index (holes : List Extent) (h : Extent) : h ∈ pool_index holes ↔ h ∈ holes :=
  (List.perm_insertionSort pool_order holes).mem_iff

theorem best_fit_some {holes : List Extent} {len : Nat} {h : Extent}
    (hb : best_fit holes len = some h) : h ∈ holes ∧ len ≤ h.length := by
  unfold best_fit at hb
  exact ⟨(mem_pool_index holes h).1 (List.mem_of_find?_eq_some hb),
    by simpa using List.find?_some hb⟩

theorem best_fit_none {holes : List Extent} {len : Nat}
    (hb : best_fit holes len = none) : ∀ h ∈ holes, h.length < len := by
  unfold best_fit at hb
  rw [List.find?_eq_none] at hb
  intro h hh
  have := hb h ((mem_pool_index holes h).2 hh)
  simpa using this

theorem largest_hole_none {holes : List Extent} (hl : largest_hole holes = none) :
    holes = [] := by
  unfold largest_hole at hl
  rw [List.getLast?_eq_none_iff] at hl
  have hp := List.perm_insertionSort pool_order holes
  unfold pool_index at hl
  rw [hl] at hp
  exact List.Perm.eq_nil hp.symm

theorem largest_hole_some {holes : List Extent} {h : Extent}
    (hl : largest_hole holes = some h) : h ∈ holes := by
  unfold largest_hole at hl
  exact (mem_pool_index holes h).1 (List.mem_of_getLast?_eq_some hl)

theorem total_length_erase {holes : List Extent} {h : Extent} (hh : h ∈ holes) :
    total_length (holes.erase h) + h.length = total_length holes := by
  rw [total_length_perm (List.perm_cons_erase hh), total_length_cons]
  omega

theorem total_length_update_hole {holes : List Extent} {h : Extent} (h' : Extent)
    (hh : h ∈ holes) :
    total_length (update_hole holes h h') + h.length = total_length holes + h'.length := by
  induction holes with
  | nil => cases hh
  | cons x xs ih =>
    unfold update_hole
    by_cases hx : x = h
    · rw [if_pos hx, total_length_cons, total_length_cons, hx]
      omega
    · rw [if_neg hx, total_length_cons, total_length_cons]
      have hmem : h ∈ xs := by
        rcases List.mem_cons.1 hh with h1 | h1
        · exact absurd h1.symm hx
        · exact h1
      have := ih hmem
      omega

theorem mem_update_hole {holes : List Extent} {h h' x : Extent}
    (hx : x ∈ update_hole holes h h') : x = h' ∨ x ∈ holes := by
  induction holes with
  | nil => cases hx
  | cons y ys ih =>
    unfold update_hole at hx
    by_cases hy : y = h
    · rw [if_pos hy] at hx
      rcases List.mem_cons.1 hx with h1 | h1
      · exact Or.inl h1
      · exact Or.inr (List.mem_cons_of_mem _ h1)
    · rw [if_neg hy] at hx
      rcases List.mem_cons.1 hx with h1 | h1
      · exact Or.inr (h1 ▸ List.mem_cons_self _ _)
      · rcases ih h1 with h2 | h2
        · exact Or.inl h2
        · exact Or.inr (List.mem_cons_of_mem _ h2)

/-- What an allocation emits plus what it leaves of the source extent has the length
of the source extent. -/
theorem allocate_extent_conserves :
    ∀ (fuel : Nat) (holes : List Extent) (e : Extent),
      total_length (allocate_extent fuel holes e).2.1
        + total_length (allocate_extent fuel holes e).2.2.toList = e.length := by
  intro fuel
  induction fuel with
  | zero => intro holes e; simp [allocate_extent, total_length]
  | succ fuel ih =>
    intro holes e
    unfold allocate_extent
    cases hb : best_fit holes e.length with
    | some h => simp [total_length]
    | none =>
      cases hl : largest_hole holes with
      | none => simp [total_length]
      | some h =>
        simp only
        have hlt := best_fit_none hb h (largest_hole_some hl)
        have := ih (holes.erase h)
          ⟨e.physical + h.length, e.logical + h.length, e.length - h.length, e.user_data⟩
        simp only at this
        rw [total_length_cons]
        dsimp only
        omega

/-- With one unit of fuel more than there are holes, a source extent that is not
empty and not longer than the holes together is allocated wholly, and the holes
shrink by its length. -/
theorem allocate_extent_drains :
    ∀ (fuel : Nat) (holes : List Extent) (e : Extent),
      holes.length < fuel → 0 < e.length → e.length ≤ total_length holes →
      (allocate_extent fuel holes e).2.2 = none ∧
        total_length (allocate_extent fuel holes e).1 + e.length = total_length holes := by
  intro fuel
  induction fuel with
  | zero => intro holes e hf; omega
  | succ fuel ih =>
    intro holes e hf hpos hle
    unfold allocate_extent
    cases hb : best_fit holes e.length with
    | some h =>
      obtain ⟨hmem, hlen⟩ := best_fit_some hb
      simp only
      refine ⟨trivial, ?_⟩
      by_cases heq : h.length = e.length
      · rw [if_pos heq, ← heq]
        exact total_length_erase hmem
      · rw [if_neg heq]
        have := total_length_update_hole (consume_hole h e.length) hmem
        have hc : (consume_hole h e.length).length = h.length - e.length := rfl
        rw [hc] at this
        omega
    | none =>
      have hsmall := best_fit_none hb
      cases hl : largest_hole holes with
      | none =>
        have := largest_hole_none hl
        subst this
        simp [total_length] at hle
        omega
      | some h =>
        simp only
        have hmem := largest_hole_some hl
        have hlt := hsmall h hmem
        have herase := total_length_erase hmem
        have hlen := List.length_erase_of_mem hmem
        have hne : 0 < holes.length := List.length_pos_of_mem hmem
        have := ih (holes.erase h)
          ⟨e.physical + h.length, e.logical + h.length, e.length - h.length, e.user_data⟩
          (by omega) (by simp only; omega) (by simp only; omega)
        simp only at this
        refine ⟨this.1, ?_⟩
        omega

theorem allocate_all_conserves :
    ∀ (srcs holes : List Extent),
      total_length (allocate_all holes srcs).dst + total_length (allocate_all holes srcs).src
        = total_length srcs := by
  intro srcs
  induction srcs with
  | nil => intro holes; simp [allocate_all, total_length]
  | cons e es ih =>
    intro holes
    unfold allocate_all
    simp only [total_length_append, total_length_cons]
    have h1 := allocate_extent_conserves (holes.length + 1) holes e
    have h2 := ih (allocate_extent (holes.length + 1) holes e).1
    cases h3 : (allocate_extent (holes.length + 1) holes e).2.2 with
    | none =>
      rw [h3] at h1
      simp only [Option.toList, total_length_nil] at h1 ⊢
      omega
    | some left =>
      rw [h3] at h1
      simp only [Option.toList, total_length_cons, total_length_nil] at h1 ⊢
      omega

/-- The pool drains a source whose extents are not empty and not longer, together,
than the holes. -/
theorem allocate_all_drains :
    ∀ (srcs holes : List Extent), (∀ e ∈ srcs, 0 < e.length) →
      total_length srcs ≤ total_length holes → (allocate_all holes srcs).src = [] := by
  intro srcs
  induction srcs with
  | nil => intro holes _ _; rfl
  | cons e es ih =>
    intro holes hpos hle
    rw [total_length_cons] at hle
    obtain ⟨h1, h2⟩ := allocate_extent_drains (holes.length + 1) holes e (Nat.lt_succ_self _)
      (hpos e (List.mem_cons_self _ _)) (by omega)
    unfold allocate_all
    simp only [h1, List.nil_append]
    exact ih _ (fun x hx => hpos x (List.mem_cons_of_mem _ hx)) (by omega)

/-- Entries emitted by an allocation take their physical from the blocks of the
source extent and their logical from the blocks of the holes. -/
theorem allocate_extent_emits (Q R : Nat → Prop) :
    ∀ (fuel : Nat) (holes : List Extent) (e : Extent),
      (∀ h ∈ holes, 0 < h.length ∧ ∀ x, h.covers x → Q x) →
      0 < e.length → (∀ x, e.covers x → R x) →
      (∀ h ∈ (allocate_extent fuel holes e).1, 0 < h.length ∧ ∀ x, h.covers x → Q x) ∧
      (∀ d ∈ (allocate_extent fuel holes e).2.1, R d.physical ∧ Q d.logical) := by
  intro fuel
  induction fuel with
  | zero =>
    intro holes e hh _ _
    exact ⟨hh, fun d hd => by cases hd⟩
  | succ fuel ih =>
    intro holes e hh hpos he
    have hephys : R e.physical := he _ ⟨le_refl _, by omega⟩
    unfold allocate_extent
    cases hb : best_fit holes e.length with
    | some h =>
      obtain ⟨hmem, hlen⟩ := best_fit_some hb
      have hhole := hh h hmem
      simp only
      constructor
      · by_cases heq : h.length = e.length
        · rw [if_pos heq]
          intro x hx
          exact hh x (List.mem_of_mem_erase hx)
        · rw [if_neg heq]
          intro x hx
          rcases mem_update_hole hx with h1 | h1
          · subst h1
            refine ⟨by simp only [consume_hole]; omega, fun y hy => hhole.2 y ?_⟩
            simp only [consume_hole, Extent.covers] at hy ⊢
            omega
          · exact hh x h1
      · intro d hd
        rw [List.mem_singleton] at hd
        subst hd
        exact ⟨hephys, hhole.2 _ ⟨le_refl _, by dsimp only; omega⟩⟩
    | none =>
      have hsmall := best_fit_none hb
      cases hl : largest_hole holes with
      | none => exact ⟨hh, fun d hd => by cases hd⟩
      | some h =>
        simp only
        have hmem := largest_hole_some hl
        have hlt := hsmall h hmem
        have hhole := hh h hmem
        have := ih (holes.erase h)
          ⟨e.physical + h.length, e.logical + h.length, e.length - h.length, e.user_data⟩
          (fun x hx => hh x (List.mem_of_mem_erase hx)) (by simp only; omega)
          (fun x hx => he x (by
            simp only [Extent.covers] at hx ⊢
            omega))
        refine ⟨this.1, ?_⟩
        intro d hd
        rcases List.mem_cons.1 hd with h1 | h1
        · subst h1
          exact ⟨hephys, hhole.2 _ ⟨le_refl _, by dsimp only; omega⟩⟩
        · exact this.2 d h1

theorem allocate_all_emits (Q R : Nat → Prop) :
    ∀ (srcs holes : List Extent),
      (∀ h ∈ holes, 0 < h.length ∧ ∀ x, h.covers x → Q x) →
      (∀ e ∈ srcs, 0 < e.length ∧ ∀ x, e.covers x → R x) →
      ∀ d ∈ (allocate_all holes srcs).dst, R d.physical ∧ Q d.logical := by
  intro srcs
  induction srcs with
  | nil => intro holes _ _ d hd; cases hd
  | cons e es ih =>
    intro holes hh hs d hd
    have hstep := allocate_extent_emits Q R (holes.length + 1) holes e hh
      (hs e (List.mem_cons_self _ _)).1 (hs e (List.mem_cons_self _ _)).2
    unfold allocate_all at hd
    simp only [List.mem_append] at hd
    rcases hd with h1 | h1
    · exact hstep.2 d h1
    · exact ih _ hstep.1 (fun x hx => hs x (List.mem_cons_of_mem _ hx)) d h1

/-! ## The maps of `ft_work<T>::analyze` as sets of blocks -/

theorem cover_count_whole_device (shift dev_length x : Nat) :
    cover_count (whole_device shift dev_length) x
      = if x < dev_length >>> shift then 1 else 0 := by
  unfold whole_device
  by_cases h : dev_length >>> shift = 0
  · rw [if_pos h, cover_count_nil, h]
    simp
  · rw [if_neg h, cover_count_singleton]
    unfold Extent.covers
    simp

theorem whole_device_pos (shift dev_length : Nat) :
    ∀ e ∈ whole_device shift dev_length, 0 < e.length := by
  intro e he
  unfold whole_device at he
  split at he
  · cases he
  · rw [List.mem_singleton] at he
    subst he
    exact Nat.pos_of_ne_zero (by assumption)

theorem whole_device_inside (shift dev_length : Nat) :
    ∀ e ∈ whole_device shift dev_length, e.physical + e.length ≤ dev_length >>> shift := by
  intro e he
  unfold whole_device at he
  split at he
  · cases he
  · rw [List.mem_singleton] at he
    subst he
    simp

theorem intersect_one_covers {a b f : Extent} (h : intersect_one a b = some f) (x : Nat) :
    f.covers x ↔ a.covers x ∧ b.covers x := by
  unfold intersect_one at h
  split at h
  · cases h
    unfold Extent.covers
    simp only
    omega
  · cases h

theorem intersect_one_of_covers {a b : Extent} {x : Nat} (ha : a.covers x) (hb : b.covers x) :
    ∃ f, intersect_one a b = some f := by
  unfold intersect_one
  unfold Extent.covers at ha hb
  rw [if_pos (by omega)]
  exact ⟨_, rfl⟩

theorem cover_count_intersect_pos_iff (a b : List Extent) (x : Nat) :
    0 < cover_count (intersect_all_all a b) x
      ↔ 0 < cover_count a x ∧ 0 < cover_count b x := by
  simp only [cover_count_pos_iff]
  unfold intersect_all_all
  constructor
  · rintro ⟨f, hf, hfx⟩
    rw [List.mem_flatMap] at hf
    obtain ⟨a', ha', hf⟩ := hf
    rw [List.mem_filterMap] at hf
    obtain ⟨b', hb', hf⟩ := hf
    have := (intersect_one_covers hf x).1 hfx
    exact ⟨⟨a', ha', this.1⟩, ⟨b', hb', this.2⟩⟩
  · rintro ⟨⟨a', ha', hax⟩, ⟨b', hb', hbx⟩⟩
    obtain ⟨f, hf⟩ := intersect_one_of_covers hax hbx
    refine ⟨f, ?_, (intersect_one_covers hf x).2 ⟨hax, hbx⟩⟩
    rw [List.mem_flatMap]
    exact ⟨a', ha', List.mem_filterMap.2 ⟨b', hb', hf⟩⟩

theorem shiftRight_add_le {a b c : Nat} (s : Nat) (h : a + b ≤ c) :
    (a >>> s) + (b >>> s) ≤ c >>> s := by
  simp only [Nat.shiftRight_eq_div_pow]
  exact le_trans (Nat.add_div_le_add_div a b (2 ^ s)) (Nat.div_le_div_right h)

theorem cover_count_loop_holes (inp : AnalyzeInput) (loop : List Extent) (x : Nat) :
    cover_count (analyze_loop_holes inp loop) x
      = if 0 < cover_count
            (loop.map fun e => (⟨e.logical >>> inp.eff_block_size_log2,
              e.logical >>> inp.eff_block_size_log2, e.length >>> inp.eff_block_size_log2,
              e.user_data⟩ : Extent)) x then 0
        else if x < inp.dev_length >>> inp.eff_block_size_log2 then 1 else 0 := by
  unfold analyze_loop_holes complement0_logical_shift
  rw [cover_count_remove_all, cover_count_whole_device]

theorem cover_count_device (inp : AnalyzeInput) (loop free : List Extent) (x : Nat) :
    cover_count (analyze_device inp loop free) x
      = if 0 < cover_count
            ((sort_by_physical (sort_by_physical loop ++ free)).map fun e =>
              (⟨e.physical >>> inp.eff_block_size_log2,
                e.physical >>> inp.eff_block_size_log2, e.length >>> inp.eff_block_size_log2,
                e.user_data⟩ : Extent)) x then 0
        else if x < inp.dev_length >>> inp.eff_block_size_log2 then 1 else 0 := by
  unfold analyze_device complement0_physical_shift
  rw [cover_count_remove_all, cover_count_whole_device]

theorem cover_count_device_moved (inp : AnalyzeInput) (loop free : List Extent) (x : Nat) :
    cover_count (analyze_device_moved inp loop free) x
      = if 0 < cover_count (analyze_loop_holes inp loop) x then 0
        else cover_count (analyze_device inp loop free) x := by
  unfold analyze_device_moved analyze_invariant
  rw [cover_count_remove_all]
  by_cases h : 0 < cover_count (analyze_loop_holes inp loop) x
  · rw [if_pos h]
    split
    · rfl
    · rename_i h2
      rw [cover_count_intersect_pos_iff] at h2
      have : ¬ 0 < cover_count (analyze_device inp loop free) x := fun h3 => h2 ⟨h3, h⟩
      omega
  · rw [if_neg h, if_neg]
    rw [cover_count_intersect_pos_iff]
    exact fun h2 => h h2.2

theorem cover_count_holes_left (inp : AnalyzeInput) (loop free : List Extent) (x : Nat) :
    cover_count (analyze_holes_left inp loop free) x
      = if 0 < cover_count (analyze_device inp loop free) x then 0
        else cover_count (analyze_loop_holes inp loop) x := by
  unfold analyze_holes_left analyze_invariant
  rw [cover_count_remove_all]
  by_cases h : 0 < cover_count (analyze_device inp loop free) x
  · rw [if_pos h]
    split
    · rfl
    · rename_i h2
      rw [cover_count_intersect_pos_iff] at h2
      have : ¬ 0 < cover_count (analyze_loop_holes inp loop) x := fun h3 => h2 ⟨h, h3⟩
      omega
  · rw [if_neg h, if_neg]
    rw [cover_count_intersect_pos_iff]
    exact fun h2 => h h2.1

theorem loop_holes_pos (inp : AnalyzeInput) (loop : List Extent) :
    ∀ e ∈ analyze_loop_holes inp loop, 0 < e.length :=
  remove_all_pos _ _ (whole_device_pos _ _)

theorem device_pos (inp : AnalyzeInput) (loop free : List Extent) :
    ∀ e ∈ analyze_device inp loop free, 0 < e.length :=
  remove_all_pos _ _ (whole_device_pos _ _)

theorem device_moved_pos (inp : AnalyzeInput) (loop free : List Extent) :
    ∀ e ∈ analyze_device_moved inp loop free, 0 < e.length :=
  remove_all_pos _ _ (device_pos inp loop free)

theorem holes_left_pos (inp : AnalyzeInput) (loop free : List Extent) :
    ∀ e ∈ analyze_holes_left inp loop free, 0 < e.length :=
  remove_all_pos _ _ (loop_holes_pos inp loop)

theorem device_moved_inside (inp : AnalyzeInput) (loop free : List Extent) :
    ∀ e ∈ analyze_device_moved inp loop free,
      e.physical + e.length ≤ inp.dev_length >>> inp.eff_block_size_log2 :=
  remove_all_inside _ _ _ (remove_all_inside _ _ _ (whole_device_inside _ _))

theorem holes_left_inside (inp : AnalyzeInput) (loop free : List Extent) :
    ∀ e ∈ analyze_holes_left inp loop free,
      e.physical + e.length ≤ inp.dev_length >>> inp.eff_block_size_log2 :=
  remove_all_inside _ _ _ (remove_all_inside _ _ _ (whole_device_inside _ _))

/-- No block is both in a DEVICE extent to renumber and in a LOOP-HOLE left. -/
theorem device_moved_holes_left_disjoint (inp : AnalyzeInput) (loop free : List Extent)
    (x : Nat) (h1 : 0 < cover_count (analyze_device_moved inp loop free) x)
    (h2 : 0 < cover_count (analyze_holes_left inp loop free) x) : False := by
  rw [cover_count_device_moved] at h1
  rw [cover_count_holes_left] at h2
  split at h1
  · omega
  · split at h2
    · omega
    · omega

/-! ## Claims on `ft_work<T>::analyze` -/

theorem analyze_of_drained (inp : AnalyzeInput) (loop free : List Extent)
    (h : (allocate_all (analyze_holes_left inp loop free)
      (analyze_device_moved inp loop free)).src = []) :
    analyze inp loop free
      = ⟨0,
          ⟨(merge_device inp.tbits
              (allocate_all (analyze_holes_left inp loop free)
                (analyze_device_moved inp loop free)).dst
              (drop_invariant_loop inp.tbits (analyze_loop_map inp loop))).1,
            (merge_device inp.tbits
              (allocate_all (analyze_holes_left inp loop free)
                (analyze_device_moved inp loop free)).dst
              (drop_invariant_loop inp.tbits (analyze_loop_map inp loop))).2,
            (merge_device inp.tbits
              (allocate_all (analyze_holes_left inp loop free)
                (analyze_device_moved inp loop free)).dst
              (drop_invariant_loop inp.tbits (analyze_loop_map inp loop))).2⟩,
          ⟨(select_holes inp.tbits
              (hole_threshold
                (merge_device inp.tbits
                  (allocate_all (analyze_holes_left inp loop free)
                    (analyze_device_moved inp loop free)).dst
                  (drop_invariant_loop inp.tbits (analyze_loop_map inp loop))).2
                (page_size_blocks inp.tbits inp.page_size inp.eff_block_size_log2))
              (page_size_blocks inp.tbits inp.page_size inp.eff_block_size_log2)
              (intersect_all_all (analyze_free_map inp free)
                (allocate_all (analyze_holes_left inp loop free)
                  (analyze_device_moved inp loop free)).holes)
              inp.hole_len_uninit 0).kept,
            (select_holes inp.tbits
              (hole_threshold
                (merge_device inp.tbits
                  (allocate_all (analyze_holes_left inp loop free)
                    (analyze_device_moved inp loop free)).dst
                  (drop_invariant_loop inp.tbits (analyze_loop_map inp loop))).2
                (page_size_blocks inp.tbits inp.page_size inp.eff_block_size_log2))
              (page_size_blocks inp.tbits inp.page_size inp.eff_block_size_log2)
              (intersect_all_all (analyze_free_map inp free)
                (allocate_all (analyze_holes_left inp loop free)
                  (analyze_device_moved inp loop free)).holes)
              inp.hole_len_uninit 0).hole_total_len,
            0⟩,
          (merge_device inp.tbits
              (allocate_all (analyze_holes_left inp loop free)
                (analyze_device_moved inp loop free)).dst
              (drop_invariant_loop inp.tbits (analyze_loop_map inp loop))).2⟩ := by
  unfold analyze
  simp only [h, ne_eq, not_true_eq_false, if_false]

theorem analyze_err_zero_iff (inp : AnalyzeInput) (loop free : List Extent) :
    (analyze inp loop free).err = 0
      ↔ (allocate_all (analyze_holes_left inp loop free)
          (analyze_device_moved inp loop free)).src = [] := by
  constructor
  · intro h
    by_contra hne
    unfold analyze at h
    simp only [ne_eq, hne, not_false_eq_true, if_true] at h
    revert h
    decide
  · intro h
    rw [analyze_of_drained inp loop free h]

theorem total_length_map_insert0 (m : List Extent) (e : Extent) :
    total_length (map_insert0 m e) = total_length m + e.length := by
  induction m with
  | nil => simp [map_insert0, total_length]
  | cons x xs ih =>
    unfold map_insert0
    split
    · simp only [total_length_cons]
      omega
    · simp only [total_length_cons, ih]
      omega

theorem mem_map_insert0 {m : List Extent} {e x : Extent} (h : x ∈ map_insert0 m e) :
    x = e ∨ x ∈ m := by
  induction m with
  | nil =>
    simp only [map_insert0, List.mem_singleton] at h
    exact Or.inl h
  | cons y ys ih =>
    unfold map_insert0 at h
    split at h
    · rcases List.mem_cons.1 h with h1 | h1
      · exact Or.inl h1
      · exact Or.inr h1
    · rcases List.mem_cons.1 h with h1 | h1
      · exact Or.inr (h1 ▸ List.mem_cons_self _ _)
      · rcases ih h1 with h2 | h2
        · exact Or.inl h2
        · exact Or.inr (List.mem_cons_of_mem _ h2)

theorem merge_device_total (tbits : Nat) :
    ∀ (es : List Extent) (acc : List Extent × Nat),
      total_length (merge_device tbits es acc).1 = total_length acc.1 + total_length es := by
  intro es
  induction es with
  | nil => intro acc; simp [merge_device, total_length]
  | cons e es ih =>
    intro acc
    unfold merge_device
    rw [ih, total_length_map_insert0, total_length_cons]
    dsimp only
    omega

theorem merge_device_count (tbits : Nat) :
    ∀ (es : List Extent) (acc : List Extent × Nat) (n : Nat), acc.2 = wrap tbits n →
      (merge_device tbits es acc).2 = wrap tbits (n + total_length es) := by
  intro es
  induction es with
  | nil => intro acc n h; simpa [merge_device, total_length] using h
  | cons e es ih =>
    intro acc n h
    unfold merge_device
    rw [ih _ (n + e.length) (by dsimp only; rw [h, wrap_add_wrap]), total_length_cons,
      Nat.add_assoc]

theorem mem_merge_device (tbits : Nat) :
    ∀ (es : List Extent) (acc : List Extent × Nat) (x : Extent),
      x ∈ (merge_device tbits es acc).1 →
      x ∈ acc.1 ∨ ∃ e ∈ es, x = { e with user_data := FC_DEVICE } := by
  intro es
  induction es with
  | nil => intro acc x h; exact Or.inl h
  | cons e es ih =>
    intro acc x h
    unfold merge_device at h
    rcases ih _ x h with h1 | ⟨e', he', hx⟩
    · rcases mem_map_insert0 h1 with h2 | h2
      · exact Or.inr ⟨e, List.mem_cons_self _ _, h2⟩
      · exact Or.inl h2
    · exact Or.inr ⟨e', List.mem_cons_of_mem _ he', hx⟩

theorem drop_invariant_loop_count (tbits : Nat) (l : List Extent) :
    (drop_invariant_loop tbits l).2
      = wrap tbits (total_length (drop_invariant_loop tbits l).1) := by
  induction l with
  | nil => simp [drop_invariant_loop, total_length, wrap]
  | cons e es ih =>
    unfold drop_invariant_loop
    dsimp only
    split
    · exact ih
    · dsimp only
      rw [total_length_cons, ih]
      unfold wrap
      dsimp only
      rw [Nat.add_mod_mod]

theorem drop_invariant_loop_fst (tbits : Nat) (l : List Extent) :
    (drop_invariant_loop tbits l).1
      = (l.filter fun e => decide (e.physical ≠ e.logical)).map
          fun e => { e with user_data := FC_LOOP_FILE } := by
  induction l with
  | nil => rfl
  | cons e es ih =>
    unfold drop_invariant_loop
    dsimp only
    by_cases h : e.physical = e.logical
    · rw [if_pos h, List.filter_cons_of_neg (by simpa using h)]
      exact ih
    · rw [if_neg h, List.filter_cons_of_pos (by simpa using h), List.map_cons, ih]

theorem total_length_drop_invariant_loop_le (tbits : Nat) (l : List Extent) :
    total_length (drop_invariant_loop tbits l).1 ≤ total_length l := by
  induction l with
  | nil => simp [drop_invariant_loop]
  | cons e es ih =>
    unfold drop_invariant_loop
    dsimp only
    split
    · rw [total_length_cons]; omega
    · rw [total_length_cons, total_length_cons]; dsimp only; omega

theorem total_length_append0_shift_le (tbits s : Nat) (l : List Extent) :
    total_length (append0_shift tbits l s) ≤ (l.map fun e => e.length >>> s).sum := by
  induction l with
  | nil => simp [append0_shift, total_length]
  | cons e es ih =>
    unfold append0_shift at ih ⊢
    rw [List.map_cons, total_length_cons, List.map_cons, List.sum_cons]
    have : wrap tbits (e.length >>> s) ≤ e.length >>> s := Nat.mod_le _ _
    dsimp only
    omega

theorem total_length_physical_shift (s : Nat) (l : List Extent) :
    total_length (l.map fun e =>
        (⟨e.physical >>> s, e.physical >>> s, e.length >>> s, e.user_data⟩ : Extent))
      = (l.map fun e => e.length >>> s).sum := by
  induction l with
  | nil => rfl
  | cons e es ih =>
    rw [List.map_cons, total_length_cons, List.map_cons, List.sum_cons, ih]

theorem total_length_logical_shift (s : Nat) (l : List Extent) :
    total_length (l.map fun e =>
        (⟨e.logical >>> s, e.logical >>> s, e.length >>> s, e.user_data⟩ : Extent))
      = (l.map fun e => e.length >>> s).sum := by
  induction l with
  | nil => rfl
  | cons e es ih =>
    rw [List.map_cons, total_length_cons, List.map_cons, List.sum_cons, ih]

theorem physical_shift_disjoint (s : Nat) (l : List Extent) (h : PhysicallyDisjoint l) :
    PhysicallyDisjoint (l.map fun e =>
      (⟨e.physical >>> s, e.physical >>> s, e.length >>> s, e.user_data⟩ : Extent)) := by
  unfold PhysicallyDisjoint at h ⊢
  refine List.Pairwise.map _ ?_ h
  intro a b hab
  dsimp only
  rcases hab with h1 | h1
  · exact Or.inl (shiftRight_add_le s h1)
  · exact Or.inr (shiftRight_add_le s h1)

theorem physical_shift_inside (s dev_length : Nat) (l : List Extent)
    (h : InsideDevice l dev_length) :
    ∀ e ∈ l.map fun e =>
        (⟨e.physical >>> s, e.physical >>> s, e.length >>> s, e.user_data⟩ : Extent),
      e.physical + e.length ≤ dev_length >>> s := by
  intro e he
  rw [List.mem_map] at he
  obtain ⟨e0, he0, rfl⟩ := he
  exact shiftRight_add_le s (h e0 he0)

theorem cover_count_union_pos (s : Nat) (loop free : List Extent) (x : Nat)
    (h : 0 < cover_count (loop.map fun e =>
      (⟨e.physical >>> s, e.physical >>> s, e.length >>> s, e.user_data⟩ : Extent)) x) :
    0 < cover_count ((sort_by_physical (sort_by_physical loop ++ free)).map fun e =>
      (⟨e.physical >>> s, e.physical >>> s, e.length >>> s, e.user_data⟩ : Extent)) x := by
  rw [cover_count_pos_iff] at h ⊢
  obtain ⟨e, he, hx⟩ := h
  rw [List.mem_map] at he
  obtain ⟨e0, he0, rfl⟩ := he
  refine ⟨_, List.mem_map.2 ⟨e0, ?_, rfl⟩, hx⟩
  rw [(perm_sort_by_physical _).mem_iff, List.mem_append]
  exact Or.inl ((perm_sort_by_physical loop).mem_iff.2 he0)

/-- Blocks of the DEVICE extents to renumber and blocks of the LOOP-FILE extents,
counted together, do not exceed the blocks of the device. -/
theorem device_moved_add_loop_le (inp : AnalyzeInput) (loop free : List Extent)
    (hd : PhysicallyDisjoint loop) (hi : InsideDevice loop inp.dev_length) :
    total_length (analyze_device_moved inp loop free)
        + (loop.map fun e => e.length >>> inp.eff_block_size_log2).sum
      ≤ inp.dev_length >>> inp.eff_block_size_log2 := by
  have hD := sum_cover_count_eq _ _ (device_moved_inside inp loop free)
  have hL := sum_cover_count_eq _ _
    (physical_shift_inside inp.eff_block_size_log2 inp.dev_length loop hi)
  rw [total_length_physical_shift] at hL
  rw [← hD, ← hL, ← Finset.sum_add_distrib]
  have hpt : ∀ x ∈ Finset.range (inp.dev_length >>> inp.eff_block_size_log2),
      cover_count (analyze_device_moved inp loop free) x
        + cover_count (loop.map fun e =>
            (⟨e.physical >>> inp.eff_block_size_log2, e.physical >>> inp.eff_block_size_log2,
              e.length >>> inp.eff_block_size_log2, e.user_data⟩ : Extent)) x ≤ 1 := by
    intro x _
    have h1 := cover_count_le_one_of_disjoint _
      (physical_shift_disjoint inp.eff_block_size_log2 loop hd) x
    have h2 := cover_count_union_pos inp.eff_block_size_log2 loop free x
    rw [cover_count_device_moved, cover_count_device]
    split_ifs <;> omega
  have := Finset.sum_le_sum hpt
  simpa using this

/-- On an input whose LOOP-FILE extents are pairwise disjoint on the physical axis
and inside the device, the LOOP-HOLES left are at least as long, together, as the
DEVICE extents to renumber. -/
theorem device_moved_le_holes_left (inp : AnalyzeInput) (loop free : List Extent)
    (hd : PhysicallyDisjoint loop) (hi : InsideDevice loop inp.dev_length) :
    total_length (analyze_device_moved inp loop free)
      ≤ total_length (analyze_holes_left inp loop free) := by
  have hD := sum_cover_count_eq _ _ (device_moved_inside inp loop free)
  have hH := sum_cover_count_eq _ _ (holes_left_inside inp loop free)
  have hL := sum_cover_count_eq _ _
    (physical_shift_inside inp.eff_block_size_log2 inp.dev_length loop hi)
  rw [total_length_physical_shift] at hL
  have hLl := sum_cover_count_le (loop.map fun e =>
      (⟨e.logical >>> inp.eff_block_size_log2, e.logical >>> inp.eff_block_size_log2,
        e.length >>> inp.eff_block_size_log2, e.user_data⟩ : Extent))
    (inp.dev_length >>> inp.eff_block_size_log2)
  rw [total_length_logical_shift] at hLl
  have hpt : ∀ x ∈ Finset.range (inp.dev_length >>> inp.eff_block_size_log2),
      cover_count (analyze_device_moved inp loop free) x
        + cover_count (loop.map fun e =>
            (⟨e.physical >>> inp.eff_block_size_log2, e.physical >>> inp.eff_block_size_log2,
              e.length >>> inp.eff_block_size_log2, e.user_data⟩ : Extent)) x
      ≤ cover_count (analyze_holes_left inp loop free) x
        + cover_count (loop.map fun e =>
            (⟨e.logical >>> inp.eff_block_size_log2, e.logical >>> inp.eff_block_size_log2,
              e.length >>> inp.eff_block_size_log2, e.user_data⟩ : Extent)) x := by
    intro x hx
    rw [Finset.mem_range] at hx
    have h1 := cover_count_le_one_of_disjoint _
      (physical_shift_disjoint inp.eff_block_size_log2 loop hd) x
    have h2 := cover_count_union_pos inp.eff_block_size_log2 loop free x
    rw [cover_count_device_moved, cover_count_holes_left, cover_count_device,
      cover_count_loop_holes]
    split_ifs <;> omega
  have hsum := Finset.sum_le_sum hpt
  rw [Finset.sum_add_distrib, Finset.sum_add_distrib] at hsum
  omega

/-- Bookkeeping of `work_count` by the last two loops of `analyze` over `loop_map`
and the renumbered `dev_map`. -/
theorem analyze_work_count_total (inp : AnalyzeInput) (loop free : List Extent)
    (h : (analyze inp loop free).err = 0) :
    (analyze inp loop free).work_count
        = wrap inp.tbits (total_length (analyze inp loop free).dev_map.entries) ∧
      (analyze inp loop free).dev_map.total_count = (analyze inp loop free).work_count ∧
      (analyze inp loop free).dev_map.used_count = (analyze inp loop free).work_count ∧
      (PhysicallyDisjoint loop → InsideDevice loop inp.dev_length →
        inp.dev_length >>> inp.eff_block_size_log2 < 2 ^ inp.tbits →
        (analyze inp loop free).work_count
          = total_length (analyze inp loop free).dev_map.entries) := by
  have hsrc := (analyze_err_zero_iff inp loop free).1 h
  rw [analyze_of_drained inp loop free hsrc]
  dsimp only
  have hcount := merge_device_count inp.tbits
    (allocate_all (analyze_holes_left inp loop free) (analyze_device_moved inp loop free)).dst
    (drop_invariant_loop inp.tbits (analyze_loop_map inp loop)) _
    (drop_invariant_loop_count inp.tbits (analyze_loop_map inp loop))
  have htotal := merge_device_total inp.tbits
    (allocate_all (analyze_holes_left inp loop free) (analyze_device_moved inp loop free)).dst
    (drop_invariant_loop inp.tbits (analyze_loop_map inp loop))
  rw [← htotal] at hcount
  refine ⟨hcount, rfl, rfl, ?_⟩
  intro hd hi hN
  rw [hcount]
  apply wrap_of_lt
  rw [htotal]
  have h1 := total_length_drop_invariant_loop_le inp.tbits (analyze_loop_map inp loop)
  have h2 : total_length (analyze_loop_map inp loop)
      ≤ (loop.map fun e => e.length >>> inp.eff_block_size_log2).sum := by
    unfold analyze_loop_map
    refine le_trans (total_length_append0_shift_le _ _ _) (le_of_eq ?_)
    exact ((perm_sort_by_physical loop).map _).sum_eq
  have h3 := allocate_all_conserves (analyze_device_moved inp loop free)
    (analyze_holes_left inp loop free)
  rw [hsrc, total_length_nil, Nat.add_zero] at h3
  have h4 := device_moved_add_loop_le inp loop free hd hi
  omega

/-- C14: after `analyze` returns 0, `work_count` is the sum of the lengths of all
entries of `dev_map` computed in the block-number type `T`, and
`dev_map.total_count() = dev_map.used_count() = work_count`; on an input whose
LOOP-FILE extents are pairwise disjoint on the physical axis and inside a device
whose block count fits `T`, the sum does not leave `T` and `work_count` is the sum
itself. -/
theorem analyze_work_count_eq_total_length (inp : AnalyzeInput) (loop free : List Extent)
    (h : (analyze inp loop free).err = 0) :
    (analyze inp loop free).work_count
        = wrap inp.tbits (total_length (analyze inp loop free).dev_map.entries) ∧
      (analyze inp loop free).dev_map.total_count = (analyze inp loop free).work_count ∧
      (analyze inp loop free).dev_map.used_count = (analyze inp loop free).work_count ∧
      (PhysicallyDisjoint loop → InsideDevice loop inp.dev_length →
        inp.dev_length >>> inp.eff_block_size_log2 < 2 ^ inp.tbits →
        (analyze inp loop free).work_count
          = total_length (analyze inp loop free).dev_map.entries) :=
  analyze_work_count_total inp loop free h

/-- C14 (example): one LOOP-FILE extent of two blocks at physical block 0 with
logical block 2, on a device of four blocks of 4096 bytes without free space:
`analyze` returns 0 and `work_count` is 4, the total length of the two entries. -/
theorem analyze_work_count_eq_total_length_witness :
    (analyze ⟨64, 12, 4 * 4096, 4096, 0⟩ [⟨0, 2 * 4096, 2 * 4096, 0⟩] []).err = 0 ∧
    (analyze ⟨64, 12, 4 * 4096, 4096, 0⟩ [⟨0, 2 * 4096, 2 * 4096, 0⟩] []).work_count
      = total_length
          (analyze ⟨64, 12, 4 * 4096, 4096, 0⟩ [⟨0, 2 * 4096, 2 * 4096, 0⟩] []).dev_map.entries :=
  ⟨by decide,
    (analyze_work_count_eq_total_length ⟨64, 12, 4 * 4096, 4096, 0⟩
      [⟨0, 2 * 4096, 2 * 4096, 0⟩] [] (by decide)).2.2.2 (by decide) (by decide) (by decide)⟩

/-- C15: after `analyze` returns 0, every entry of `dev_map`, whether tagged
LOOP-FILE or DEVICE, has `physical != logical`: the invariant LOOP-FILE extents were
removed, and every DEVICE entry takes its physical from a block that no LOOP-HOLE
left holds and its logical from a block of such a hole. -/
theorem analyze_dev_map_physical_ne_logical (inp : AnalyzeInput) (loop free : List Extent)
    (h : (analyze inp loop free).err = 0) :
    ∀ e ∈ (analyze inp loop free).dev_map.entries, e.physical ≠ e.logical := by
  have hsrc := (analyze_err_zero_iff inp loop free).1 h
  rw [analyze_of_drained inp loop free hsrc]
  dsimp only
  intro e he
  rcases mem_merge_device _ _ _ e he with h1 | ⟨d, hd, rfl⟩
  · rw [drop_invariant_loop_fst, List.mem_map] at h1
    obtain ⟨e0, he0, rfl⟩ := h1
    rw [List.mem_filter] at he0
    simpa using he0.2
  · have hem := allocate_all_emits
      (fun x => 0 < cover_count (analyze_holes_left inp loop free) x)
      (fun x => 0 < cover_count (analyze_device_moved inp loop free) x)
      (analyze_device_moved inp loop free) (analyze_holes_left inp loop free)
      (fun hh hmem => ⟨holes_left_pos inp loop free hh hmem,
        fun x hx => (cover_count_pos_iff _ x).2 ⟨hh, hmem, hx⟩⟩)
      (fun s hmem => ⟨device_moved_pos inp loop free s hmem,
        fun x hx => (cover_count_pos_iff _ x).2 ⟨s, hmem, hx⟩⟩)
      d hd
    dsimp only
    intro heq
    rw [heq] at hem
    exact device_moved_holes_left_disjoint inp loop free _ hem.1 hem.2

/-- C15 (example): LOOP-FILE = one extent of two blocks at physical block 2 with
logical block 0 on a device of six blocks of 4096 bytes, blocks 4 and 5 free:
`analyze` returns 0 and both entries of `dev_map` are moved. -/
theorem analyze_dev_map_physical_ne_logical_witness :
    (analyze ⟨64, 12, 6 * 4096, 4096, 0⟩ [⟨2 * 4096, 0, 2 * 4096, 0⟩]
        [⟨4 * 4096, 4 * 4096, 2 * 4096, 0⟩]).err = 0 ∧
    ∀ e ∈ (analyze ⟨64, 12, 6 * 4096, 4096, 0⟩ [⟨2 * 4096, 0, 2 * 4096, 0⟩]
        [⟨4 * 4096, 4 * 4096, 2 * 4096, 0⟩]).dev_map.entries, e.physical ≠ e.logical :=
  ⟨by decide,
    analyze_dev_map_physical_ne_logical ⟨64, 12, 6 * 4096, 4096, 0⟩
      [⟨2 * 4096, 0, 2 * 4096, 0⟩] [⟨4 * 4096, 4 * 4096, 2 * 4096, 0⟩] (by decide)⟩

/-- C17: on an input whose LOOP-FILE extents are pairwise disjoint on the physical
axis and lie inside the device, the LOOP-HOLES left after the invariant DEVICE
blocks were removed are together at least as long as the DEVICE extents left, the
best-fit allocation drains `dev_map`, and `analyze` returns 0, not `ENOSPC`. -/
theorem analyze_never_enospc (inp : AnalyzeInput) (loop free : List Extent)
    (hd : PhysicallyDisjoint loop) (hi : InsideDevice loop inp.dev_length) :
    total_length (analyze_device_moved inp loop free)
        ≤ total_length (analyze_holes_left inp loop free) ∧
      (allocate_all (analyze_holes_left inp loop free)
        (analyze_device_moved inp loop free)).src = [] ∧
      (analyze inp loop free).err = 0 ∧ (analyze inp loop free).err ≠ ENOSPC := by
  have hle := device_moved_le_holes_left inp loop free hd hi
  have hsrc := allocate_all_drains (analyze_device_moved inp loop free)
    (analyze_holes_left inp loop free) (device_moved_pos inp loop free) hle
  have herr := (analyze_err_zero_iff inp loop free).2 hsrc
  refine ⟨hle, hsrc, herr, ?_⟩
  rw [herr]
  decide

/-- C17 (example): two LOOP-FILE extents, disjoint and inside a device of eight
blocks of 4096 bytes, with one free extent. -/
theorem analyze_never_enospc_witness :
    (PhysicallyDisjoint [⟨4096, 5 * 4096, 2 * 4096, 0⟩, ⟨5 * 4096, 0, 4096, 0⟩] ∧
      InsideDevice [⟨4096, 5 * 4096, 2 * 4096, 0⟩, ⟨5 * 4096, 0, 4096, 0⟩] (8 * 4096)) ∧
    (analyze ⟨64, 12, 8 * 4096, 4096, 0⟩
        [⟨4096, 5 * 4096, 2 * 4096, 0⟩, ⟨5 * 4096, 0, 4096, 0⟩]
        [⟨6 * 4096, 6 * 4096, 4096, 0⟩]).err = 0 :=
  ⟨⟨by decide, by decide⟩,
    (analyze_never_enospc ⟨64, 12, 8 * 4096, 4096, 0⟩
      [⟨4096, 5 * 4096, 2 * 4096, 0⟩, ⟨5 * 4096, 0, 4096, 0⟩]
      [⟨6 * 4096, 6 * 4096, 4096, 0⟩] (by decide) (by decide)).2.2.1⟩

theorem eq_nil_of_cover_count_zero (m : List Extent) (hpos : ∀ e ∈ m, 0 < e.length)
    (h : ∀ x, cover_count m x = 0) : m = [] := by
  cases m with
  | nil => rfl
  | cons e es =>
    exfalso
    have h1 := h e.physical
    rw [cover_count_cons, if_pos] at h1
    · omega
    · have := hpos e (List.mem_cons_self _ _)
      unfold Extent.covers
      omega

theorem remove_all_nil (other : List Extent) : remove_all [] other = [] := by
  induction other with
  | nil => rfl
  | cons o os ih =>
    have hstep : remove_all [] (o :: os)
        = remove_all (([] : List Extent).flatMap fun e =>
            remove_range e o.physical (o.physical + o.length)) os := rfl
    rw [hstep]
    exact ih

theorem device_eq_nil_of_covered (inp : AnalyzeInput) (loop free : List Extent)
    (hcover : ∀ x, x < inp.dev_length >>> inp.eff_block_size_log2 →
      CoversBlock loop inp.eff_block_size_log2 x) :
    analyze_device inp loop free = [] := by
  apply eq_nil_of_cover_count_zero _ (device_pos inp loop free)
  intro x
  rw [cover_count_device]
  by_cases hx : x < inp.dev_length >>> inp.eff_block_size_log2
  · rw [if_pos]
    apply cover_count_union_pos
    rw [cover_count_pos_iff]
    obtain ⟨e, he, hex⟩ := hcover x hx
    exact ⟨_, List.mem_map.2 ⟨e, he, rfl⟩, hex⟩
  · rw [if_neg hx]
    split <;> rfl

/-- C16: when the LOOP-FILE extents cover every block of the device physically and
FREE-SPACE is empty, `analyze` returns 0, `dev_map` holds exactly the entries of
`loop_map` (the LOOP-FILE extents in blocks, in physical order) that have
`physical != logical`, each tagged LOOP-FILE, `work_count` and both counters of
`dev_map` are their total length computed in `T`, and `dev_free_map` is empty; when
moreover the LOOP-FILE extents are pairwise disjoint and inside a device whose
block count fits `T`, `work_count` is that total length itself. -/
theorem analyze_loop_file_covers_device (inp : AnalyzeInput) (loop : List Extent)
    (hcover : ∀ x, x < inp.dev_length >>> inp.eff_block_size_log2 →
      CoversBlock loop inp.eff_block_size_log2 x) :
    (analyze inp loop []).err = 0 ∧
      (analyze inp loop []).dev_map.entries
        = ((analyze_loop_map inp loop).filter fun e => decide (e.physical ≠ e.logical)).map
            (fun e => { e with user_data := FC_LOOP_FILE }) ∧
      (analyze inp loop []).work_count
        = wrap inp.tbits (total_length (analyze inp loop []).dev_map.entries) ∧
      (analyze inp loop []).dev_map.total_count = (analyze inp loop []).work_count ∧
      (analyze inp loop []).dev_map.used_count = (analyze inp loop []).work_count ∧
      (analyze inp loop []).dev_free_map = ⟨[], 0, 0⟩ ∧
      (PhysicallyDisjoint loop → InsideDevice loop inp.dev_length →
        inp.dev_length >>> inp.eff_block_size_log2 < 2 ^ inp.tbits →
        (analyze inp loop []).work_count
          = total_length (analyze inp loop []).dev_map.entries) := by
  have hdev := device_eq_nil_of_covered inp loop [] hcover
  have hmoved : analyze_device_moved inp loop [] = [] := by
    unfold analyze_device_moved
    rw [hdev]
    exact remove_all_nil _
  have hsrc : (allocate_all (analyze_holes_left inp loop [])
      (analyze_device_moved inp loop [])).src = [] := by
    rw [hmoved]; rfl
  have herr := (analyze_err_zero_iff inp loop []).2 hsrc
  have hwc := analyze_work_count_total inp loop [] herr
  refine ⟨herr, ?_, hwc.1, hwc.2.1, hwc.2.2.1, ?_, hwc.2.2.2⟩
  · rw [analyze_of_drained inp loop [] hsrc]
    dsimp only
    rw [hmoved]
    simp only [allocate_all, merge_device]
    exact drop_invariant_loop_fst _ _
  · rw [analyze_of_drained inp loop [] hsrc]
    dsimp only
    have hfree : analyze_free_map inp [] = [] := rfl
    rw [hfree]
    simp only [intersect_all_all, List.flatMap_nil, select_holes]

/-- C16 (examples): LOOP-FILE = `[(0,0,1),(2,1,1),(1,2,1),(3,3,1)]` on a device of
four blocks of 4096 bytes gives the two entries physical 1 -> logical 2 and
physical 2 -> logical 1 with `work_count = 2`; LOOP-FILE = `[(0,0,16)]` on a device
of 16 blocks gives an empty `dev_map` and `work_count = 0`. -/
theorem analyze_loop_file_covers_device_witness :
    (∀ x, x < (4 * 4096) >>> 12 →
      CoversBlock [⟨0, 0, 4096, 0⟩, ⟨2 * 4096, 4096, 4096, 0⟩, ⟨4096, 2 * 4096, 4096, 0⟩,
        ⟨3 * 4096, 3 * 4096, 4096, 0⟩] 12 x) ∧
    (analyze ⟨64, 12, 4 * 4096, 4096, 0⟩
        [⟨0, 0, 4096, 0⟩, ⟨2 * 4096, 4096, 4096, 0⟩, ⟨4096, 2 * 4096, 4096, 0⟩,
          ⟨3 * 4096, 3 * 4096, 4096, 0⟩] []).err = 0 ∧
    analyze ⟨64, 12, 4 * 4096, 4096, 0⟩
        [⟨0, 0, 4096, 0⟩, ⟨2 * 4096, 4096, 4096, 0⟩, ⟨4096, 2 * 4096, 4096, 0⟩,
          ⟨3 * 4096, 3 * 4096, 4096, 0⟩] []
      = ⟨0, ⟨[⟨1, 2, 1, FC_LOOP_FILE⟩, ⟨2, 1, 1, FC_LOOP_FILE⟩], 2, 2⟩, ⟨[], 0, 0⟩, 2⟩ ∧
    analyze ⟨64, 12, 16 * 4096, 4096, 0⟩ [⟨0, 0, 16 * 4096, 0⟩] []
      = ⟨0, ⟨[], 0, 0⟩, ⟨[], 0, 0⟩, 0⟩ :=
  ⟨by decide,
    (analyze_loop_file_covers_device ⟨64, 12, 4 * 4096, 4096, 0⟩
      [⟨0, 0, 4096, 0⟩, ⟨2 * 4096, 4096, 4096, 0⟩, ⟨4096, 2 * 4096, 4096, 0⟩,
        ⟨3 * 4096, 3 * 4096, 4096, 0⟩] (by decide)).1,
    by decide, by decide⟩

/-! ## Claim on `fr_io_posix::create_storage` -/

theorem ff_log_eq_zero {e : Int} (h : ff_log e = 0) : e = 0 := by
  unfold ff_log at h
  split at h <;> omega

theorem primary_len_sum_eq :
    ∀ (l : List Extent) (acc : Nat), acc + total_length l < 2 ^ 64 →
      primary_len_sum l acc = acc + total_length l := by
  intro l
  induction l with
  | nil => intro acc _; simp [primary_len_sum, total_length]
  | cons e es ih =>
    intro acc h
    rw [total_length_cons] at h
    unfold primary_len_sum
    rw [to_uoff_of_lt (by omega), ih _ (by omega), total_length_cons]
    omega

theorem neg_einval_ne_zero : -EINVAL ≠ 0 := by decide

theorem neg_efault_ne_zero : -EFAULT ≠ 0 := by decide

theorem replace_storage_mmap_ok (env : StorageEnv) (size : Nat) (secondary : Bool)
    (e : Extent) (off : Nat)
    (h : (replace_storage_mmap env size secondary e off).1 = 0) :
    (replace_storage_mmap env size secondary e off).2.1 = { e with user_data := off } ∧
      (replace_storage_mmap env size secondary e off).2.2
        = wrap env.szbits (off + wrap env.szbits e.length) := by
  unfold replace_storage_mmap at h ⊢
  dsimp only at h ⊢
  by_cases h1 : off ≥ size ∨ wrap env.szbits (off + wrap env.szbits e.length) > size
  · rw [if_pos h1] at h
    exact absurd h neg_einval_ne_zero
  · rw [if_neg h1] at h ⊢
    by_cases h2 : env.sys_munmap off (wrap env.szbits e.length) ≠ 0
    · rw [if_pos h2] at h
      exact absurd (ff_log_eq_zero h) h2
    · rw [if_neg h2] at h ⊢
      by_cases h3 : env.sys_mmap_fixed secondary off (wrap env.szbits e.length) e.physical ≠ 0
      · rw [if_pos h3] at h
        exact absurd (ff_log_eq_zero h) h3
      · rw [if_neg h3] at h ⊢
        by_cases h4 : env.sys_mmap_fixed_moved secondary off (wrap env.szbits e.length)
            e.physical = true
        · rw [if_pos h4] at h
          exact absurd h neg_efault_ne_zero
        · rw [if_neg h4]
          exact ⟨rfl, rfl⟩

theorem replace_primary_ok (env : StorageEnv) (size : Nat) :
    ∀ (l : List Extent) (off : Nat), off + total_length l < 2 ^ env.szbits →
      (replace_primary env size l off).1 = 0 →
      OffsetsFrom off (replace_primary env size l off).2.1 ∧
        (replace_primary env size l off).2.1.map Extent.key = l.map Extent.key ∧
        (replace_primary env size l off).2.2 = off + total_length l := by
  intro l
  induction l with
  | nil =>
    intro off _ _
    exact ⟨trivial, rfl, by simp [replace_primary, total_length]⟩
  | cons e es ih =>
    intro off hlt h
    rw [total_length_cons] at hlt
    unfold replace_primary at h ⊢
    dsimp only at h ⊢
    by_cases h1 : (replace_storage_mmap env size false e off).1 ≠ 0
    · rw [if_pos h1] at h
      exact absurd h h1
    · rw [if_neg h1] at h ⊢
      dsimp only at h ⊢
      obtain ⟨hx, hoff⟩ := replace_storage_mmap_ok env size false e off (by simpa using h1)
      rw [wrap_of_lt (show e.length < 2 ^ env.szbits by omega),
        wrap_of_lt (show off + e.length < 2 ^ env.szbits by omega)] at hoff
      rw [hoff] at h ⊢
      obtain ⟨i1, i2, i3⟩ := ih (off + e.length) (by omega) h
      rw [hx]
      refine ⟨⟨rfl, i1⟩, ?_, ?_⟩
      · rw [List.map_cons, List.map_cons, i2]
        rfl
      · rw [i3, total_length_cons]
        omega

theorem total_length_eq_of_key_eq :
    ∀ (a b : List Extent), a.map Extent.key = b.map Extent.key →
      total_length a = total_length b := by
  intro a b h
  have : (a.map Extent.key).map (fun k => k.2.2) = (b.map Extent.key).map (fun k => k.2.2) := by
    rw [h]
  simp only [List.map_map] at this
  unfold total_length
  exact congrArg List.sum this

theorem create_storage_ok (env : StorageEnv) (primary : List Extent) (secondary : Extent)
    (secondary_size mem_buffer_size : Nat)
    (hsum : total_length primary < 2 ^ 64) (hsec : secondary_size < 2 ^ env.szbits)
    (hok : (create_storage env primary secondary secondary_size mem_buffer_size).err = 0) :
    OffsetsFrom 0
        (create_storage env primary secondary secondary_size mem_buffer_size).primary_storage ∧
      (create_storage env primary secondary secondary_size mem_buffer_size).primary_storage.map
          Extent.key = primary.map Extent.key ∧
      (secondary_size ≠ 0 →
        (create_storage env primary secondary secondary_size mem_buffer_size).secondary_storage
          = ⟨0, 0, secondary_size, total_length primary⟩) ∧
      (create_storage env primary secondary secondary_size mem_buffer_size).storage_mmap_size
        = total_length primary + secondary_size := by
  have hlen : primary_len_sum primary 0 = total_length primary := by
    rw [primary_len_sum_eq primary 0 (by omega)]
    omega
  unfold create_storage at hok ⊢
  rw [hlen] at hok ⊢
  dsimp only at hok ⊢
  by_cases h0 : env.already_initialized = true
  · rw [if_pos h0] at hok
    have hne : (-EISCONN : Int) ≠ 0 := by decide
    exact absurd hok hne
  rw [if_neg h0] at hok ⊢
  by_cases h1 : total_length primary > 2 ^ env.szbits - 1 - secondary_size
  · rw [if_pos h1] at hok
    have hne : EOVERFLOW ≠ 0 := by decide
    have hlog : ff_log EOVERFLOW = 0 := hok
    exact absurd (ff_log_eq_zero hlog) hne
  rw [if_neg h1] at hok ⊢
  have hfit : total_length primary + secondary_size < 2 ^ env.szbits := by omega
  have hsize : wrap env.szbits (wrap env.szbits (total_length primary) + secondary_size)
      = total_length primary + secondary_size := by
    rw [wrap_of_lt (show total_length primary < 2 ^ env.szbits by omega), wrap_of_lt hfit]
  rw [hsize] at hok ⊢
  by_cases h2 : env.sys_mmap_reserve (total_length primary + secondary_size) ≠ 0
  · rw [if_pos h2] at hok
    have hlog : ff_log (env.sys_mmap_reserve (total_length primary + secondary_size)) = 0 := hok
    exact absurd (ff_log_eq_zero hlog) h2
  rw [if_neg h2] at hok ⊢
  by_cases h3 : env.sys_mmap_buffer mem_buffer_size ≠ 0
  · rw [if_pos h3] at hok
    have hlog : ff_log (env.sys_mmap_buffer mem_buffer_size) = 0 := hok
    exact absurd (ff_log_eq_zero hlog) h3
  rw [if_neg h3] at hok ⊢
  by_cases h4 : secondary_size ≠ 0 ∧ env.create_secondary_storage secondary_size ≠ 0
  · rw [if_pos h4] at hok
    exact absurd hok h4.2
  rw [if_neg h4] at hok ⊢
  by_cases h5 : (replace_primary env (total_length primary + secondary_size) primary 0).1 ≠ 0
  · rw [if_pos h5] at hok
    exact absurd hok h5
  rw [if_neg h5] at hok ⊢
  obtain ⟨p1, p2, p3⟩ := replace_primary_ok env (total_length primary + secondary_size)
    primary 0 (by omega) (by simpa using h5)
  rw [Nat.zero_add] at p3
  by_cases hs : secondary_size ≠ 0
  · simp only [hs, if_true, not_false_eq_true, ne_eq] at hok ⊢
    rw [p3] at hok ⊢
    by_cases h6 : (replace_storage_mmap env (total_length primary + secondary_size) true
        ⟨0, 0, secondary_size, secondary.user_data⟩ (total_length primary)).1 = 0
    · obtain ⟨s1, s2⟩ := replace_storage_mmap_ok env _ true _ _ h6
      dsimp only at s1 s2
      rw [wrap_of_lt hsec, wrap_of_lt hfit] at s2
      rw [if_neg (not_not.2 h6), if_neg (not_not.2 s2), s1]
      exact ⟨p1, p2, fun _ => rfl, rfl⟩
    · rw [if_pos h6] at hok
      exact absurd hok h6
  · have hs0 : secondary_size = 0 := not_not.1 hs
    subst hs0
    rw [Nat.add_zero] at p1 p2 p3 hok ⊢
    simp only [ne_eq, not_true_eq_false, if_false, p3] at hok ⊢
    exact ⟨p1, p2, fun h => h.elim, trivial⟩

/-- C19: whenever `create_storage` returns 0 for PRIMARY extents whose lengths sum to
less than 2^64 (they are ranges of one device) and a `secondary_size` that is an
`ft_size`, the lengths of the PRIMARY extents are unchanged, the `user_data` of the
i-th PRIMARY extent is the sum of the lengths of the PRIMARY extents before it, the
SECONDARY extent (when `secondary_size != 0`) has length `secondary_size` and
`user_data` equal to the total PRIMARY length, and the total PRIMARY length plus
`secondary_size` is `storage_mmap_size`. -/
theorem create_storage_tiles_window (env : StorageEnv) (primary : List Extent)
    (secondary : Extent) (secondary_size mem_buffer_size : Nat)
    (hsum : total_length primary < 2 ^ 64) (hsec : secondary_size < 2 ^ env.szbits)
    (hok : (create_storage env primary secondary secondary_size mem_buffer_size).err = 0) :
    (create_storage env primary secondary secondary_size mem_buffer_size).primary_storage.map
        Extent.key = primary.map Extent.key ∧
      (∀ (i : Nat)
        (hi : i < (create_storage env primary secondary secondary_size
          mem_buffer_size).primary_storage.length),
        ((create_storage env primary secondary secondary_size
            mem_buffer_size).primary_storage.get ⟨i, hi⟩).user_data
          = total_length
              ((create_storage env primary secondary secondary_size
                mem_buffer_size).primary_storage.take i)) ∧
      (secondary_size ≠ 0 →
        (create_storage env primary secondary secondary_size
            mem_buffer_size).secondary_storage.user_data
          = total_length
              (create_storage env primary secondary secondary_size
                mem_buffer_size).primary_storage ∧
        (create_storage env primary secondary secondary_size
            mem_buffer_size).secondary_storage.length = secondary_size) ∧
      total_length
          (create_storage env primary secondary secondary_size mem_buffer_size).primary_storage
        + secondary_size
        = (create_storage env primary secondary secondary_size
            mem_buffer_size).storage_mmap_size := by
  obtain ⟨h1, h2, h3, h4⟩ := create_storage_ok env primary secondary secondary_size
    mem_buffer_size hsum hsec hok
  have htl := total_length_eq_of_key_eq _ _ h2
  refine ⟨h2, ?_, ?_, ?_⟩
  · intro i hi
    rw [OffsetsFrom.get_user_data h1 i hi, Nat.zero_add]
  · intro hs
    rw [h3 hs, htl]
    exact ⟨rfl, rfl⟩
  · rw [h4, htl]

/-- C19 (example): three PRIMARY extents of 4096, 8192 and 4096 bytes and a SECONDARY
extent of 4096 bytes, every call succeeding: the offsets are 0, 4096, 12288 and
16384 in a window of 20480 bytes. -/
theorem create_storage_tiles_window_witness :
    (create_storage ideal_storage_env
        [⟨40960, 40960, 4096, 0⟩, ⟨81920, 81920, 8192, 0⟩, ⟨8192, 8192, 4096, 0⟩]
        ⟨0, 0, 0, 0⟩ 4096 65536).err = 0 ∧
    (create_storage ideal_storage_env
        [⟨40960, 40960, 4096, 0⟩, ⟨81920, 81920, 8192, 0⟩, ⟨8192, 8192, 4096, 0⟩]
        ⟨0, 0, 0, 0⟩ 4096 65536).primary_storage
      = [⟨40960, 40960, 4096, 0⟩, ⟨81920, 81920, 8192, 4096⟩, ⟨8192, 8192, 4096, 12288⟩] ∧
    total_length
        (create_storage ideal_storage_env
          [⟨40960, 40960, 4096, 0⟩, ⟨81920, 81920, 8192, 0⟩, ⟨8192, 8192, 4096, 0⟩]
          ⟨0, 0, 0, 0⟩ 4096 65536).primary_storage + 4096
      = (create_storage ideal_storage_env
          [⟨40960, 40960, 4096, 0⟩, ⟨81920, 81920, 8192, 0⟩, ⟨8192, 8192, 4096, 0⟩]
          ⟨0, 0, 0, 0⟩ 4096 65536).storage_mmap_size :=
  ⟨by decide, by decide,
    (create_storage_tiles_window ideal_storage_env
      [⟨40960, 40960, 4096, 0⟩, ⟨81920, 81920, 8192, 0⟩, ⟨8192, 8192, 4096, 0⟩]
      ⟨0, 0, 0, 0⟩ 4096 65536 (by decide) (by decide) (by decide)).2.2.2⟩

/-! ## Claims on the DEV2DEV loop with an empty buffer and on byte values stored in `T` -/

theorem chunk_loop_zero_buffer (p l : Nat) (hp : p ≤ 2 ^ 64 - 1) (hl : l ≤ 2 ^ 64 - 1) :
    ∀ (fuel len : Nat), 0 < len → chunk_loop (ideal_env 0) p l 0 0 fuel len = none := by
  intro fuel
  induction fuel with
  | zero =>
    intro len h
    cases len with
    | zero => omega
    | succ n => rfl
  | succ fuel ih =>
    intro len h
    cases len with
    | zero => omega
    | succ n =>
      have hmin : ff_min2 (n + 1) 0 = 0 := by simp [ff_min2]
      have hp2 : ¬ 18446744073709551615 < p := by omega
      have hl2 : ¬ 18446744073709551615 < l := by omega
      have hrd : (Call.copy fr_dir_posix.FC_POSIX_DEV2RAM p 0 0).status (ideal_env 0) = 0 := by
        simp [Call.status, flush_copy_bytes_status, validate, ideal_env, hp2]
      have hwr : (Call.copy fr_dir_posix.FC_POSIX_RAM2DEV 0 l 0).status (ideal_env 0) = 0 := by
        simp [Call.status, flush_copy_bytes_status, validate, ideal_env, hl2]
      have hfl : flush_bytes (ideal_env 0) = 0 := flush_bytes_eq_zero _
      have hrec := ih (n + 1) (Nat.succ_pos n)
      simp only [chunk_loop, hmin, hrd, hwr, hfl, ne_eq, not_true_eq_false, if_false,
        Nat.sub_zero, hrec]

/-- C29 (the code at a failing input): with a RAM buffer of 0 bytes, every system
call succeeding and the single request `(physical 0, logical 8, length 8)`, the
DEV2DEV call does not return, whatever the fuel: the chunk loop transfers chunks of
`min(length, 0) = 0` bytes and never decreases `length`. -/
theorem dev2dev_zero_buffer_never_returns (fuel : Nat) :
    flush_copy_bytes_dev2dev (ideal_env 0) fuel [⟨0, 8, 8, 0⟩] = none := by
  cases fuel with
  | zero => rfl
  | succ fuel =>
    have hc := chunk_loop_zero_buffer 0 8 (by decide) (by decide) fuel 8 (by decide)
    have hsort : sort_by_physical [(⟨0, 8, 8, 0⟩ : Extent)] = [⟨0, 8, 8, 0⟩] := by decide
    have hfill : fill_pass (ideal_env 0) 0 0 [(⟨0, 8, 8, 0⟩ : Extent)]
        = ⟨0, [], [], [⟨0, 8, 8, 0⟩]⟩ := rfl
    have hbuf : (ideal_env 0).buffer_mmap_size = 0 := rfl
    have hfl : flush_bytes (ideal_env 0) = 0 := flush_bytes_eq_zero _
    have hover : oversize_pass (ideal_env 0) fuel [(⟨0, 8, 8, 0⟩ : Extent)] = none := by
      simp only [oversize_pass, hbuf, hc]
      decide
    simp only [flush_copy_bytes_dev2dev, hsort, dev2dev_loop, hbuf, hfill, hfl, hover]
    decide

/-- C30 (the code at a failing input): for a 32-bit block-number type `T`, 4 KiB
blocks and a device of 2^21 blocks (`check` passes), the entry
`(physical 2^20, length 16)` of `dev_free_map`, all of it requested
(`primary_len = 65536`), is appended to `io->primary_storage()` as
`(physical 0, logical 0, length 65536)`: the byte offset `2^20 * 2^12 = 2^32` was
stored in a variable of type `T` and truncated to 0. -/
theorem fill_io_primary_storage_truncates_physical :
    check 32 false 12 (2 ^ 33) = 0 ∧
    fill_io_primary_storage 32 12 ⟨[⟨2 ^ 20, 2 ^ 20, 16, 0⟩], 16, 0⟩ [] 65536
      = some (⟨[⟨2 ^ 20, 2 ^ 20, 16, 0⟩], 16, 0⟩, [⟨0, 0, 65536, 0⟩]) ∧
    (2 ^ 20 : Nat) * 2 ^ 12 = 2 ^ 32 := by
  decide

/-! ## Claims on `fr_io_posix::open`, `is_open_extents` and `read_extents` -/

/-- C23 (the code at a failing input): without `force_run`, with LOOP-FILE on device
`0x801` while DEVICE is `0x800`, and ZERO-FILE opening correctly on DEVICE, `open`
returns 0 and leaves the three descriptors 3, 4 and 5 open: the `-EINVAL` stored
for LOOP-FILE is overwritten by the next iteration of the loop. When LOOP-FILE is on
DEVICE the outcome is the same. -/
theorem open_loop_file_other_device_not_rejected :
    posix_open (open_env false 0x801) ⟨fd_closed, 0, 0⟩
      = (0, ⟨[3, 4, 5, -1, -1], 2 ^ 30, 2 ^ 29⟩) ∧
    (open_env false 0x801).dev_value FC_LOOP_FILE
      ≠ (open_env false 0x801).dev_value FC_DEVICE ∧
    posix_open (open_env false 0x800) ⟨fd_closed, 0, 0⟩
      = (0, ⟨[3, 4, 5, -1, -1], 2 ^ 30, 2 ^ 29⟩) := by
  decide

/-- C24 (the code at a failing input): with `force_run`, with LOOP-FILE on device
`0x801` while DEVICE is `0x800` and every other check passing, `open` returns 0 with
only DEVICE and LOOP-FILE open: the loop is left by `break` before ZERO-FILE is
opened, so `fd[FC_ZERO_FILE]` stays `-1`. -/
theorem open_force_run_skips_zero_file :
    posix_open (open_env true 0x801) ⟨fd_closed, 0, 0⟩
      = (0, ⟨[3, 4, -1, -1, -1], 2 ^ 30, 2 ^ 29⟩) ∧
    is_open0 (posix_open (open_env true 0x801) ⟨fd_closed, 0, 0⟩).2.fd FC_ZERO_FILE = false := by
  decide

/-- The loop of `is_open_extents` never stops early: it always counts both
entries of `which[]`. -/
theorem is_open_extents_scan_eq (fd : List Int) :
    ∀ (which : List Nat) (i : Nat), is_open_extents_scan fd which i = i + which.length := by
  intro which
  induction which with
  | nil => intro i; rfl
  | cons w ws ih =>
    intro i
    unfold is_open_extents_scan
    have h : ¬ (if (!is_open0 fd w) = true then (1 : Int) else 0) < 0 := by
      split <;> decide
    rw [if_neg h, ih, List.length_cons]
    omega

/-- Whatever the descriptors, `is_open_extents()` is true exactly when
`dev_length() != 0`. -/
theorem is_open_extents_eq (dev_length : Nat) (fd : List Int) :
    is_open_extents dev_length fd = decide (dev_length ≠ 0) := by
  unfold is_open_extents
  by_cases h : dev_length ≠ 0
  · rw [if_pos h, is_open_extents_scan_eq]
    simp [h]
  · rw [if_neg h]
    simp [h]

/-- C25 (the code at a failing input): with `dev_length() = 4096`, DEVICE open on
descriptor 3 and both the LOOP-FILE and the ZERO-FILE descriptor closed,
`is_open_extents()` returns true, and `read_extents` goes on to call
`ff_read_extents_posix` on descriptor `-1`; when that call fails with `EBADF`,
`read_extents` returns `EBADF`, not `ENOTCONN`. -/
theorem is_open_extents_ignores_descriptors :
    is_open_extents 4096 [3, -1, -1, -1, -1] = true ∧
    is_open0 [3, -1, -1, -1, -1] FC_LOOP_FILE = false ∧
    is_open0 [3, -1, -1, -1, -1] FC_ZERO_FILE = false ∧
    (read_extents (fun d _ v m => if d < 0 then (EBADF, v, m) else (0, v, m)) 4096
        [3, -1, -1, -1, -1] [] [] 0).err = EBADF ∧
    EBADF ≠ ENOTCONN := by
  decide

/-! ## Claim on the error path of `fr_io_posix::create_secondary_storage` -/

/-- C28 (the code at a failing input): DEVICE, LOOP-FILE and ZERO-FILE are open on
the descriptors 3, 4 and 5, the scratch file is opened on descriptor 6 and its
first `write` fails with `EIO`. The error path calls `close0(6)`; 6 is not an
index of `fd[]`, so nothing is closed and `fd[FC_SECONDARY_STORAGE]` stays 6. When
the scratch file is opened on descriptor 0 instead (standard input closed), the
error path calls `close0(0)`, which closes descriptor 3 and resets
`fd[FC_DEVICE]`, while `fd[FC_SECONDARY_STORAGE]` stays 0. -/
theorem create_secondary_storage_closes_wrong_index :
    create_secondary_storage (failing_write_env 6) 1 [3, 4, 5, -1, -1] ⟨0, 0, 0, 0⟩ 4096
      = some ⟨ff_log EIO, [3, 4, 5, -1, 6], [], true, ⟨0, 0, 4096, 0⟩⟩ ∧
    create_secondary_storage (failing_write_env 0) 1 [3, 4, 5, -1, -1] ⟨0, 0, 0, 0⟩ 4096
      = some ⟨ff_log EIO, [-1, 4, 5, -1, 0], [3], true, ⟨0, 0, 4096, 0⟩⟩ := by
  decide

/-! ## Claim on `ft_job::init` -/

theorem ff_log_ne_zero {e : Int} (h : e ≠ 0) : ff_log e ≠ 0 :=
  fun h0 => h (ff_log_eq_zero h0)

theorem init_loop_finds (env : JobEnv) (job_max i : Nat) (hi : i < job_max)
    (hmax : job_max ≤ 2 ^ env.uint_bits)
    (hsucc : env.ff_mkdir i = 0 ∧ env.sys_fopen i = 0) :
    ∀ (fuel k : Nat) (err : Int) (dir : String) (log : Option String), k ≤ i →
      i - k < fuel →
      (∀ m, m < i → k ≤ m → ¬ (env.ff_mkdir m = 0 ∧ env.sys_fopen m = 0)) →
      init_loop env job_max fuel k err dir log
        = some ⟨i, 0, job_dir_of env i, some (job_dir_of env i ++ "/fstransform.log"),
            List.range' k (i - k + 1)⟩ := by
  intro fuel
  induction fuel with
  | zero => intro k err dir log _ h; omega
  | succ fuel ih =>
    intro k err dir log hk hfuel hfail
    have hne : k ≠ job_max := by omega
    unfold init_loop
    rw [if_neg hne]
    by_cases hki : k = i
    · subst hki
      have hlog : init_log env k = (0, some (job_dir_of env k ++ "/fstransform.log")) := by
        simp [init_log, hsucc.2]
      simp [hsucc.1, hlog]
    · have hlt : k < i := by omega
      have hw : wrap env.uint_bits (k + 1) = k + 1 := wrap_of_lt (by omega)
      have hrange : List.range' k (i - k + 1) = k :: List.range' (k + 1) (i - (k + 1) + 1) := by
        have : i - k + 1 = (i - (k + 1) + 1) + 1 := by omega
        rw [this, List.range'_succ]
      have hnext := fun (e : Int) (d : String) (l : Option String) =>
        ih (k + 1) e d l (by omega) (by omega) (fun m hm hkm => hfail m hm (by omega))
      by_cases hmk : env.ff_mkdir k ≠ 0
      · rw [if_pos hmk, hw, hnext, hrange]
        rfl
      · have hmk0 : env.ff_mkdir k = 0 := not_not.1 hmk
        have hfo : env.sys_fopen k ≠ 0 := fun h0 => hfail k hlt (le_refl _) ⟨hmk0, h0⟩
        have hlog : (init_log env k).1 ≠ 0 := by
          simp only [init_log, hfo, ne_eq, not_false_eq_true, if_true]
          exact ff_log_ne_zero hfo
        rw [if_neg hmk, if_pos hlog, hw, hnext, hrange]
        rfl

/-- C26: for `args.job_id = 0`, `init` tries the ids 1, 2, 3, ... in increasing order
and stops at the smallest id `i >= 1` (below the end of the range of `ft_uint`) for
which `ff_mkdir` of the job directory and the opening of its log file both
succeed; it returns 0 with job id `i`, the job directory `.../.fstransform/job.<i>`
and the log file open in it. For `args.job_id = j != 0` it tries only id `j`, and
when that directory cannot be created it returns a non-zero error and leaves the
job reset: id 0, empty directory name, no log file. -/
theorem job_init_picks_smallest_id (env : JobEnv) (fuel : Nat) :
    (env.job_id = 0 → 2 ≤ env.uint_bits →
      ∀ i, 1 ≤ i → i < 2 ^ env.uint_bits - 1 → i ≤ fuel →
        env.ff_mkdir i = 0 → env.sys_fopen i = 0 →
        (∀ m, m < i → 1 ≤ m → ¬ (env.ff_mkdir m = 0 ∧ env.sys_fopen m = 0)) →
        job_init env fuel
          = some (0,
              ⟨job_dir_base env ++ toString i,
                some (job_dir_base env ++ toString i ++ "/fstransform.log"), i⟩,
              List.range' 1 i)) ∧
    (env.job_id ≠ 0 → env.job_id < 2 ^ env.uint_bits → 1 ≤ fuel →
      env.ff_mkdir env.job_id ≠ 0 →
        job_init env fuel = some (ff_log (env.ff_mkdir env.job_id), job_reset, [env.job_id]) ∧
        ff_log (env.ff_mkdir env.job_id) ≠ 0) := by
  constructor
  · intro hj hu i h1 hi hfuel hmk hfo hmin
    have hloop := init_loop_finds env (2 ^ env.uint_bits - 1) i hi (Nat.sub_le _ _) ⟨hmk, hfo⟩
      fuel 1 0 (job_dir_base env) none h1 (by omega) hmin
    have hlen : i - 1 + 1 = i := by omega
    rw [hlen] at hloop
    have hne : i ≠ 2 ^ env.uint_bits - 1 := by omega
    simp only [job_init, hj, ne_eq, not_true_eq_false, if_false, hloop, Option.map_some',
      hne, if_true, job_dir_of]
  · intro hj hlt hfuel hmk
    refine ⟨?_, ff_log_ne_zero hmk⟩
    have hpos : 0 < env.job_id := Nat.pos_of_ne_zero hj
    have hne : env.job_id ≠ wrap env.uint_bits (env.job_id + 1) := by
      unfold wrap
      by_cases h : env.job_id + 1 < 2 ^ env.uint_bits
      · rw [Nat.mod_eq_of_lt h]; omega
      · have : env.job_id + 1 = 2 ^ env.uint_bits := by omega
        rw [this, Nat.mod_self]; omega
    obtain ⟨f, rfl⟩ : ∃ f, fuel = f + 1 := ⟨fuel - 1, by omega⟩
    have hend : ∀ (e : Int) (d : String) (l : Option String),
        init_loop env (wrap env.uint_bits (env.job_id + 1)) f
          (wrap env.uint_bits (env.job_id + 1)) e d l
          = some ⟨wrap env.uint_bits (env.job_id + 1), e, d, l, []⟩ := by
      intro e d l
      cases f <;> simp [init_loop]
    simp only [job_init, hj, ne_eq, not_false_eq_true, if_true, init_loop, hne, if_false, hmk,
      hend, Option.map_some', ff_log_ne_zero hmk, quit, job_reset]

/-- C26 (examples): with 32-bit ids and root `/mnt`, when the directories of the
jobs 1 and 2 exist already, `init` tries 1, 2, 3 and starts job 3 in
`/mnt/.fstransform/job.3`; when job 7 is forced and its directory cannot be
created, `init` fails and leaves the job reset. -/
theorem job_init_picks_smallest_id_witness :
    job_init ⟨32, some "/mnt", none, 0, fun i => if i < 3 then 17 else 0, fun _ => 0⟩ 3
      = some (0,
          ⟨"/mnt/.fstransform/job.3", some "/mnt/.fstransform/job.3/fstransform.log", 3⟩,
          [1, 2, 3]) ∧
    job_init ⟨32, some "/mnt", none, 7, fun _ => 17, fun _ => 0⟩ 1
      = some (-17, ⟨"", none, 0⟩, [7]) :=
  ⟨(job_init_picks_smallest_id
      ⟨32, some "/mnt", none, 0, fun i => if i < 3 then 17 else 0, fun _ => 0⟩ 3).1
      rfl (by decide) 3 (by decide) (by decide) (by decide) (by decide) rfl (by decide),
    ((job_init_picks_smallest_id ⟨32, some "/mnt", none, 7, fun _ => 17, fun _ => 0⟩ 1).2
      (by decide) (by decide) (by decide) (by decide)).1⟩

/-! ## Claim on `ft_cache_zmem` -/

theorem zmap_find_append_self {K V : Type} [DecidableEq K] (key : K) (v : V) :
    ∀ (m : List (K × V)), zmap_find m key = none → zmap_find (m ++ [(key, v)]) key = some v := by
  intro m
  induction m with
  | nil => intro _; simp [zmap_find]
  | cons e es ih =>
    intro h
    obtain ⟨k, w⟩ := e
    simp only [zmap_find, List.cons_append] at h ⊢
    by_cases hk : k = key
    · rw [if_pos hk] at h; cases h
    · rw [if_neg hk] at h ⊢
      exact ih h

theorem zmap_find_set_self {K V : Type} [DecidableEq K] (key : K) (v : V) :
    ∀ (m : List (K × V)), zmap_find m key ≠ none → zmap_find (zmap_set m key v) key = some v := by
  intro m
  induction m with
  | nil => intro h; exact absurd rfl h
  | cons e es ih =>
    intro h
    obtain ⟨k, w⟩ := e
    simp only [zmap_find, zmap_set] at h ⊢
    by_cases hk : k = key
    · rw [if_pos hk, zmap_find, if_pos hk]
    · rw [if_neg hk] at h
      rw [if_neg hk, zmap_find, if_neg hk]
      exact ih h

/-- When `zero_payload` is the value-initialised payload `V()` and no entry of the
cache holds it, `find_or_add(k, p)` with `p != zero_payload` behaves as a cache:
for a key that is not cached it returns 0, leaves `p` and caches `k` with `p`; for
a key cached with `q` it returns 1 with `q` and leaves the cache as it is. -/
theorem find_or_add_default_zero {K V : Type} [DecidableEq K] [DecidableEq V]
    (c : ft_cache_zmem K V) (key : K) (p : V) (hp : p ≠ c.zero_payload)
    (hinv : ∀ k, zmap_find c.map k ≠ some c.zero_payload) :
    (zmap_find c.map key = none →
      ∃ c', find_or_add c.zero_payload c key p = some (0, p, c') ∧
        zmap_find c'.map key = some p ∧ c'.zero_payload = c.zero_payload) ∧
    (∀ q, zmap_find c.map key = some q →
      find_or_add c.zero_payload c key p = some (1, q, c)) := by
  constructor
  · intro hnone
    have hfind := zmap_find_append_self key c.zero_payload c.map hnone
    refine ⟨{ c with map := zmap_set (c.map ++ [(key, c.zero_payload)]) key p }, ?_, ?_, rfl⟩
    · simp [find_or_add, hp, hnone, hfind]
    · exact zmap_find_set_self key p _ (by rw [hfind]; exact fun h => by cases h)
  · intro q hq
    have hq0 : q ≠ c.zero_payload := fun h => hinv key (h ▸ hq)
    simp [find_or_add, hp, hq, hq0]

/-- The cache behaviour at a concrete input: payloads are numbers, `zero_payload` is
`V() = 0`, key 1 is cached with payload 9. -/
theorem find_or_add_default_zero_witness :
    (∃ c', find_or_add 0 (⟨0, [(1, 9)]⟩ : ft_cache_zmem Nat Nat) 2 5 = some (0, 5, c') ∧
      zmap_find c'.map 2 = some 5 ∧ c'.zero_payload = 0) ∧
    find_or_add 0 (⟨0, [(1, 9)]⟩ : ft_cache_zmem Nat Nat) 1 5
      = some (1, 9, ⟨0, [(1, 9)]⟩) :=
  ⟨(find_or_add_default_zero (⟨0, [(1, 9)]⟩ : ft_cache_zmem Nat Nat) 2 5 (by decide)
      (by intro k; simp only [zmap_find]; split <;> simp)).1 rfl,
    (find_or_add_default_zero (⟨0, [(1, 9)]⟩ : ft_cache_zmem Nat Nat) 1 5 (by decide)
      (by intro k; simp only [zmap_find]; split <;> simp)).2 9 rfl⟩

/-- C27 (the code at a failing input): payloads are numbers with `V() = 0`, the
cache was constructed with `zero_payload = 7` and is empty. `find_or_add(1, 5)`
returns 1 instead of 0 and overwrites the payload with 0: `map[1]` adds the key
with the payload `V() = 0`, which differs from `zero_payload`, so the key is taken
for a cached one. Afterwards key 1 is cached with payload 0, not 5. -/
theorem find_or_add_nonzero_zero_payload :
    find_or_add 0 (⟨7, []⟩ : ft_cache_zmem Nat Nat) 1 5 = some (1, 0, ⟨7, [(1, 0)]⟩) ∧
    zmap_find (⟨7, []⟩ : ft_cache_zmem Nat Nat).map 1 = none ∧
    find_and_delete (⟨7, [(1, 0)]⟩ : ft_cache_zmem Nat Nat) 1 5 = (1, 0, ⟨7, []⟩) := by
  refine ⟨rfl, rfl, rfl⟩

/-! ## Claims on `simulate_run` and on `fr_io_posix::zero_bytes` -/

theorem copy_notify_is_ui (has_ui : Bool) (dir : fr_dir_posix) (a b n : Nat) :
    ∀ op ∈ copy_notify has_ui dir a b n, op.is_ui = true := by
  intro op hop
  unfold copy_notify at hop
  cases has_ui <;> cases dir <;> simp at hop <;>
    first
    | (subst hop; rfl)
    | (rcases hop with h | h <;> subst h <;> rfl)

theorem filter_is_ui_of_all (l : List Op) (h : ∀ op ∈ l, op.is_ui = true) :
    l.filter Op.is_ui = l :=
  List.filter_eq_self.2 h

theorem flush_copy_bytes_fst (env : IoEnv) (dir : fr_dir_posix) (a b n : Nat) :
    (flush_copy_bytes env dir a b n).1 = flush_copy_bytes_status env.toPosixEnv dir a b n := by
  unfold flush_copy_bytes flush_copy_bytes_status copy_validate
  dsimp only
  split_ifs <;> rfl

theorem flush_bytes_calls_fst (env : IoEnv) :
    (flush_bytes_calls env).1 = flush_bytes env.toPosixEnv := by
  unfold flush_bytes_calls flush_bytes
  dsimp only
  split_ifs <;> rfl

theorem real_run_validate (env : IoEnv) (dir : fr_dir_posix) (a b n : Nat) :
    copy_validate (real_run env).toPosixEnv dir a b n = copy_validate env.toPosixEnv dir a b n :=
  rfl

theorem flush_copy_bytes_simulated (env : IoEnv) (hsim : env.simulate_run = true)
    (dir : fr_dir_posix) (a b n : Nat) :
    flush_copy_bytes env dir a b n
      = (copy_validate env.toPosixEnv dir a b n,
          if copy_validate env.toPosixEnv dir a b n ≠ 0 then []
          else copy_notify env.has_ui dir a b n) := by
  unfold flush_copy_bytes
  dsimp only
  by_cases hv : copy_validate env.toPosixEnv dir a b n ≠ 0
  · rw [if_pos hv, if_pos hv]
  · rw [if_neg hv, if_neg hv, if_pos hsim, not_not.1 hv]

theorem flush_copy_bytes_real_ui (env : IoEnv) (dir : fr_dir_posix) (a b n : Nat) :
    (flush_copy_bytes (real_run env) dir a b n).2.filter Op.is_ui
      = if copy_validate env.toPosixEnv dir a b n ≠ 0 then []
        else copy_notify env.has_ui dir a b n := by
  have hui := filter_is_ui_of_all _ (copy_notify_is_ui env.has_ui dir a b n)
  unfold flush_copy_bytes
  dsimp only
  rw [real_run_validate]
  by_cases hv : copy_validate env.toPosixEnv dir a b n ≠ 0
  · rw [if_pos hv, if_pos hv]
    rfl
  · rw [if_neg hv, if_neg hv]
    have hreal : (real_run env).simulate_run = false := rfl
    have hhas : (real_run env).has_ui = env.has_ui := rfl
    rw [hreal, hhas]
    simp only [Bool.false_eq_true, if_false]
    split_ifs <;> simp [List.filter_append, hui, Op.is_ui]

theorem zero_bytes_simulated (env : IoEnv) (hsim : env.simulate_run = true) (fuel : Nat)
    (dst : fr_to) (offset length : Nat) :
    zero_bytes env fuel dst offset length
      = some (zero_validate env dst offset length,
          if zero_validate env dst offset length ≠ 0 then []
          else if env.has_ui then [Op.show_io_write dst offset length] else []) := by
  unfold zero_bytes
  dsimp only
  by_cases hv : zero_validate env dst offset length ≠ 0
  · rw [if_pos hv, if_pos hv]
  · rw [if_neg hv, if_neg hv, if_pos hsim, not_not.1 hv]

theorem zero_write_loop_not_ui (env : IoEnv) :
    ∀ (fuel length : Nat) (r : Int × List Op), zero_write_loop env fuel length = some r →
      r.2.filter Op.is_ui = [] := by
  intro fuel
  induction fuel with
  | zero =>
    intro length r h
    cases length with
    | zero => simp [zero_write_loop] at h; subst h; rfl
    | succ n => simp [zero_write_loop] at h
  | succ fuel ih =>
    intro length r h
    cases length with
    | zero => simp [zero_write_loop] at h; subst h; rfl
    | succ n =>
      simp only [zero_write_loop] at h
      split at h
      · cases h; rfl
      · cases hrec : zero_write_loop env fuel (n + 1 - ff_min2 (n + 1) ZERO_BUF_LEN) with
        | none => rw [hrec] at h; cases h
        | some r' =>
          rw [hrec] at h
          cases h
          simp only [List.filter_cons, Op.is_ui]
          exact ih _ r' hrec

theorem zero_bytes_real_ui (env : IoEnv) (fuel : Nat) (dst : fr_to) (offset length : Nat)
    (r : Int × List Op) (h : zero_bytes (real_run env) fuel dst offset length = some r) :
    r.2.filter Op.is_ui
      = if zero_validate env dst offset length ≠ 0 then []
        else if env.has_ui then [Op.show_io_write dst offset length] else [] := by
  have hval : zero_validate (real_run env) dst offset length
      = zero_validate env dst offset length := rfl
  have hreal : (real_run env).simulate_run = false := rfl
  have hhas : (real_run env).has_ui = env.has_ui := rfl
  unfold zero_bytes at h
  dsimp only at h
  rw [hval, hreal, hhas] at h
  by_cases hv : zero_validate env dst offset length ≠ 0
  · rw [if_pos hv] at h
    cases h
    rw [if_pos hv]
    rfl
  · rw [if_neg hv] at h
    rw [if_neg hv]
    simp only [Bool.false_eq_true, if_false] at h
    have hui : ∀ l : List Op, l = (if env.has_ui then [Op.show_io_write dst offset length] else []) →
        l.filter Op.is_ui = l := by
      intro l hl
      subst hl
      split <;> rfl
    have hu := hui _ rfl
    split at h
    · cases h
      simp [List.filter_append, hu, Op.is_ui]
    · split at h
      · cases h
        simp [List.filter_append, hu, Op.is_ui]
      · have halloc : (if (real_run env).zero_buf = true then ([] : List Op) else [Op.malloc]).filter
            Op.is_ui = [] := by
          split <;> rfl
        split at h
        · cases h
          simp [List.filter_append, hu, halloc, Op.is_ui]
        · cases hloop : zero_write_loop (real_run env) fuel length with
          | none => rw [hloop] at h; cases h
          | some r' =>
            rw [hloop] at h
            cases h
            have := zero_write_loop_not_ui _ _ _ _ hloop
            simp [List.filter_append, hu, halloc, Op.is_ui, this]

theorem zero_primary_storage_ui (env : IoEnv) (hsim : env.simulate_run = true)
    (primary_storage : List Extent) :
    (∀ op ∈ (zero_primary_storage env primary_storage).2, op.is_ui = true) ∧
    (zero_primary_storage env primary_storage).2
      = (zero_primary_storage (real_run env) primary_storage).2.filter Op.is_ui := by
  have hreal : (real_run env).simulate_run = false := rfl
  have hhas : (real_run env).has_ui = env.has_ui := rfl
  have hmax : (real_run env).size_max = env.size_max := rfl
  unfold zero_primary_storage
  dsimp only
  rw [hreal, hhas, hmax, hsim]
  induction primary_storage with
  | nil => exact ⟨fun op h => (by cases h), rfl⟩
  | cons e es ih =>
    simp only [List.flatMap_cons, if_true, Bool.false_eq_true, if_false, List.append_nil,
      List.filter_append]
    constructor
    · intro op hop
      rw [List.mem_append] at hop
      rcases hop with h | h
      · split at h
        · rw [List.mem_singleton] at h; subst h; rfl
        · cases h
      · exact ih.1 op (by simpa using h)
    · have h2 := ih.2
      simp only [if_true, Bool.false_eq_true, if_false, List.append_nil] at h2
      rw [← h2]
      split <;> simp [Op.is_ui]

/-- C21: with `simulate_run` set, the four-argument `flush_copy_bytes`, `flush_bytes`,
`zero_bytes` and `zero_primary_storage` make no call but notifications of the UI (no
`lseek`, `read` or `write` on DEVICE, no `msync` or `sync`, no write into the
staging window or the RAM buffer), each returns the status of its validation step
(0 where there is none), and the notifications are those of a real run with the
same arguments, whatever the system calls of the real run give. -/
theorem simulate_run_only_notifies (env : IoEnv) (hsim : env.simulate_run = true) :
    (∀ (dir : fr_dir_posix) (from_offset to_offset length : Nat),
      (flush_copy_bytes env dir from_offset to_offset length).1
          = copy_validate env.toPosixEnv dir from_offset to_offset length ∧
        (∀ op ∈ (flush_copy_bytes env dir from_offset to_offset length).2, op.is_ui = true) ∧
        (flush_copy_bytes env dir from_offset to_offset length).2
          = (flush_copy_bytes (real_run env) dir from_offset to_offset length).2.filter
              Op.is_ui) ∧
    ((flush_bytes_calls env).1 = 0 ∧
      (∀ op ∈ (flush_bytes_calls env).2, op.is_ui = true) ∧
      (flush_bytes_calls env).2 = (flush_bytes_calls (real_run env)).2.filter Op.is_ui) ∧
    (∀ (fuel : Nat) (dst : fr_to) (offset length : Nat),
      ∃ ops, zero_bytes env fuel dst offset length
          = some (zero_validate env dst offset length, ops) ∧
        (∀ op ∈ ops, op.is_ui = true) ∧
        ∀ (fuel2 : Nat) (r : Int × List Op),
          zero_bytes (real_run env) fuel2 dst offset length = some r →
          ops = r.2.filter Op.is_ui) ∧
    (∀ (primary_storage : List Extent),
      (zero_primary_storage env primary_storage).1 = 0 ∧
        (∀ op ∈ (zero_primary_storage env primary_storage).2, op.is_ui = true) ∧
        (zero_primary_storage env primary_storage).2
          = (zero_primary_storage (real_run env) primary_storage).2.filter Op.is_ui) := by
  refine ⟨?_, ?_, ?_, ?_⟩
  · intro dir a b n
    rw [flush_copy_bytes_simulated env hsim, flush_copy_bytes_real_ui]
    refine ⟨rfl, ?_, rfl⟩
    intro op hop
    dsimp only at hop
    split at hop
    · cases hop
    · exact copy_notify_is_ui _ _ _ _ _ op hop
  · have hreal : (real_run env).simulate_run = false := rfl
    have hhas : (real_run env).has_ui = env.has_ui := rfl
    unfold flush_bytes_calls
    dsimp only
    rw [hreal, hhas, hsim]
    simp only [if_true, Bool.false_eq_true, if_false, List.filter_append]
    refine ⟨trivial, ?_, ?_⟩
    · intro op hop
      split at hop
      · rw [List.mem_singleton] at hop; subst hop; rfl
      · cases hop
    · split <;> rfl
  · intro fuel dst offset length
    refine ⟨_, zero_bytes_simulated env hsim fuel dst offset length, ?_, ?_⟩
    · intro op hop
      split at hop
      · cases hop
      · split at hop
        · rw [List.mem_singleton] at hop; subst hop; rfl
        · cases hop
    · intro fuel2 r hr
      exact (zero_bytes_real_ui env fuel2 dst offset length r hr).symm
  · intro primary_storage
    exact ⟨rfl, zero_primary_storage_ui env hsim primary_storage⟩

/-- C21 (example): a simulated run with a UI, a device of 2^30 bytes and a staging
window of 2^20 bytes: copying 4096 bytes from DEVICE offset 8192 to the window
offset 0 only shows the read and the write, flushing only shows the flush, and
zeroing beyond the end of the device returns the status of the overflow check. -/
theorem simulate_run_only_notifies_witness :
    ({ ideal_io_env true (2 ^ 30) (2 ^ 20) with simulate_run := true } : IoEnv).simulate_run
      = true ∧
    flush_copy_bytes { ideal_io_env true (2 ^ 30) (2 ^ 20) with simulate_run := true }
        fr_dir_posix.FC_POSIX_DEV2STORAGE 8192 0 4096
      = (0, [Op.show_io_read fr_from.FC_FROM_DEV 8192 4096,
          Op.show_io_write fr_to.FC_TO_STORAGE 0 4096]) ∧
    (flush_bytes_calls { ideal_io_env true (2 ^ 30) (2 ^ 20) with simulate_run := true }).1
      = 0 ∧
    zero_bytes { ideal_io_env true (2 ^ 30) (2 ^ 20) with simulate_run := true } 0
        fr_to.FC_TO_DEV (2 ^ 30) 1
      = some (-EOVERFLOW, []) :=
  ⟨rfl, by decide,
    (simulate_run_only_notifies
      { ideal_io_env true (2 ^ 30) (2 ^ 20) with simulate_run := true } rfl).2.1.1,
    by decide⟩

theorem zero_validate_eq (env : IoEnv) (dst : fr_to) (offset length : Nat)
    (hoff : offset < 2 ^ 64) (hdev : env.dev_length < 2 ^ 64)
    (hst : env.storage_mmap_size < 2 ^ 64) :
    zero_validate env dst offset length
      = if (if dst = fr_to.FC_TO_DEV then env.dev_length else env.storage_mmap_size)
          < offset + length then ff_log EOVERFLOW else 0 := by
  unfold zero_validate ff_can_sum UOFF_BITS
  dsimp only
  rw [to_uoff_of_lt hst]
  by_cases hd : dst = fr_to.FC_TO_DEV
  · simp only [hd, if_true, decide_eq_false_iff_not]
    by_cases h : env.dev_length < offset + length
    · rw [if_pos h, if_pos (by omega)]
    · rw [if_neg h, if_neg (by omega)]
  · simp only [hd, if_false, decide_eq_false_iff_not]
    by_cases h : env.storage_mmap_size < offset + length
    · rw [if_pos h, if_pos (by omega)]
    · rw [if_neg h, if_neg (by omega)]

theorem ff_log_eoverflow_ne_zero : ff_log EOVERFLOW ≠ 0 := by decide

theorem zero_write_loop_ok (env : IoEnv) (hw : ∀ n c, env.sys_write_zero n c = 0) :
    ∀ (fuel length : Nat), length / ZERO_BUF_LEN < fuel →
      ∃ chunks : List Nat,
        zero_write_loop env fuel length = some (0, chunks.map Op.write_zero) ∧
        chunks.sum = length ∧ ∀ c ∈ chunks, 0 < c ∧ c ≤ ZERO_BUF_LEN := by
  have hZ : 0 < ZERO_BUF_LEN := by decide
  intro fuel
  induction fuel with
  | zero => intro length h; exact absurd h (Nat.not_lt_zero _)
  | succ fuel ih =>
    intro length h
    cases length with
    | zero => exact ⟨[], by simp [zero_write_loop], rfl, fun c hc => by cases hc⟩
    | succ n =>
      have hmin : ff_min2 (n + 1) ZERO_BUF_LEN = min (n + 1) ZERO_BUF_LEN := ff_min2_eq_min _ _
      by_cases hle : n + 1 ≤ ZERO_BUF_LEN
      · have hc : ff_min2 (n + 1) ZERO_BUF_LEN = n + 1 := by rw [hmin]; omega
        refine ⟨[n + 1], ?_, by simp, ?_⟩
        · simp only [zero_write_loop, hw, hc, ne_eq, not_true_eq_false, if_false, Nat.sub_self]
          cases fuel <;> simp [zero_write_loop]
        · intro c hc2
          rw [List.mem_singleton] at hc2
          omega
      · have hc : ff_min2 (n + 1) ZERO_BUF_LEN = ZERO_BUF_LEN := by rw [hmin]; omega
        have hdiv : (n + 1 - ZERO_BUF_LEN) / ZERO_BUF_LEN < fuel := by
          have h1 : n + 1 = (n + 1 - ZERO_BUF_LEN) + ZERO_BUF_LEN := by omega
          have h2 := Nat.add_div_right (n + 1 - ZERO_BUF_LEN) hZ
          rw [← h1] at h2
          omega
        obtain ⟨chunks, h1, h2, h3⟩ := ih (n + 1 - ZERO_BUF_LEN) hdiv
        refine ⟨ZERO_BUF_LEN :: chunks, ?_, ?_, ?_⟩
        · simp only [zero_write_loop, hw, hc, ne_eq, not_true_eq_false, if_false, h1,
            Option.map_some', List.map_cons]
        · rw [List.sum_cons, h2]; omega
        · intro c hc2
          rcases List.mem_cons.1 hc2 with h4 | h4
          · omega
          · exact h3 c h4

/-- C22: for an `ft_uoff` offset and with `max` the length of the device (target
DEVICE) or the size of the staging window (target STORAGE), `zero_bytes` returns
the status of `EOVERFLOW`, which is not 0, without any notification and without
any write exactly when `offset + length > max`. When `offset + length <= max`,
`simulate_run` is not set and every call succeeds, it returns 0 having notified the
UI and then, for STORAGE, zeroed the bytes `[offset, offset + length)` of the
window, and for DEVICE made one seek to `offset` followed by writes of zeroes of at
most 1 MiB each whose sizes add up to `length`. -/
theorem zero_bytes_checks_and_zeroes (env : IoEnv) (fuel : Nat) (dst : fr_to)
    (offset length max : Nat)
    (hoff : offset < 2 ^ 64) (hdev : env.dev_length < 2 ^ 64)
    (hst : env.storage_mmap_size < 2 ^ 64)
    (hmax : max = if dst = fr_to.FC_TO_DEV then env.dev_length else env.storage_mmap_size) :
    (zero_bytes env fuel dst offset length = some (ff_log EOVERFLOW, [])
      ↔ max < offset + length) ∧
    ff_log EOVERFLOW ≠ 0 ∧
    (offset + length ≤ max → env.simulate_run = false →
      (dst = fr_to.FC_TO_STORAGE →
        zero_bytes env fuel dst offset length
          = some (0, (if env.has_ui then [Op.show_io_write dst offset length] else [])
              ++ [Op.memset offset length])) ∧
      (dst = fr_to.FC_TO_DEV → (env.zero_buf = true ∨ env.sys_malloc = true) →
        env.sys_lseek offset = 0 → (∀ n c, env.sys_write_zero n c = 0) →
        length / ZERO_BUF_LEN < fuel →
        ∃ chunks : List Nat,
          zero_bytes env fuel dst offset length
            = some (0, (if env.has_ui then [Op.show_io_write dst offset length] else [])
                ++ (if env.zero_buf then [] else [Op.malloc])
                ++ [Op.lseek offset] ++ chunks.map Op.write_zero) ∧
          chunks.sum = length ∧ ∀ c ∈ chunks, 0 < c ∧ c ≤ 1024 * 1024)) := by
  have hv := zero_validate_eq env dst offset length hoff hdev hst
  rw [← hmax] at hv
  refine ⟨?_, ff_log_eoverflow_ne_zero, ?_⟩
  · constructor
    · intro h
      by_contra hcon
      rw [if_neg hcon] at hv
      unfold zero_bytes at h
      rw [hv] at h
      simp only [ne_eq, not_true_eq_false, if_false] at h
      split at h
      · cases h
      · split at h
        · simp at h
        · split at h
          · simp at h
          · split at h
            · simp at h
            · cases hl : zero_write_loop env fuel length with
              | none => rw [hl] at h; cases h
              | some r => rw [hl] at h; simp at h
    · intro h
      rw [if_pos h] at hv
      unfold zero_bytes
      rw [hv, if_pos ff_log_eoverflow_ne_zero]
  · intro hle hsim
    rw [if_neg (by omega)] at hv
    constructor
    · intro hd
      unfold zero_bytes
      rw [hv]
      simp [hsim, hd]
    · intro hd halloc hseek hw hfuel
      obtain ⟨chunks, h1, h2, h3⟩ := zero_write_loop_ok env hw fuel length hfuel
      refine ⟨chunks, ?_, h2, h3⟩
      have hna : ¬ (env.zero_buf = false ∧ env.sys_malloc = false) := by
        rcases halloc with h | h <;> simp [h]
      unfold zero_bytes
      rw [hv]
      simp only [ne_eq, not_true_eq_false, if_false, hsim, Bool.false_eq_true, hd, hna, hseek,
        h1, Option.map_some']
      simp

/-- C22 (example): on a device of 2^30 bytes with a UI, zeroing 3 MiB + 5 bytes at
offset 4096 succeeds with enough fuel, and zeroing one byte at the end of the device
is rejected with `-EOVERFLOW` before anything is done. -/
theorem zero_bytes_checks_and_zeroes_witness :
    (∃ chunks : List Nat,
      zero_bytes (ideal_io_env true (2 ^ 30) (2 ^ 20)) 4 fr_to.FC_TO_DEV 4096 (3 * 2 ^ 20 + 5)
        = some (0, [Op.show_io_write fr_to.FC_TO_DEV 4096 (3 * 2 ^ 20 + 5)] ++ [Op.malloc]
            ++ [Op.lseek 4096] ++ chunks.map Op.write_zero) ∧
      chunks.sum = 3 * 2 ^ 20 + 5 ∧ ∀ c ∈ chunks, 0 < c ∧ c ≤ 1024 * 1024) ∧
    zero_bytes (ideal_io_env true (2 ^ 30) (2 ^ 20)) 4 fr_to.FC_TO_DEV (2 ^ 30) 1
      = some (-EOVERFLOW, []) :=
  ⟨((zero_bytes_checks_and_zeroes (ideal_io_env true (2 ^ 30) (2 ^ 20)) 4 fr_to.FC_TO_DEV 4096
      (3 * 2 ^ 20 + 5) (2 ^ 30) (by decide) (by decide) (by decide) rfl).2.2
      (by decide) rfl).2 rfl (Or.inr rfl) rfl (fun _ _ => rfl) (by decide),
    ((zero_bytes_checks_and_zeroes (ideal_io_env true (2 ^ 30) (2 ^ 20)) 4 fr_to.FC_TO_DEV
      (2 ^ 30) 1 (2 ^ 30) (by decide) (by decide) (by decide) rfl).1).2
      (by decide)⟩

end Fstransform
